import Mathlib

/-!
# DupFinder: a shallow embedding of the duplicate-file finder

The development follows `src/find_dup/search.cc`, and for the two command
lines `src/find_dup/main.cc` and `src/del_file_list/main.cc`.

* The file system is a function from paths to nodes (`FileSys`); a path that
  does not resolve is `none`.  Symbolic links are already resolved by that
  function, so two paths may denote one node.
* External mutation is modelled by a `World`: the file system observed at each
  tick.  Every system call made by the program reads the world at the current
  tick and advances the tick by one.  A tree that does not change is the
  constant world `still fs`.
* Library code that is not part of the repository and whose values the program
  only passes on (XXH64, `std::filesystem::relative`) is a parameter, `Lib`;
  the library functions whose results the program tests (`filename`,
  `extension`, `exists`, ...) are defined after their documentation.
* A status query of `std::filesystem` on a path that does not resolve either
  answers "no such file" or fails with an error; which of the two is the
  parameter `Lib.status_error`.  The throwing overloads raise
  `filesystem_error` in the second case (`throws`): inside the walker the
  handler around the listing loop catches it, in `main` nothing does.  Nothing
  catches it in the group builder either, where such a run ends without a
  report; the model does not follow these runs (there the status queries of
  `legal_file` answer as for a missing file).
* Mutable members of `MyFile` (`first_4k_`, `hashed_`, ...) are ordinary
  fields; a method that writes them returns the updated record.
* Loops are recursive functions over the index list or over explicit fuel.
-/

namespace DupFinder

/-! ## Paths and strings -/

/-- A `std::filesystem::path`, kept as the pieces of its string between the
separators (`toPath`): the empty path has no pieces, a path that starts with a
separator has an empty first piece, and a path that ends in a separator has an
empty last piece. -/
abbrev Path := List String

/-- The components that are written by `path::string()` after the first one.
An empty component that is followed by another one marks the place where a name
was appended to a path ending in a separator (`pathAppend`); it stands for no
text of its own, the separator before it being the one already there. -/
def writtenTail : List String → List String
  | [] => []
  | [b] => [b]
  | b :: c :: rest =>
    if b = "" then writtenTail (c :: rest) else b :: writtenTail (c :: rest)

/-- The member `path::string()`: the components joined by the separator. -/
def pathString (p : Path) : String :=
  match p with
  | [] => ""
  | a :: rest => "/".intercalate (a :: writtenTail rest)

/-- The operator `c / name` for a single file name.  When `c` ends in a
separator its last component is empty and stays in the list; `pathString`
writes no second separator for it, as `operator/` adds none. -/
def pathAppend (c : Path) (name : String) : Path := c ++ [name]

/-- The member `path::filename()`: the last component, empty when there is none. -/
def filename (p : Path) : String := p.getLast?.getD ""

/-- The member `std::string::find(needle)`: position of the first occurrence,
`none` standing for `npos`. -/
def stringFind (needle : List Char) : List Char → Option Nat
  | [] => if needle.isPrefixOf [] then some 0 else none
  | h :: tl =>
    if needle.isPrefixOf (h :: tl) then some 0
    else (stringFind needle tl).map (· + 1)

/-- The test `!name.empty() && name[0] == '.'` of the walker. -/
def dotName (name : String) : Bool :=
  !name.data.isEmpty && name.data.head? == some '.'

/-- The test `dir_str.find("xzfs_fuse_tmp") != std::string::npos` of the walker. -/
def fuseTmpDir (c : Path) : Bool :=
  (stringFind "xzfs_fuse_tmp".data (pathString c).data).isSome

/-! ## File system and world -/

/-- The sentinel `UINT64_MAX`. -/
def UINT64_MAX : Nat := 2 ^ 64 - 1

/-- The file types the program distinguishes. -/
inductive FileType where
  | regular
  | directory
  | other
deriving DecidableEq, Repr

/-- What a path resolves to (symbolic links followed): the fields of
`struct stat` the program reads, the bytes a reader of a regular file gets,
whether it can be opened, and the names a `directory_iterator` yields before
it ends or raises. -/
structure Node where
  type : FileType
  st_ino : Nat
  st_atime : Nat
  st_mtime : Nat
  st_ctime : Nat
  data : List Nat
  readable : Bool
  entries : List String
deriving DecidableEq, Repr

/-- One observation of the file system. -/
abbrev FileSys := Path → Option Node

/-- The file system at every tick. -/
abbrev World := Nat → FileSys

/-- The world of a tree that does not change. -/
def still (fs : FileSys) : World := fun _ => fs

/-- The library function `std::filesystem::exists`. -/
def fs_exists (fs : FileSys) (p : Path) : Bool := (fs p).isSome

/-- The library function `std::filesystem::is_regular_file`. -/
def is_regular_file (fs : FileSys) (p : Path) : Bool :=
  match fs p with
  | some n => decide (n.type = FileType.regular)
  | none => false

/-- The library function `std::filesystem::is_directory`. -/
def is_directory (fs : FileSys) (p : Path) : Bool :=
  match fs p with
  | some n => decide (n.type = FileType.directory)
  | none => false

/-- The library function `std::filesystem::file_size`; `none` when it throws. -/
def file_size (fs : FileSys) (p : Path) : Option Nat :=
  match fs p with
  | some n => if n.type = FileType.regular then some n.data.length else none
  | none => none

/-- Opening a `std::ifstream` in binary mode: the bytes the stream delivers,
`none` when the stream is not usable after opening. -/
def ifstream (fs : FileSys) (p : Path) : Option (List Nat) :=
  match fs p with
  | some n => if n.type = FileType.regular ∧ n.readable = true then some n.data else none
  | none => none

/-- The names delivered by `std::filesystem::directory_iterator(c)`.  An error
raised when opening or while iterating ends the `for` loop of the walker, whose
handler only continues with the next directory, so an error is the same as the
end of the listing. -/
def directory_iterator (fs : FileSys) (c : Path) : List String :=
  match fs c with
  | some n => if n.type = FileType.directory then n.entries else []
  | none => []

/-- Source: `safe_file_size`. -/
def safe_file_size (fs : FileSys) (p : Path) : Nat :=
  match file_size fs p with
  | some n => n
  | none => UINT64_MAX

/-- Source: `Atime`. -/
def Atime (fs : FileSys) (path : Path) : Nat :=
  match fs path with
  | some n => n.st_atime
  | none => 0

/-- Source: `Mtime`. -/
def Mtime (fs : FileSys) (path : Path) : Nat :=
  match fs path with
  | some n => n.st_mtime
  | none => 0

/-- Source: `Ctime`. -/
def Ctime (fs : FileSys) (path : Path) : Nat :=
  match fs path with
  | some n => n.st_ctime
  | none => 0

/-- Source: `get_inode`. -/
def get_inode (fs : FileSys) (p : Path) : Nat :=
  match fs p with
  | some n => n.st_ino
  | none => UINT64_MAX

/-- Library code outside the repository: `XXH64 seed bytes` is the digest of
the xxHash stream seeded with `seed` and fed `bytes`; `relative p base` is
`std::filesystem::relative(p, base).string()`; `status_error t p` tells, for a
status query on `p` at tick `t` that does not find the path, whether the
failure is an error other than a missing file (too many levels of symbolic
links, a name that is too long, a directory on the way that may not be
searched). -/
structure Lib where
  XXH64 : Nat → List Nat → Nat
  relative : Path → Path → String
  status_error : Nat → Path → Bool

/-- Whether a throwing status query of `std::filesystem` (`exists`,
`is_regular_file`, `is_directory`, and the members `is_directory()` and
`is_regular_file()` of a `directory_entry`) on `p` at tick `t` raises
`filesystem_error`: the path does not resolve and the failure is an error. -/
def throws (L : Lib) (w : World) (t : Nat) (p : Path) : Bool :=
  (w t p).isNone && L.status_error t p

/-- Source: `hash_data` (the failure of `XXH64_createState` is not modelled). -/
def hash_data (L : Lib) (data : List Nat) (size : Nat) : Nat :=
  L.XXH64 42 (data.take size)

/-- Source: `hash_file_xxh64`: 0 when the file cannot be opened, otherwise the
digest of all its bytes. -/
def hash_file_xxh64 (L : Lib) (fs : FileSys) (p : Path) (seed : Nat) : Nat :=
  match ifstream fs p with
  | none => 0
  | some bytes => L.XXH64 seed bytes

/-- Source: `legal_file`; two status queries, one tick each. -/
def legal_file (w : World) (t : Nat) (f : Path) : Bool × Nat :=
  if !fs_exists (w t) f then (false, t + 1)
  else if !is_regular_file (w (t + 1)) f then (false, t + 2)
  else (true, t + 2)

/-- The library function `memcmp` on the first `n` bytes, as its sign. -/
def memcmp : List Nat → List Nat → Nat → Int
  | a :: as, b :: bs, n + 1 =>
    if a < b then -1 else if b < a then 1 else memcmp as bs n
  | _, _, _ => 0

/-- The chunk size of `checkFileEqualDeep`. -/
def kBufSz : Nat := 64 * 1024

/-- The loop `while (ifs1 && ifs2)` of `checkFileEqualDeep` over the bytes the
two streams still hold.  `some (r, state_ok)` is a `return r` inside the loop,
`none` is the loop left through its condition.  A read that delivers fewer
than `kBufSz` bytes leaves the stream in a failed state. -/
def compareLoop : Nat → List Nat → List Nat → Option (Int × Bool)
  | 0, _, _ => none
  | fuel + 1, s1, s2 =>
    let n1 := (s1.take kBufSz).length
    let n2 := (s2.take kBufSz).length
    if n1 ≠ n2 then some (-1, false)
    else
      let c := memcmp (s1.take kBufSz) (s2.take kBufSz) n1
      if n1 > 0 ∧ c ≠ 0 then some (c, true)
      else if n1 < kBufSz ∨ n2 < kBufSz then none
      else compareLoop fuel (s1.drop kBufSz) (s2.drop kBufSz)

/-- Source: `checkFileEqualDeep`; the result and `state_ok`, then the tick. -/
def checkFileEqualDeep (w : World) (t : Nat) (p1 p2 : Path) : (Int × Bool) × Nat :=
  if p1 = p2 then ((0, true), t)
  else
    let l1 := legal_file w t p1
    if !l1.1 then ((-1, false), l1.2)
    else
      let l2 := legal_file w l1.2 p2
      if !l2.1 then ((-1, false), l2.2)
      else
        let t2 := l2.2
        let total_size := safe_file_size (w t2) p1
        let total_size1 := safe_file_size (w (t2 + 1)) p2
        if max total_size total_size1 = UINT64_MAX then ((-1, false), t2 + 2)
        else if total_size < total_size1 then ((-1, false), t2 + 2)
        else if total_size > total_size1 then ((1, false), t2 + 2)
        else
          match ifstream (w (t2 + 2)) p1, ifstream (w (t2 + 3)) p2 with
          | some s1, some s2 =>
            match compareLoop (s1.length + 1) s1 s2 with
            | some r => (r, t2 + 4)
            | none =>
              if safe_file_size (w (t2 + 4)) p1 ≠ total_size then ((-1, false), t2 + 5)
              else if safe_file_size (w (t2 + 5)) p2 ≠ total_size then ((-1, false), t2 + 6)
              else ((0, true), t2 + 6)
          | _, _ => ((-1, false), t2 + 4)

/-! ## MyFile -/

/-- Source: `class MyFile`, its private members. -/
structure MyFile where
  real_path_ : Path
  size_ : Nat
  atime_ : Nat
  mtime_ : Nat
  ctime_ : Nat
  first_4k_ : Bool
  first_4k_data_ : List Nat
  hashed_ : Bool
  hash_ : Nat
deriving DecidableEq, Repr

/-- The member initialisers of `MyFile`. -/
def MyFile.init (p : Path) : MyFile :=
  { real_path_ := p, size_ := 0, atime_ := 0, mtime_ := 0, ctime_ := 0,
    first_4k_ := false, first_4k_data_ := List.replicate 4096 0,
    hashed_ := false, hash_ := 0 }

/-- Source: the constructor `MyFile::MyFile`; the record and `ok`, then the tick. -/
def MyFile.construct (w : World) (t : Nat) (p : Path) : (MyFile × Bool) × Nat :=
  let l := legal_file w t p
  if !l.1 then ((MyFile.init p, false), l.2)
  else
    let t1 := l.2
    let atime := Atime (w t1) p
    let mtime := Mtime (w (t1 + 1)) p
    let ctime := Ctime (w (t1 + 2)) p
    let size := safe_file_size (w (t1 + 3)) p
    let f : MyFile :=
      { MyFile.init p with size_ := size, atime_ := atime, mtime_ := mtime, ctime_ := ctime }
    let ok1 : Bool := if min atime (min mtime ctime) = 0 then false else true
    let ok : Bool := if size = 0 ∨ size = UINT64_MAX then false else ok1
    ((f, ok), t1 + 4)

/-- Source: `MyFile::changed`. -/
def MyFile.changed (w : World) (t : Nat) (f : MyFile) : Bool × Nat :=
  let l := legal_file w t f.real_path_
  if !l.1 then (true, l.2)
  else
    let t1 := l.2
    if f.atime_ ≠ Atime (w t1) f.real_path_ then (true, t1 + 1)
    else if f.mtime_ ≠ Mtime (w (t1 + 1)) f.real_path_ then (true, t1 + 2)
    else if f.ctime_ ≠ Ctime (w (t1 + 2)) f.real_path_ then (true, t1 + 3)
    else if f.size_ ≠ safe_file_size (w (t1 + 3)) f.real_path_ then (true, t1 + 4)
    else (false, t1 + 4)

/-- Source: `MyFile::set_first_4k`; a read of fewer than 4096 bytes leaves the
rest of the buffer as it was. -/
def MyFile.set_first_4k (w : World) (t : Nat) (f : MyFile) : (MyFile × Bool) × Nat :=
  if !f.first_4k_ then
    match ifstream (w t) f.real_path_ with
    | none => (({ f with first_4k_ := true }, false), t + 1)
    | some bytes =>
      (({ f with first_4k_ := true,
                 first_4k_data_ := bytes.take 4096 ++
                   f.first_4k_data_.drop (bytes.take 4096).length }, true), t + 1)
  else ((f, true), t)

/-- Source: `MyFile::hash`. -/
def MyFile.hash (L : Lib) (w : World) (t : Nat) (f : MyFile) : (MyFile × Nat) × Nat :=
  if !f.hashed_ then
    let h := hash_file_xxh64 L (w t) f.real_path_ 42
    (({ f with hashed_ := true, hash_ := h }, h), t + 1)
  else ((f, f.hash_), t)

/-- Source: `MyFile::little_hash`. -/
def MyFile.little_hash (L : Lib) (w : World) (t : Nat) (f : MyFile) : (MyFile × Nat) × Nat :=
  let r := f.set_first_4k w t
  ((r.1.1, hash_data L r.1.1.first_4k_data_ 4096), r.2)

/-- Source: `MyFile::compare`; the result with both records (their caches may
have been filled), then the tick.  As in the source, the third test compares
the flags `hashed_`, not the digests `hash_`. -/
def MyFile.compare (L : Lib) (w : World) (t : Nat) (a other : MyFile) :
    (Int × MyFile × MyFile) × Nat :=
  if a.size_ ≠ other.size_ then
    ((if a.size_ < other.size_ then -1 else 1, a, other), t)
  else
    let r1 := a.set_first_4k w t
    let r2 := other.set_first_4k w r1.2
    let a1 := r1.1.1
    let o1 := r2.1.1
    let compare_first_4k := memcmp a1.first_4k_data_ o1.first_4k_data_ 4096
    if compare_first_4k ≠ 0 then ((compare_first_4k, a1, o1), r2.2)
    else
      let h1 := a1.hash L w r2.2
      let h2 := o1.hash L w h1.2
      let a2 := h1.1.1
      let o2 := h2.1.1
      if a2.hashed_ ≠ o2.hashed_ then
        ((if a2.hashed_ < o2.hashed_ then -1 else 1, a2, o2), h2.2)
      else
        let d := checkFileEqualDeep w h2.2 a2.real_path_ o2.real_path_
        ((d.1.1, a2, o2), d.2)

/-! ## The walker of `DuplicateFinder::process` -/

/-- The key of `all_files`: `(little_hash, size)`. -/
abbrev Key := Nat × Nat

/-- The order of `std::pair<uint64_t, uint64_t>`. -/
def keyLt (a b : Key) : Bool :=
  decide (a.1 < b.1) || (decide (a.1 = b.1) && decide (a.2 < b.2))

/-- The statement `all_files[key].push_back(f)` on a `std::map` kept in key order. -/
def mapPush (key : Key) (f : MyFile) : List (Key × List MyFile) → List (Key × List MyFile)
  | [] => [(key, [f])]
  | (k, v) :: rest =>
    if key = k then (k, v ++ [f]) :: rest
    else if keyLt key k then (key, [f]) :: (k, v) :: rest
    else (k, v) :: mapPush key f rest

/-- The variables of the walker: the stack `s` (top first), `checked_inodes`,
`all_files`, and the tick. -/
structure WalkState where
  s : List Path
  checked_inodes : List Nat
  all_files : List (Key × List MyFile)
  t : Nat

/-- The body of `for (const auto &entry : directory_iterator(c))` for the entry
named `e` of the directory `c`, when none of its status queries throws
(`entryThrows`). -/
def visitEntry (L : Lib) (w : World) (c : Path) (st : WalkState) (e : String) : WalkState :=
  let entry := pathAppend c e
  let name := filename entry
  if dotName name then st
  else if is_directory (w st.t) entry then { st with s := entry :: st.s, t := st.t + 1 }
  else if is_regular_file (w (st.t + 1)) entry then
    let r := MyFile.construct w (st.t + 2) entry
    if !r.1.2 then { st with t := r.2 }
    else
      let inode := get_inode (w r.2) entry
      if inode = UINT64_MAX then { st with t := r.2 + 1 }
      else if st.checked_inodes.count inode > 0 then { st with t := r.2 + 1 }
      else
        let h := r.1.1.little_hash L w (r.2 + 1)
        let f := h.1.1
        let little_hash := h.1.2
        let size := f.size_
        { st with checked_inodes := inode :: st.checked_inodes,
                  all_files := mapPush (little_hash, size) f st.all_files,
                  t := h.2 }
  else { st with t := st.t + 2 }

/-- The status queries of the body of the listing loop for the entry named `e`,
in the order the body makes them: `entry.is_directory()`, then
`entry.is_regular_file()`, then `exists` and `is_regular_file` of `legal_file`
in the constructor of `MyFile`.  The result is the tick after the first query
that throws, `none` when none throws. -/
def entryThrows (L : Lib) (w : World) (c : Path) (st : WalkState) (e : String) : Option Nat :=
  let entry := pathAppend c e
  let name := filename entry
  if dotName name then none
  else if throws L w st.t entry then some (st.t + 1)
  else if is_directory (w st.t) entry then none
  else if throws L w (st.t + 1) entry then some (st.t + 2)
  else if is_regular_file (w (st.t + 1)) entry then
    if throws L w (st.t + 2) entry then some (st.t + 3)
    else if !fs_exists (w (st.t + 2)) entry then none
    else if throws L w (st.t + 3) entry then some (st.t + 4)
    else none
  else none

/-- The loop `for (const auto &entry : directory_iterator(c))` inside the `try`
block, over the names still to come.  A `filesystem_error` raised by a status
query of the body leaves the loop: the handler of the `try` block only
continues with the next directory of the stack, so the names after the entry
are not visited; what was pushed and recorded before stays. -/
def visitLoop (L : Lib) (w : World) (c : Path) : List String → WalkState → WalkState
  | [], st => st
  | e :: es, st =>
    match entryThrows L w c st e with
    | some t2 => { st with t := t2 }
    | none => visitLoop L w c es (visitEntry L w c st e)

/-- One iteration of `while (!s.empty())`. -/
def walkStep (L : Lib) (w : World) (st : WalkState) : WalkState :=
  match st.s with
  | [] => st
  | c :: rest =>
    if fuseTmpDir c then { st with s := rest }
    else
      visitLoop L w c (directory_iterator (w st.t) c)
        { st with s := rest, t := st.t + 1 }

/-- At most `fuel` iterations of `while (!s.empty())`. -/
def walkLoop (L : Lib) (w : World) : Nat → WalkState → WalkState
  | 0, st => st
  | fuel + 1, st =>
    match st.s with
    | [] => st
    | _ :: _ => walkLoop L w fuel (walkStep L w st)

/-- The walker at its start: `s.push(search_dir_)`, tick 0. -/
def walkInit (search_dir_ : Path) : WalkState :=
  { s := [search_dir_], checked_inodes := [], all_files := [], t := 0 }

/-- The directories handed to `directory_iterator`, in order, during at most
`fuel` iterations. -/
def walkTrace (L : Lib) (w : World) : Nat → WalkState → List Path
  | 0, _ => []
  | fuel + 1, st =>
    match st.s with
    | [] => []
    | c :: _ =>
      (if fuseTmpDir c then [] else [c]) ++ walkTrace L w fuel (walkStep L w st)

/-! ## The group builder of `DuplicateFinder::process` -/

/-- The variables of the group builder for one bucket: `maybe_equal_files`
(with the caches of its records), the keys `checked` maps to true,
`same_file_groups`, every `group` the emission loop has pushed to
`output["items"]` so far (in order), and the tick. -/
structure GroupState where
  files : List MyFile
  checked : List Nat
  same_file_groups : List (List Path)
  items : List (List Path)
  t : Nat

/-- The record `maybe_equal_files[i]`. -/
def fileAt (files : List MyFile) (i : Nat) : MyFile :=
  files.getD i (MyFile.init [])

/-- The statement `same_file_groups.back().push_back(p)`. -/
def backPush (gs : List (List Path)) (p : Path) : List (List Path) :=
  match gs.getLast? with
  | some g => gs.dropLast ++ [g ++ [p]]
  | none => gs

/-- The inner loop `for (int j = 0; j < c; ++j)` for the leader `i`, over the
indices still to come. -/
def innerScan (L : Lib) (w : World) (i : Nat) : List Nat → GroupState → GroupState
  | [], st => st
  | j :: js, st =>
    if j = i then innerScan L w i js st
    else if st.checked.contains j then innerScan L w i js st
    else
      let cj := (fileAt st.files j).changed w st.t
      if cj.1 then innerScan L w i js { st with checked := j :: st.checked, t := cj.2 }
      else
        let ci := (fileAt st.files i).changed w cj.2
        if ci.1 then { st with same_file_groups := st.same_file_groups.dropLast, t := ci.2 }
        else
          let r := (fileAt st.files i).compare L w ci.2 (fileAt st.files j)
          let files := (st.files.set i r.1.2.1).set j r.1.2.2
          if r.1.1 = 0 then
            innerScan L w i js
              { st with files := files,
                        same_file_groups :=
                          backPush st.same_file_groups (fileAt files j).real_path_,
                        checked := j :: st.checked, t := r.2 }
          else innerScan L w i js { st with files := files, t := r.2 }

/-- The emission loop: every group of `same_file_groups` with more than one
member is pushed to `output["items"]`. -/
def emitGroups (st : GroupState) : GroupState :=
  { st with items := st.items ++ st.same_file_groups.filter (fun g => decide (g.length > 1)) }

/-- The outer loop `for (int i = 0; i < c; ++i)` over the indices still to
come; `c` is the size of the bucket. -/
def leaderLoop (L : Lib) (w : World) (c : Nat) : List Nat → GroupState → GroupState
  | [], st => st
  | i :: is, st =>
    if st.checked.contains i then leaderLoop L w c is st
    else
      let ci := (fileAt st.files i).changed w st.t
      if ci.1 then leaderLoop L w c is { st with checked := i :: st.checked, t := ci.2 }
      else
        let st1 : GroupState :=
          { st with same_file_groups := st.same_file_groups ++ [[(fileAt st.files i).real_path_]],
                    t := ci.2 }
        leaderLoop L w c is (emitGroups (innerScan L w i (List.range c) st1))

/-- The body of `for (const auto &i : all_files)` for one bucket: the groups
pushed to `output["items"]` and the tick afterwards. -/
def groupBucket (L : Lib) (w : World) (t : Nat) (files : List MyFile) :
    List (List Path) × Nat :=
  if files.length > 1 then
    let st := leaderLoop L w files.length (List.range files.length)
      { files := files, checked := [], same_file_groups := [], items := [], t := t }
    (st.items, st.t)
  else ([], t)

/-- The loop `for (const auto &i : all_files)`: all groups pushed to
`output["items"]`, in order. -/
def groupAll (L : Lib) (w : World) : Nat → List (Key × List MyFile) → List (List Path)
  | _, [] => []
  | t, (_, files) :: rest =>
    let r := groupBucket L w t files
    r.1 ++ groupAll L w r.2 rest

/-- The groups pushed to `output["items"]` by `DuplicateFinder::process(output)`
for the root `search_dir_`; `none` when the walker needs more than `fuel`
iterations. -/
def reportGroups (L : Lib) (w : World) (search_dir_ : Path) (fuel : Nat) :
    Option (List (List Path)) :=
  let st := walkLoop L w fuel (walkInit search_dir_)
  match st.s with
  | [] => some (groupAll L w st.t st.all_files)
  | _ :: _ => none

/-! ## The report -/

/-- The values of `nlohmann::json`: those the scanner builds, and the booleans
and integers a parsed input of the deletion utility may also hold. -/
inductive Json where
  | null
  | boolean (b : Bool)
  | number (n : Int)
  | string (s : String)
  | array (xs : List Json)
  | object (kvs : List (String × Json))

/-- The member `push_back` of `nlohmann::json`: a null value becomes an array. -/
def Json.push_back (j : Json) (x : Json) : Json :=
  match j with
  | Json.null => Json.array [x]
  | Json.array xs => Json.array (xs ++ [x])
  | other => other

/-- The statement `output[key].push_back(x)`: `operator[]` turns a null value
into an object and inserts a missing key with a null value. -/
def Json.pushAt (output : Json) (key : String) (x : Json) : Json :=
  match output with
  | Json.null => Json.object [(key, Json.null.push_back x)]
  | Json.object kvs =>
    match kvs.lookup key with
    | some v => Json.object (kvs.map (fun kv => if kv.1 = key then (kv.1, v.push_back x) else kv))
    | none => Json.object (kvs ++ [(key, Json.null.push_back x)])
  | other => other

/-- The object pushed to `item` for one member of a group. -/
def renderMember (L : Lib) (search_dir_ : Path) (path : Path) : Json :=
  Json.object [("display_path", Json.string (L.relative path search_dir_)),
               ("real_path", Json.string (pathString path))]

/-- The value `item` built for one group. -/
def renderGroup (L : Lib) (search_dir_ : Path) (group : List Path) : Json :=
  group.foldl (fun item path => item.push_back (renderMember L search_dir_ path)) Json.null

/-- Source: `DuplicateFinder::process()`: the value of `oj_` that is dumped to
the output stream; `oj_` starts as null. -/
def process (L : Lib) (w : World) (search_dir_ : Path) (fuel : Nat) : Option Json :=
  (reportGroups L w search_dir_ fuel).map
    (fun groups => groups.foldl
      (fun output g => output.pushAt "items" (renderGroup L search_dir_ g)) Json.null)

/-! ## Notions used in the statements -/

/-- Two records carry the same path and the same metadata snapshot; they may
differ in their caches. -/
def sameSnapshot (a b : MyFile) : Prop :=
  a.real_path_ = b.real_path_ ∧ a.size_ = b.size_ ∧ a.atime_ = b.atime_ ∧
    a.mtime_ = b.mtime_ ∧ a.ctime_ = b.ctime_

/-- All records of the bucket index, bucket after bucket. -/
def records : List (Key × List MyFile) → List MyFile
  | [] => []
  | (_, v) :: rest => v ++ records rest

/-- The path `c` lies at or below `root`, none of the names leading from `root`
to it starts with a dot, and none of the directories from `root` down to the
parent of `c` has `xzfs_fuse_tmp` in its path string. -/
def Below (root c : Path) : Prop :=
  ∃ names : List String, c = root ++ names ∧ (∀ n ∈ names, dotName n = false) ∧
    ∀ k, k < names.length → fuseTmpDir (root ++ names.take k) = false

/-- Some query of `changed` on the record, made at tick `t0` or later, answered
false. -/
def Unchanged (w : World) (t0 : Nat) (f : MyFile) : Prop :=
  ∃ t, t0 ≤ t ∧ (f.changed w t).1 = false

/-- Some call of `compare` on the two records (whatever their caches held),
made at tick `t0` or later, returned 0. -/
def Matched (L : Lib) (w : World) (t0 : Nat) (a0 b0 : MyFile) : Prop :=
  ∃ t a b, t0 ≤ t ∧ sameSnapshot a a0 ∧ sameSnapshot b b0 ∧ (a.compare L w t b).1.1 = 0

/-- The path of the record at index `k` of a bucket. -/
def pathAt (files : List MyFile) (k : Nat) : Path := (fileAt files k).real_path_

/-- The group `g` was built, from tick `t0` on, from the bucket `files0` with
leader `i` and matched candidates `js`: its paths are those of `i` and then of
`js`, the candidates are other indices of the bucket in increasing order, the
leader and every candidate answered "not changed" to some query, and every
candidate compared equal to the leader. -/
def GroupOf (L : Lib) (w : World) (t0 : Nat) (files0 : List MyFile) (i : Nat) (js : List Nat)
    (g : List Path) : Prop :=
  g = (i :: js).map (pathAt files0) ∧ i < files0.length ∧
    (∀ j ∈ js, j < files0.length ∧ j ≠ i) ∧ js.Pairwise (· < ·) ∧
    Unchanged w t0 (fileAt files0 i) ∧
    ∀ j ∈ js, Unchanged w t0 (fileAt files0 j) ∧
      Matched L w t0 (fileAt files0 i) (fileAt files0 j)

/-- The bucket `files` is the bucket `files0` up to the caches of its records. -/
def SnapRel (files files0 : List MyFile) : Prop :=
  files.length = files0.length ∧ ∀ k, sameSnapshot (fileAt files k) (fileAt files0 k)

/-- Every group of the list was built from the bucket `files0` by some leader. -/
def GroupsOK (L : Lib) (w : World) (t0 : Nat) (files0 : List MyFile)
    (gs : List (List Path)) : Prop :=
  ∀ g ∈ gs, ∃ i js, GroupOf L w t0 files0 i js g

/-- The record `f` is what the walker inserts for some entry `e` of some
directory `c`: `c` lies at or below the root along names without a leading
dot, its path string has no `xzfs_fuse_tmp`, `e` has no leading dot, the
constructor reported `ok` for `c / e` at some tick, and `f` is the constructed
record after `little_hash` filled its first-block cache. -/
def Recorded (L : Lib) (w : World) (root : Path) (f : MyFile) : Prop :=
  ∃ c e t t2, Below root c ∧ fuseTmpDir c = false ∧ dotName e = false ∧
    (MyFile.construct w t (pathAppend c e)).1.2 = true ∧
    f = ((MyFile.construct w t (pathAppend c e)).1.1.little_hash L w t2).1.1

/-- The invariant of the walker: every pending directory lies at or below the
root along names without a leading dot, and every record of the index was
inserted for an entry of a listed directory. -/
def WalkInv (L : Lib) (w : World) (root : Path) (st : WalkState) : Prop :=
  (∀ c ∈ st.s, Below root c) ∧ ∀ f ∈ records st.all_files, Recorded L w root f

/-- The inode of a record in an unchanging tree. -/
def inodeOf (fs : FileSys) (f : MyFile) : Nat := get_inode fs f.real_path_

/-- The invariant of the walker on inodes, for an unchanging tree: the records
of the index have pairwise different inodes, all of them in `checked_inodes`. -/
def InodeInv (fs : FileSys) (st : WalkState) : Prop :=
  ((records st.all_files).map (inodeOf fs)).Nodup ∧
    ∀ f ∈ records st.all_files, inodeOf fs f ∈ st.checked_inodes

/-- The directories the walker reaches from `root` in an unchanging tree: the
root, and every entry without a leading dot that is a directory, of a reached
directory whose path string has no `xzfs_fuse_tmp`. -/
inductive Reach (fs : FileSys) (root : Path) : Path → Prop where
  | root : Reach fs root root
  | step (c : Path) (e : String) : Reach fs root c → fuseTmpDir c = false →
      e ∈ directory_iterator fs c → dotName e = false →
      is_directory fs (pathAppend c e) = true → Reach fs root (pathAppend c e)

/-- The directories pushed while the directory `c` is processed, in listing
order. -/
def children (fs : FileSys) (c : Path) : List Path :=
  if fuseTmpDir c then []
  else ((directory_iterator fs c).filter
    (fun e => !dotName e && is_directory fs (pathAppend c e))).map (pathAppend c)

/-- The directories handed to `directory_iterator` while the stack entry `c`
and everything pushed for it is processed, down to depth `d` below `c`. -/
def listed (fs : FileSys) : Nat → Path → List Path
  | 0, c => if fuseTmpDir c then [] else [c]
  | d + 1, c =>
    (if fuseTmpDir c then [] else [c]) ++ (children fs c).reverse.flatMap (listed fs d)

/-- The group of the leader `m` in a bucket whose candidates are related by
`E`: the leader, then every other index related to it, in increasing order. -/
def classGroup (files0 : List MyFile) (E : Nat → Nat → Bool) (m : Nat) : List Path :=
  (m :: (List.range files0.length).filter (fun j => decide (j ≠ m) && E m j)).map
    (pathAt files0)

/-- The hypotheses under which the group builder computes equivalence classes:
the records of the bucket `files0`, in any state `a` of their caches allowed by
`Rel`, never answer "changed", and `compare` on two different indices returns 0
exactly when `E` relates them and keeps the caches within `Rel`; `E` is an
equivalence relation on the indices. -/
structure ClassHyp (L : Lib) (w : World) (files0 : List MyFile)
    (Rel : MyFile → MyFile → Prop) (E : Nat → Nat → Bool) : Prop where
  rel_self : ∀ k, k < files0.length → Rel (fileAt files0 k) (fileAt files0 k)
  rel_snap : ∀ a b, Rel a b → sameSnapshot a b
  unchanged : ∀ k, k < files0.length → ∀ t a, Rel a (fileAt files0 k) →
    (a.changed w t).1 = false
  cmp : ∀ i j, i < files0.length → j < files0.length → i ≠ j → ∀ t a b,
    Rel a (fileAt files0 i) → Rel b (fileAt files0 j) →
    ((a.compare L w t b).1.1 = 0 ↔ E i j = true) ∧
    Rel (a.compare L w t b).1.2.1 (fileAt files0 i) ∧
    Rel (a.compare L w t b).1.2.2 (fileAt files0 j)
  refl : ∀ i, E i i = true
  symm : ∀ i j, E i j = true → E j i = true
  trans : ∀ i j k, E i j = true → E j k = true → E i k = true

/-- The candidates the inner scan of the leader `i` adds: other indices that
are not checked and related to `i`. -/
def newMember (E : Nat → Nat → Bool) (i : Nat) (checked : List Nat) (j : Nat) : Bool :=
  decide (j ≠ i) && !checked.contains j && E i j

/-- The state of the bucket is the bucket `files0` up to caches allowed by `Rel`. -/
def RelFiles (Rel : MyFile → MyFile → Prop) (files files0 : List MyFile) : Prop :=
  files.length = files0.length ∧
    ∀ k, k < files0.length → Rel (fileAt files k) (fileAt files0 k)

/-- The index `m` is the first of its class: no smaller index is related to it. -/
def isLeader (E : Nat → Nat → Bool) (m : Nat) : Prop := ∀ i, i < m → E i m = false

/-- The invariant of the leader loop under `ClassHyp`, before the index `n`:
the checked indices are those related to a smaller index below `n`, the groups
built are the class groups of the leaders below `n`, and the emitted groups are
those of them with more than one member. -/
def LeaderInv (files0 : List MyFile) (Rel : MyFile → MyFile → Prop) (E : Nat → Nat → Bool)
    (n : Nat) (st : GroupState) : Prop :=
  RelFiles Rel st.files files0 ∧
  (∀ j, j ∈ st.checked ↔ (j < files0.length ∧ ∃ i, i < n ∧ i < j ∧ E i j = true)) ∧
  (∀ g ∈ st.same_file_groups, ∃ m, m < n ∧ isLeader E m ∧ g = classGroup files0 E m) ∧
  (∀ m, m < n → isLeader E m → classGroup files0 E m ∈ st.same_file_groups) ∧
  (∀ g ∈ st.items, 1 < g.length ∧ ∃ m, m < n ∧ isLeader E m ∧ g = classGroup files0 E m) ∧
  (∀ m, m < n → isLeader E m → 1 < (classGroup files0 E m).length →
    classGroup files0 E m ∈ st.items)

/-- Both paths are readable regular files with the same bytes. -/
def sameData (fs : FileSys) (p q : Path) : Bool :=
  match fs p, fs q with
  | some n1, some n2 =>
    decide (n1.type = FileType.regular) && decide (n2.type = FileType.regular) &&
      n1.readable && n2.readable && decide (n1.data = n2.data)
  | _, _ => false

/-- The path is a regular file the walker accepts: nonzero times, a size other
than 0 and `UINT64_MAX`, an inode other than `UINT64_MAX`. -/
def Eligible (fs : FileSys) (p : Path) : Prop :=
  ∃ n, fs p = some n ∧ n.type = FileType.regular ∧ n.st_atime ≠ 0 ∧ n.st_mtime ≠ 0 ∧
    n.st_ctime ≠ 0 ∧ n.data.length ≠ 0 ∧ n.data.length ≠ UINT64_MAX ∧ n.st_ino ≠ UINT64_MAX

/-- The path is an eligible file entry, without a leading dot, of a reached
directory whose path string has no `xzfs_fuse_tmp`: what the walker records,
whatever the order of the listings. -/
def Candidate (fs : FileSys) (root p : Path) : Prop :=
  ∃ c e, p = pathAppend c e ∧ Reach fs root c ∧ fuseTmpDir c = false ∧
    e ∈ directory_iterator fs c ∧ dotName e = false ∧ Eligible fs p

/-- The record the walker inserts for the path `p` in an unchanging tree. -/
def recordOf (L : Lib) (fs : FileSys) (p : Path) : MyFile :=
  ((MyFile.construct (still fs) 0 p).1.1.little_hash L (still fs) 0).1.1

/-- The key under which the walker inserts a record. -/
def keyOf (L : Lib) (f : MyFile) : Key := (hash_data L f.first_4k_data_ 4096, f.size_)

/-- The walker inserts a record for the entry `e` with path `p` when the set of
seen inodes is `checked`. -/
def insertsB (fs : FileSys) (checked : List Nat) (p : Path) (e : String) : Bool :=
  !dotName e && !is_directory fs p && is_regular_file fs p &&
    (MyFile.construct (still fs) 0 p).1.2 && decide (get_inode fs p ≠ UINT64_MAX) &&
    decide (checked.count (get_inode fs p) = 0)

/-- The invariant of the walker in an unchanging tree: pending directories are
reached, every record is the record of a candidate path, every seen inode is
the inode of a record, and the index is ordered by key and holds under every
key the records of that key. -/
def StillInv (L : Lib) (fs : FileSys) (root : Path) (st : WalkState) : Prop :=
  (∀ c ∈ st.s, Reach fs root c) ∧
  (∀ f ∈ records st.all_files, Candidate fs root f.real_path_ ∧ f = recordOf L fs f.real_path_) ∧
  (∀ x ∈ st.checked_inodes, ∃ f ∈ records st.all_files, inodeOf fs f = x) ∧
  (st.all_files.map Prod.fst).Pairwise (fun a b => keyLt a b = true) ∧
  (∀ kv ∈ st.all_files, ∀ f ∈ kv.2, keyOf L f = kv.1)

/-- The progress invariant of the walker in an unchanging tree: there is a set
`V` of processed directories that holds the root unless it is pending, whose
pushed entries are pending or processed, and whose eligible file entries have
a record with their inode. -/
def DoneInv (fs : FileSys) (root : Path) (st : WalkState) : Prop :=
  ∃ V : Path → Prop,
    (root ∈ st.s ∨ V root) ∧
    (∀ c, V c → ∀ x ∈ children fs c, x ∈ st.s ∨ V x) ∧
    (∀ c, V c → fuseTmpDir c = false → ∀ e ∈ directory_iterator fs c, dotName e = false →
      Eligible fs (pathAppend c e) →
      ∃ f ∈ records st.all_files, inodeOf fs f = get_inode fs (pathAppend c e))

/-- The caches a record of an unchanging tree may hold during group building:
same snapshot, first block read, same first-block bytes. -/
def CacheRel (a b : MyFile) : Prop :=
  sameSnapshot a b ∧ a.first_4k_ = true ∧ a.first_4k_data_ = b.first_4k_data_

/-- The relation of the bucket `files0` in an unchanging tree: the same index,
or two paths with the same bytes. -/
def dataRel (fs : FileSys) (files0 : List MyFile) (i j : Nat) : Bool :=
  decide (i = j) || sameData fs (pathAt files0 i) (pathAt files0 j)

/-- Two groups have the same members. -/
def sameMembers (g h : List Path) : Prop := ∀ p, p ∈ g ↔ p ∈ h

/-- Two reports hold the same set of group membership sets. -/
def sameGroupSets (r1 r2 : List (List Path)) : Prop :=
  (∀ g ∈ r1, ∃ h ∈ r2, sameMembers g h) ∧ (∀ h ∈ r2, ∃ g ∈ r1, sameMembers g h)

/-- Two observations of one tree that differ at most in the order in which
directories list their entries. -/
def sameTree (fs1 fs2 : FileSys) : Prop :=
  ∀ p, (fs1 p = none ∧ fs2 p = none) ∨
    ∃ n1 n2, fs1 p = some n1 ∧ fs2 p = some n2 ∧ n1.type = n2.type ∧
      n1.st_ino = n2.st_ino ∧ n1.st_atime = n2.st_atime ∧ n1.st_mtime = n2.st_mtime ∧
      n1.st_ctime = n2.st_ctime ∧ n1.data = n2.data ∧ n1.readable = n2.readable ∧
      n1.entries.Perm n2.entries

/-- What the group builder needs to know about a finished index `m` of an
unchanging tree: it is ordered by key, every bucket holds the records of its
key, the records are the records of the candidate paths, each once. -/
structure IndexFacts (L : Lib) (fs : FileSys) (root : Path)
    (m : List (Key × List MyFile)) : Prop where
  sorted : (m.map Prod.fst).Pairwise (fun a b => keyLt a b = true)
  keyed : ∀ kv ∈ m, ∀ f ∈ kv.2, keyOf L f = kv.1
  sound : ∀ f ∈ records m, Candidate fs root f.real_path_ ∧ f = recordOf L fs f.real_path_
  nodup : ((records m).map (fun f => f.real_path_)).Nodup
  complete : ∀ p, Candidate fs root p → ∃ f ∈ records m, f.real_path_ = p

/-- The class of the candidate `x`: the candidates that are `x` or have the
bytes of `x`. -/
def InClass (fs : FileSys) (root x p : Path) : Prop :=
  Candidate fs root p ∧ (p = x ∨ sameData fs x p = true)

/-! ## Concrete trees used by the examples -/

/-- A stand-in for the library: a small rolling hash for XXH64 and the lexical
remainder below the base for `relative`; no status query fails with an error. -/
def demoLib : Lib :=
  { XXH64 := fun seed bytes => bytes.foldl (fun acc b => (acc * 31 + b) % 2 ^ 64) seed,
    relative := fun p base => pathString (p.drop base.length),
    status_error := fun _ _ => false }

/-- The scan root `/root`. -/
def demoRoot : Path := ["", "root"]

/-- A readable regular file with the given inode and bytes; all times are 1. -/
def demoFile (ino : Nat) (data : List Nat) : Node :=
  { type := FileType.regular, st_ino := ino, st_atime := 1, st_mtime := 1, st_ctime := 1,
    data := data, readable := true, entries := [] }

/-- A directory with the given inode and entry names. -/
def demoDir (ino : Nat) (entries : List String) : Node :=
  { type := FileType.directory, st_ino := ino, st_atime := 1, st_mtime := 1, st_ctime := 1,
    data := [], readable := true, entries := entries }

/-- `/root` holds `a.txt`, `c.txt`, `b.txt` (listed in this order), all of 4097
bytes with the same first 4096 bytes; `a.txt` and `b.txt` are identical and
`c.txt` differs in its last byte. -/
def fsAcb : FileSys := fun p =>
  if p = demoRoot then some (demoDir 2 ["a.txt", "c.txt", "b.txt"])
  else if p = ["", "root", "a.txt"] then some (demoFile 11 (List.replicate 4096 65 ++ [65]))
  else if p = ["", "root", "b.txt"] then some (demoFile 12 (List.replicate 4096 65 ++ [65]))
  else if p = ["", "root", "c.txt"] then some (demoFile 13 (List.replicate 4096 65 ++ [66]))
  else none

/-- `/root` is an empty directory. -/
def fsEmpty : FileSys := fun p =>
  if p = demoRoot then some (demoDir 2 []) else none

/-- `/root` holds two identical files, one of them named `xzfs_fuse_tmp_a.txt`,
and a directory `xzfs_fuse_tmp` with a third copy. -/
def fsFuse : FileSys := fun p =>
  if p = demoRoot then some (demoDir 2 ["xzfs_fuse_tmp_a.txt", "b.txt", "xzfs_fuse_tmp"])
  else if p = ["", "root", "xzfs_fuse_tmp_a.txt"] then some (demoFile 11 [7, 8, 9])
  else if p = ["", "root", "b.txt"] then some (demoFile 12 [7, 8, 9])
  else if p = ["", "root", "xzfs_fuse_tmp"] then some (demoDir 3 ["c.txt"])
  else if p = ["", "root", "xzfs_fuse_tmp", "c.txt"] then some (demoFile 13 [7, 8, 9])
  else none

/-- `/root` holds `a.txt`, `b.txt`, the hidden file `.c.txt` and the hidden
directory `.git` with `d.txt`; all four files are identical. -/
def fsDot : FileSys := fun p =>
  if p = demoRoot then some (demoDir 2 [".git", "a.txt", ".c.txt", "b.txt"])
  else if p = ["", "root", "a.txt"] then some (demoFile 11 [7, 8, 9])
  else if p = ["", "root", "b.txt"] then some (demoFile 12 [7, 8, 9])
  else if p = ["", "root", ".c.txt"] then some (demoFile 13 [7, 8, 9])
  else if p = ["", "root", ".git"] then some (demoDir 3 ["d.txt"])
  else if p = ["", "root", ".git", "d.txt"] then some (demoFile 14 [7, 8, 9])
  else none

/-- `/root` holds `p1`, `p2`, `q` with the same bytes; `p1` and `p2` are hard
links of inode 11.  The order of the listing is the argument. -/
def fsLinks (order : List String) : FileSys := fun p =>
  if p = demoRoot then some (demoDir 2 order)
  else if p = ["", "root", "p1"] then some (demoFile 11 [7, 8, 9])
  else if p = ["", "root", "p2"] then some (demoFile 11 [7, 8, 9])
  else if p = ["", "root", "q"] then some (demoFile 12 [7, 8, 9])
  else none

/-- `/root` holds the directory `d` and the directory symlink `l` to `d`;
`d` holds `x`. -/
def fsSymlink : FileSys := fun p =>
  if p = demoRoot then some (demoDir 2 ["d", "l"])
  else if p = ["", "root", "d"] then some (demoDir 5 ["x"])
  else if p = ["", "root", "l"] then some (demoDir 5 ["x"])
  else if p = ["", "root", "d", "x"] then some (demoFile 11 [7, 8, 9])
  else if p = ["", "root", "l", "x"] then some (demoFile 11 [7, 8, 9])
  else none

/-- `/root` holds `a.txt` and the directory `sub`; `sub` holds `b.txt` and the
empty directory `deep`. -/
def fsNested : FileSys := fun p =>
  if p = demoRoot then some (demoDir 2 ["sub", "a.txt"])
  else if p = ["", "root", "a.txt"] then some (demoFile 11 [7, 8, 9])
  else if p = ["", "root", "sub"] then some (demoDir 3 ["b.txt", "deep"])
  else if p = ["", "root", "sub", "b.txt"] then some (demoFile 12 [7, 8, 9])
  else if p = ["", "root", "sub", "deep"] then some (demoDir 4 [])
  else none

/-- `/root` holds `a.txt` and `b.txt` with the same bytes and `c.txt` with
other bytes, no hard links.  The order of the listing is the argument. -/
def fsOrder (order : List String) : FileSys := fun p =>
  if p = demoRoot then some (demoDir 2 order)
  else if p = ["", "root", "a.txt"] then some (demoFile 11 [7, 8, 9])
  else if p = ["", "root", "b.txt"] then some (demoFile 12 [7, 8, 9])
  else if p = ["", "root", "c.txt"] then some (demoFile 13 [7, 8, 1])
  else none

/-- `/root` holds the identical files `a.txt` and `b.txt`, and `e.txt` of 0 bytes. -/
def fsPair : FileSys := fun p =>
  if p = demoRoot then some (demoDir 2 ["a.txt", "b.txt", "e.txt"])
  else if p = ["", "root", "a.txt"] then some (demoFile 11 [7, 8, 9])
  else if p = ["", "root", "b.txt"] then some (demoFile 12 [7, 8, 9])
  else if p = ["", "root", "e.txt"] then some (demoFile 13 [])
  else none

/-- `/root` holds the identical files `a.txt`, `b.txt` and `c.txt`. -/
def fsTrio : FileSys := fun p =>
  if p = demoRoot then some (demoDir 2 ["a.txt", "b.txt", "c.txt"])
  else if p = ["", "root", "a.txt"] then some (demoFile 11 [7, 8, 9])
  else if p = ["", "root", "b.txt"] then some (demoFile 12 [7, 8, 9])
  else if p = ["", "root", "c.txt"] then some (demoFile 13 [7, 8, 9])
  else none

/-- The tree `fsTrio` after `b.txt` was touched: a later mtime. -/
def fsTrioTouched : FileSys := fun p =>
  if p = ["", "root", "b.txt"] then some { demoFile 12 [7, 8, 9] with st_mtime := 2 }
  else fsTrio p

/-! ## The two command lines -/

/-- The pieces of a path string between its separators.  Of a run of several
separators the last one separates; the ones before it stay at the end of the
piece before the run, so that joining the pieces gives the string back. -/
def splitPath : List Char → List (List Char)
  | [] => [[]]
  | c :: cs =>
    if c = '/' then
      if cs.head? = some '/' then ('/' :: (splitPath cs).headD []) :: (splitPath cs).tail
      else [] :: splitPath cs
    else (c :: (splitPath cs).headD []) :: (splitPath cs).tail

/-- The constructor `std::filesystem::path(s)` from a string; the empty string
is the path without components. -/
def toPath (s : String) : Path :=
  if s.data.isEmpty then [] else (splitPath s.data).map String.mk

/-- The member `rfind('.')` of a file name, `none` standing for `npos`. -/
def rfindDot : List Char → Option Nat
  | [] => none
  | c :: cs =>
    match rfindDot cs with
    | some k => some (k + 1)
    | none => if c = '.' then some 0 else none

/-- The member `path::extension()`: the file name from its last period on;
empty for the names `.` and `..`, for a name without a period, and for a name
whose only period is its first character. -/
def extension (p : Path) : String :=
  let name := (filename p).data
  if name = ['.'] ∨ name = ['.', '.'] then ""
  else
    match rfindDot name with
    | none => ""
    | some 0 => ""
    | some (k + 1) => String.mk (name.drop (k + 1))

/-- The member `path::has_extension()`. -/
def has_extension (p : Path) : Bool := !(extension p).data.isEmpty

/-- The member `path::replace_extension(replacement)`: the extension is
removed from the file name, then the replacement is appended, after a period
when it is not empty and does not start with one. -/
def replace_extension (p : Path) (replacement : String) : Path :=
  let name := (filename p).data
  let stem := name.take (name.length - (extension p).data.length)
  let dot : List Char :=
    if replacement.data.isEmpty ∨ replacement.data.head? = some '.' then [] else ['.']
  p.dropLast ++ [String.mk (stem ++ dot ++ replacement.data)]

/-- How a run of a command line ends: `main` returns a status, or an exception
leaves `main` and the process is terminated without a status of its own. -/
inductive Ending where
  | returned (status : Nat)
  | terminated
deriving DecidableEq, Repr

/-- What the scanner's `main` did up to the call of `process()`: the path on
which it opened a `std::ofstream` (the file is created, or truncated when it
exists), the root and the output path of the stream it handed to
`DuplicateFinder` before calling `process()`, and how it ended; when the core
was invoked, `ending` is the end of `main` after `process()` has returned. -/
structure MainResult where
  ending : Ending
  opened : Option Path
  core : Option (Path × Path)
deriving DecidableEq, Repr

/-- Every `return 1` of the scanner's `main`: nothing opened, no core. -/
def MainResult.fail : MainResult :=
  { ending := Ending.returned 1, opened := none, core := none }

/-- A `filesystem_error` raised by a status query of the scanner's `main`:
nothing catches it, so the run is terminated; nothing opened, no core. -/
def MainResult.thrown : MainResult :=
  { ending := Ending.terminated, opened := none, core := none }

/-- Source: `main` of `find_dup/main.cc`.  `argv` holds the program name and
the arguments, `ofstream_open p` tells whether `std::ofstream(p)` is open after
its construction.  The three status queries (`exists` and `is_directory` on the
root, `exists` on the output argument) are the throwing overloads; they read
the world at the ticks 0, 1 and 2. -/
def find_dup.main (L : Lib) (w : World) (ofstream_open : Path → Bool) (argv : List String) :
    MainResult :=
  if argv.length < 3 then MainResult.fail
  else
    let search_dir := argv.getD 1 ""
    let dir := toPath search_dir
    if throws L w 0 dir then MainResult.thrown
    else if !fs_exists (w 0) dir then MainResult.fail
    else if throws L w 1 dir then MainResult.thrown
    else if !is_directory (w 1) dir then MainResult.fail
    else
      let output_json_path := argv.getD 2 ""
      let output := toPath output_json_path
      if throws L w 2 (toPath output_json_path) then MainResult.thrown
      else if fs_exists (w 2) (toPath output_json_path) then MainResult.fail
      else
        let output2 : Option Path :=
          if !has_extension output then some (replace_extension output ".json")
          else if extension output ≠ ".json" then none
          else some output
        match output2 with
        | none => MainResult.fail
        | some out =>
          if !ofstream_open out then MainResult.fail
          else { ending := Ending.returned 0, opened := some out, core := some (dir, out) }

/-- What the deletion utility did: how it ended, and the paths it handed to
`std::filesystem::remove`, in order. -/
structure DelResult where
  ending : Ending
  removed : List Path
deriving DecidableEq, Repr

/-- The expression `input_file["items"]` with the non-const `operator[]`: a
null value becomes an object, a missing key is inserted with a null value, and
a value that is neither null nor an object throws (`none`). -/
def Json.index (j : Json) (key : String) : Option Json :=
  match j with
  | Json.null => some Json.null
  | Json.object kvs => some ((kvs.lookup key).getD Json.null)
  | _ => none

/-- The loop `for (const auto &item : file_list)` of the deletion utility over
the items still to come; `removed` holds the calls of `remove` made so far.  An
error thrown by `remove` is caught inside the loop. -/
def removeLoop : List Json → List Path → DelResult
  | [], removed => { ending := Ending.returned 0, removed := removed }
  | Json.string s :: rest, removed => removeLoop rest (removed ++ [toPath s])
  | _ :: _, removed => { ending := Ending.returned 1, removed := removed }

/-- Source: `main` of `del_file_list/main.cc`.  `parse p` is the value
`nlohmann::json::parse(std::ifstream(p))`, `none` when the parser throws. -/
def del_file_list.main (parse : String → Option Json) (argv : List String) : DelResult :=
  if argv.length ≠ 2 then { ending := Ending.returned 1, removed := [] }
  else
    match parse (argv.getD 1 "") with
    | none => { ending := Ending.terminated, removed := [] }
    | some input_file =>
      match input_file.index "items" with
      | none => { ending := Ending.terminated, removed := [] }
      | some (Json.array file_list) => removeLoop file_list []
      | some _ => { ending := Ending.returned 1, removed := [] }

/-! ## The calls of the inner scan -/

/-- What the inner scan does, as far as the statements speak of it:
`changed k t t2 r` is the call `maybe_equal_files[k].changed()` made at tick
`t`, finished at tick `t2`, with the answer `r`; `compare i j t r` is the call
`maybe_equal_files[i].compare(maybe_equal_files[j])` made at tick `t` with the
result `r`; `pop_back g` is the statement `same_file_groups.pop_back()` that
removes the group `g`, followed by `break`. -/
inductive Event where
  | changed (k : Nat) (t : Nat) (t2 : Nat) (r : Bool)
  | compare (i j : Nat) (t : Nat) (r : Int)
  | pop_back (g : List Path)
deriving DecidableEq, Repr

/-- The events of the inner loop `for (int j = 0; j < c; ++j)` for the leader
`i`, in order; the states are those of `innerScan`. -/
def innerLog (L : Lib) (w : World) (i : Nat) : List Nat → GroupState → List Event
  | [], _ => []
  | j :: js, st =>
    if j = i then innerLog L w i js st
    else if st.checked.contains j then innerLog L w i js st
    else
      let cj := (fileAt st.files j).changed w st.t
      if cj.1 then
        Event.changed j st.t cj.2 true ::
          innerLog L w i js { st with checked := j :: st.checked, t := cj.2 }
      else
        let ci := (fileAt st.files i).changed w cj.2
        if ci.1 then
          [Event.changed j st.t cj.2 false, Event.changed i cj.2 ci.2 true,
            Event.pop_back (st.same_file_groups.getLast?.getD [])]
        else
          let r := (fileAt st.files i).compare L w ci.2 (fileAt st.files j)
          let files := (st.files.set i r.1.2.1).set j r.1.2.2
          if r.1.1 = 0 then
            Event.changed j st.t cj.2 false :: Event.changed i cj.2 ci.2 false ::
              Event.compare i j ci.2 r.1.1 ::
              innerLog L w i js
                { st with files := files,
                          same_file_groups :=
                            backPush st.same_file_groups (fileAt files j).real_path_,
                          checked := j :: st.checked, t := r.2 }
          else
            Event.changed j st.t cj.2 false :: Event.changed i cj.2 ci.2 false ::
              Event.compare i j ci.2 r.1.1 ::
              innerLog L w i js { st with files := files, t := r.2 }

/-- The events of the outer loop `for (int i = 0; i < c; ++i)` over the indices
still to come, in order: the call of `changed()` on every index that is not yet
checked and, for an index that starts a group, the events of its inner scan.
The states are those of `leaderLoop`. -/
def leaderLog (L : Lib) (w : World) (c : Nat) : List Nat → GroupState → List Event
  | [], _ => []
  | i :: is, st =>
    if st.checked.contains i then leaderLog L w c is st
    else
      let ci := (fileAt st.files i).changed w st.t
      if ci.1 then
        Event.changed i st.t ci.2 true ::
          leaderLog L w c is { st with checked := i :: st.checked, t := ci.2 }
      else
        let st1 : GroupState :=
          { st with same_file_groups := st.same_file_groups ++ [[(fileAt st.files i).real_path_]],
                    t := ci.2 }
        Event.changed i st.t ci.2 false ::
          (innerLog L w i (List.range c) st1 ++
            leaderLog L w c is (emitGroups (innerScan L w i (List.range c) st1)))

/-- The events of the group builder on one bucket, started at tick `t`; the
indices are those of the bucket. -/
def bucketLog (L : Lib) (w : World) (t : Nat) (files : List MyFile) : List Event :=
  if files.length > 1 then
    leaderLog L w files.length (List.range files.length)
      { files := files, checked := [], same_file_groups := [], items := [], t := t }
  else []

/-- The events of the loop `for (const auto &i : all_files)`: for every bucket
of the index, in order, the events of the group builder on it. -/
def groupAllLog (L : Lib) (w : World) : Nat → List (Key × List MyFile) → List (List Event)
  | _, [] => []
  | t, (_, files) :: rest =>
    bucketLog L w t files :: groupAllLog L w (groupBucket L w t files).2 rest

/-- The inode `i` was obtained for the path `p`: `get_inode` returned it at
some tick, and it is not the sentinel. -/
def InodeAt (w : World) (p : Path) (i : Nat) : Prop :=
  i ≠ UINT64_MAX ∧ ∃ t, get_inode (w t) p = i

/-- The invariant of the walker on inodes, in any world: the records of the
index can be listed with the inode that was obtained for each of them when it
was inserted; these inodes are pairwise different and are exactly the members
of `checked_inodes`. -/
def SeenInv (w : World) (st : WalkState) : Prop :=
  ∃ inos : List Nat,
    List.Forall₂ (fun f i => InodeAt w f.real_path_ i) (records st.all_files) inos ∧
    inos.Nodup ∧ inos.Perm st.checked_inodes

/-- The invariant of the walker on paths, in any world in which no listing
yields a name twice: no two records have the same path, no pending directory
is a prefix of another one, and no pending directory is a prefix of the path
of a record. -/
def PathInv (st : WalkState) : Prop :=
  ((records st.all_files).map (fun f => f.real_path_)).Nodup ∧
  st.s.Pairwise (fun a b => ¬ a <+: b ∧ ¬ b <+: a) ∧
  ∀ d ∈ st.s, ∀ f ∈ records st.all_files, ¬ d <+: f.real_path_

/-- The invariant of the listing loop for the directory `c` after the entries
`seen`: `PathInv`, and the pending directories and recorded paths that start
with `c` are entries of `c` that the loop has seen. -/
def ListInv (c : Path) (seen : List String) (st : WalkState) : Prop :=
  PathInv st ∧ (∀ d ∈ st.s, ¬ d <+: c) ∧
  (∀ d ∈ st.s, c <+: d → ∃ e ∈ seen, d = pathAppend c e) ∧
  (∀ f ∈ records st.all_files, c <+: f.real_path_ → ∃ e ∈ seen, f.real_path_ = pathAppend c e)

/-- Every member of the group `g` is the path of a candidate of the bucket
`files0` that answered "not changed" to a query of the log. -/
def Queried (files0 : List MyFile) (log : List Event) (g : List Path) : Prop :=
  ∃ idxs : List Nat, g = idxs.map (pathAt files0) ∧
    ∀ k ∈ idxs, k < files0.length ∧ ∃ tq t2, Event.changed k tq t2 false ∈ log

/-- The state of the group builder when it starts on a bucket. -/
def groupInit (files : List MyFile) (t : Nat) : GroupState :=
  { files := files, checked := [], same_file_groups := [], items := [], t := t }

/-- The state in which the inner scan of the leader `i` starts: the new group
of the leader is the last of `same_file_groups`, after the leader answered
"not changed" to the query made at `st.t`. -/
def leadState (w : World) (i : Nat) (st : GroupState) : GroupState :=
  { st with same_file_groups := st.same_file_groups ++ [[(fileAt st.files i).real_path_]],
            t := ((fileAt st.files i).changed w st.t).2 }

/-- The state of the group builder on the bucket `files`, started at tick `t`,
when the leader loop has run over the indices `before`. -/
def builderAt (L : Lib) (w : World) (t : Nat) (files : List MyFile) (before : List Nat) :
    GroupState :=
  leaderLoop L w files.length before (groupInit files t)

/-- The member `path::is_absolute()` on a POSIX system: the path string starts
with the separator. -/
def is_absolute (p : Path) : Bool := (pathString p).data.head? == some '/'

/-! ## Further example inputs -/

/-- `/root` holds the regular file `out.json`, an earlier report; there is no
`/root/out`. -/
def fsOut : FileSys := fun p =>
  if p = demoRoot then some (demoDir 2 ["out.json"])
  else if p = ["", "root", "out.json"] then some (demoFile 11 [1, 2, 3])
  else none

/-- Whether a component of the path is longer than the 255 bytes a file name
may have. -/
def nameTooLong (p : Path) : Bool := p.any (fun c => decide (255 < c.length))

/-- A library and system in which a status query fails with an error exactly
for a path with a component that is too long. -/
def longNameLib : Lib := { demoLib with status_error := fun _ p => nameTooLong p }

/-- A file name of 300 characters. -/
def longName : String := String.mk (List.replicate 300 'x')

/-- A parsed deletion list whose second item is a number. -/
def listWithNumber : Json :=
  Json.object [("items", Json.array [Json.string "/root/a.txt", Json.number 7,
    Json.string "/root/b.txt"])]

/-- A parsed deletion list of two path strings. -/
def listOfTwo : Json :=
  Json.object [("items", Json.array [Json.string "/root/a.txt", Json.string "/root/b.txt"])]

/-- The tree `fsPair` while `a.txt` cannot be opened. -/
def fsPairLocked : FileSys := fun p =>
  if p = ["", "root", "a.txt"] then some { demoFile 11 [7, 8, 9] with readable := false }
  else fsPair p

/-- A world in which `a.txt` cannot be opened at tick 2 only: the tick at which
a call of `compare` made at tick 0 on two fresh records computes the full hash
of the first record. -/
def worldHashFail : World := fun t => if t = 2 then fsPairLocked else fsPair

/-- The record the constructor builds for `/root/a.txt` in `fsPair`. -/
def recA : MyFile := (MyFile.construct (still fsPair) 0 ["", "root", "a.txt"]).1.1

/-- The record the constructor builds for `/root/b.txt` in `fsPair`. -/
def recB : MyFile := (MyFile.construct (still fsPair) 0 ["", "root", "b.txt"]).1.1

/-- The directory `data`, named by a relative path, holds the identical files
`a.txt` and `b.txt`. -/
def fsRelative : FileSys := fun p =>
  if p = ["data"] then some (demoDir 2 ["a.txt", "b.txt"])
  else if p = ["data", "a.txt"] then some (demoFile 11 [7, 8, 9])
  else if p = ["data", "b.txt"] then some (demoFile 12 [7, 8, 9])
  else none

/-- The tree with `a.txt` and `b.txt` of the same bytes and `c.txt` of other
bytes. -/
def fsMixed : FileSys := fsOrder ["a.txt", "c.txt", "b.txt"]

/-- A bucket with the records of `a.txt`, `c.txt` and `b.txt` of `fsMixed`, in
this order. -/
def bucketMixed : List MyFile :=
  [recordOf demoLib fsMixed ["", "root", "a.txt"], recordOf demoLib fsMixed ["", "root", "c.txt"],
    recordOf demoLib fsMixed ["", "root", "b.txt"]]

/-- The tree `fsTrio` after `a.txt` was touched: a later mtime. -/
def fsTrioTouchedA : FileSys := fun p =>
  if p = ["", "root", "a.txt"] then some { demoFile 11 [7, 8, 9] with st_mtime := 2 }
  else fsTrio p

/-- A world in which `a.txt` is touched at tick 33: when the group builder,
started at tick 0 on the bucket of the three files, has added `b.txt` to the
group of the leader `a.txt` and is about to compare `c.txt`. -/
def worldLeaderTouched : World := fun t => if t < 33 then fsTrio else fsTrioTouchedA

/-- The bucket of the three identical files of `fsTrio`, as the walker fills it. -/
def bucketTrio : List MyFile :=
  [recordOf demoLib fsTrio ["", "root", "a.txt"], recordOf demoLib fsTrio ["", "root", "b.txt"],
    recordOf demoLib fsTrio ["", "root", "c.txt"]]

/-- A world in which `b.txt` is touched at tick 37: group building on the three
files of `fsTrio` starts at tick 31, and its first query of `b.txt` is made
after the touch. -/
def worldLate : World := fun t => if t < 37 then fsTrio else fsTrioTouched

/-- The tree `fsPair` with the access time 2 for the files named in `read`:
the files a reader has opened since the tree was made. -/
def fsPairRead (read : List String) : FileSys := fun p =>
  if p = ["", "root", "a.txt"] then
    some { demoFile 11 [7, 8, 9] with st_atime := if "a.txt" ∈ read then 2 else 1 }
  else if p = ["", "root", "b.txt"] then
    some { demoFile 12 [7, 8, 9] with st_atime := if "b.txt" ∈ read then 2 else 1 }
  else fsPair p

/-- The tree `fsPair`, which nobody else touches, on a file system that moves
the access time of a file when it is read for the first time: the walker reads
`a.txt` at tick 10 and `b.txt` at tick 20. -/
def worldSelfRead : World := fun t =>
  if t ≤ 10 then fsPairRead [] else if t ≤ 20 then fsPairRead ["a.txt"]
  else fsPairRead ["a.txt", "b.txt"]

/-- `/root` lists its entries in the given order: the identical files `a.txt`
and `b.txt`, the empty directory `sub`, and `bad`, a symbolic link to itself,
which does not resolve. -/
def fsBroken (order : List String) : FileSys := fun p =>
  if p = demoRoot then some (demoDir 2 order)
  else if p = ["", "root", "a.txt"] then some (demoFile 11 [7, 8, 9])
  else if p = ["", "root", "b.txt"] then some (demoFile 12 [7, 8, 9])
  else if p = ["", "root", "sub"] then some (demoDir 3 [])
  else none

/-- A library and system for `fsBroken`: a status query on `/root/bad` fails
with an error (too many levels of symbolic links). -/
def brokenLib : Lib :=
  { demoLib with status_error := fun _ p => decide (p = ["", "root", "bad"]) }

/-- Whether the path is `/root` followed by `n` times the name `loop`, for
some `n` within the bound. -/
def loopPath (bound : Nat) (p : Path) : Bool :=
  p.take 2 == demoRoot && (p.drop 2).all (fun c => c == "loop") &&
    decide (p.length ≤ bound + 2) && decide (2 ≤ p.length)

/-- `/root` holds `loop`, a symbolic link to `/root` itself.  The system
follows at most 40 symbolic links when it resolves a path. -/
def fsCycle : FileSys := fun p =>
  if loopPath 40 p then some (demoDir 2 ["loop"]) else none

/-- A library and system for `fsCycle`: a status query on a path through more
than 40 links fails with an error (too many levels of symbolic links). -/
def cycleLib : Lib :=
  { demoLib with status_error := fun _ p => loopPath 41 p && !loopPath 40 p }

/-- The directory `/r`, named with a separator at its end, holds the identical
files `a.txt` and `b.txt`. -/
def fsTrailing : FileSys := fun p =>
  if p = ["", "r", ""] then some (demoDir 2 ["a.txt", "b.txt"])
  else if p = ["", "r", "", "a.txt"] then some (demoFile 11 [7, 8, 9])
  else if p = ["", "r", "", "b.txt"] then some (demoFile 12 [7, 8, 9])
  else none

/-- `/root` while it is being modified: its listing yields the name `a.txt`
twice, and the file of that name has the given inode. -/
def fsTwice (ino : Nat) : FileSys := fun p =>
  if p = demoRoot then some (demoDir 2 ["a.txt", "a.txt"])
  else if p = ["", "root", "a.txt"] then some (demoFile ino [7, 8, 9])
  else none

/-- A world in which `/root/a.txt` is replaced by a copy of itself, with the
same times, at tick 11: after the walker recorded the first `a.txt` of the
listing and before it reaches the second. -/
def worldReplaced : World := fun t => if t < 11 then fsTwice 11 else fsTwice 12

/-! ## Basic facts about the primitives -/

@[simp] theorem still_apply (fs : FileSys) (t : Nat) : still fs t = fs := rfl

theorem kBufSz_pos : 0 < kBufSz := by decide

theorem memcmp_self (a : List Nat) (n : Nat) : memcmp a a n = 0 := by
  induction a generalizing n with
  | nil => cases n <;> simp [memcmp]
  | cons x xs ih =>
    cases n with
    | zero => simp [memcmp]
    | succ m => simp [memcmp, ih]

theorem memcmp_eq_zero : ∀ (a b : List Nat), a.length = b.length →
    memcmp a b a.length = 0 → a = b := by
  intro a
  induction a with
  | nil =>
    intro b h _
    cases b with
    | nil => rfl
    | cons y ys => simp at h
  | cons x xs ih =>
    intro b h hm
    cases b with
    | nil => simp at h
    | cons y ys =>
      simp only [List.length_cons, memcmp] at hm
      simp only [List.length_cons, Nat.add_right_cancel_iff] at h
      by_cases h1 : x < y
      · simp [h1] at hm
      · by_cases h2 : y < x
        · simp [h1, h2] at hm
        · simp only [h1, h2, if_false] at hm
          have hxy : x = y := by omega
          rw [hxy, ih ys h hm]

theorem compareLoop_self : ∀ (fuel : Nat) (s : List Nat), compareLoop fuel s s = none := by
  intro fuel
  induction fuel with
  | zero => intro s; rfl
  | succ n ih =>
    intro s
    simp only [compareLoop, memcmp_self, ne_eq, not_true_eq_false, and_false, if_false, or_self]
    split
    · rfl
    · exact ih _

theorem compareLoop_none : ∀ (fuel : Nat) (s1 s2 : List Nat), s1.length < fuel →
    compareLoop fuel s1 s2 = none → s1 = s2 := by
  intro fuel
  induction fuel with
  | zero => intro s1 s2 h; omega
  | succ n ih =>
    intro s1 s2 hlen h
    simp only [compareLoop] at h
    split at h
    · simp at h
    · rename_i hn
      simp only [ne_eq, Decidable.not_not] at hn
      split at h
      · simp at h
      · rename_i hc
        have hchunk : s1.take kBufSz = s2.take kBufSz := by
          by_cases h0 : (s1.take kBufSz).length > 0
          · have hz : memcmp (s1.take kBufSz) (s2.take kBufSz) (s1.take kBufSz).length = 0 := by
              by_contra hne
              exact hc ⟨h0, hne⟩
            exact memcmp_eq_zero _ _ hn hz
          · have e1 : (s1.take kBufSz).length = 0 := by omega
            have e2 : (s2.take kBufSz).length = 0 := by omega
            rw [List.length_eq_zero.mp e1, List.length_eq_zero.mp e2]
        split at h
        · rename_i hshort
          have hs1 : (s1.take kBufSz).length < kBufSz := by omega
          have hs2 : (s2.take kBufSz).length < kBufSz := by omega
          have t1 : s1.take kBufSz = s1 := by
            apply List.take_of_length_le
            simp only [List.length_take] at hs1
            omega
          have t2 : s2.take kBufSz = s2 := by
            apply List.take_of_length_le
            simp only [List.length_take] at hs2
            omega
          rw [← t1, ← t2, hchunk]
        · rename_i hlong
          have hpos := kBufSz_pos
          simp only [List.length_take, not_or, not_lt] at hlong
          have hd := ih (s1.drop kBufSz) (s2.drop kBufSz)
            (by simp only [List.length_drop]; omega) h
          rw [← List.take_append_drop kBufSz s1, ← List.take_append_drop kBufSz s2, hchunk, hd]

theorem legal_file_true (w : World) (t : Nat) (p : Path) :
    (legal_file w t p).1 = true ↔
      fs_exists (w t) p = true ∧ is_regular_file (w (t + 1)) p = true := by
  unfold legal_file
  by_cases h1 : fs_exists (w t) p = true
  · by_cases h2 : is_regular_file (w (t + 1)) p = true
    · simp [h1, h2]
    · simp [h1, h2]
  · simp [h1]

theorem is_regular_file_iff (fs : FileSys) (p : Path) :
    is_regular_file fs p = true ↔ ∃ n, fs p = some n ∧ n.type = FileType.regular := by
  unfold is_regular_file
  cases h : fs p with
  | none => simp
  | some n => simp

theorem is_directory_iff (fs : FileSys) (p : Path) :
    is_directory fs p = true ↔ ∃ n, fs p = some n ∧ n.type = FileType.directory := by
  unfold is_directory
  cases h : fs p with
  | none => simp
  | some n => simp

theorem legal_file_still (fs : FileSys) (t : Nat) (p : Path) :
    (legal_file (still fs) t p).1 = true ↔ ∃ n, fs p = some n ∧ n.type = FileType.regular := by
  rw [legal_file_true, still_apply, still_apply, is_regular_file_iff]
  constructor
  · intro h; exact h.2
  · intro h
    refine ⟨?_, h⟩
    obtain ⟨n, hn, _⟩ := h
    simp [fs_exists, hn]

theorem ifstream_some (fs : FileSys) (p : Path) (s : List Nat) :
    ifstream fs p = some s ↔
      ∃ n, fs p = some n ∧ n.type = FileType.regular ∧ n.readable = true ∧ n.data = s := by
  unfold ifstream
  cases h : fs p with
  | none => simp
  | some n =>
    by_cases h1 : n.type = FileType.regular
    · by_cases h2 : n.readable = true
      · simp [h1, h2]
      · simp [h1, h2]
    · simp [h1]

/-- A `return` inside the comparison loop never returns 0. -/
theorem compareLoop_some_ne_zero : ∀ (fuel : Nat) (s1 s2 : List Nat) (r : Int × Bool),
    compareLoop fuel s1 s2 = some r → r.1 ≠ 0 := by
  intro fuel
  induction fuel with
  | zero => intro s1 s2 r hr; simp [compareLoop] at hr
  | succ k ih =>
    intro s1 s2 r hr
    simp only [compareLoop] at hr
    split at hr
    · simp only [Option.some.injEq] at hr
      rw [← hr]
      decide
    · split at hr
      · rename_i hc
        simp only [Option.some.injEq] at hr
        rw [← hr]
        exact hc.2
      · split at hr
        · simp at hr
        · exact ih _ _ _ hr

/-- In an unchanging tree, a zero result of `checkFileEqualDeep` for two
different paths means two readable regular files with the same bytes. -/
theorem checkFileEqualDeep_still_zero (fs : FileSys) (t : Nat) (p1 p2 : Path)
    (h : (checkFileEqualDeep (still fs) t p1 p2).1.1 = 0) :
    p1 = p2 ∨ ∃ n1 n2, fs p1 = some n1 ∧ fs p2 = some n2 ∧
      n1.type = FileType.regular ∧ n2.type = FileType.regular ∧
      n1.readable = true ∧ n2.readable = true ∧ n1.data = n2.data := by
  unfold checkFileEqualDeep at h
  by_cases hp : p1 = p2
  · exact Or.inl hp
  · right
    simp only [hp, if_false, still_apply] at h
    split at h
    · simp at h
    · split at h
      · simp at h
      · split at h
        · simp at h
        · split at h
          · simp at h
          · split at h
            · simp at h
            · split at h
              · rename_i s1 s2 h1 h2
                obtain ⟨n1, hn1, hr1, hread1, hd1⟩ := (ifstream_some fs p1 s1).mp h1
                obtain ⟨n2, hn2, hr2, hread2, hd2⟩ := (ifstream_some fs p2 s2).mp h2
                refine ⟨n1, n2, hn1, hn2, hr1, hr2, hread1, hread2, ?_⟩
                split at h
                · rename_i r hr
                  exact absurd h (compareLoop_some_ne_zero _ _ _ _ hr)
                · rename_i hnone
                  rw [hd1, hd2]
                  exact compareLoop_none _ _ _ (Nat.lt_succ_self _) hnone
              · simp at h

/-! ## Facts about `MyFile` -/

theorem sameSnapshot_refl (a : MyFile) : sameSnapshot a a := ⟨rfl, rfl, rfl, rfl, rfl⟩

theorem sameSnapshot_symm {a b : MyFile} (h : sameSnapshot a b) : sameSnapshot b a :=
  ⟨h.1.symm, h.2.1.symm, h.2.2.1.symm, h.2.2.2.1.symm, h.2.2.2.2.symm⟩

theorem sameSnapshot_trans {a b c : MyFile} (h : sameSnapshot a b) (h2 : sameSnapshot b c) :
    sameSnapshot a c :=
  ⟨h.1.trans h2.1, h.2.1.trans h2.2.1, h.2.2.1.trans h2.2.2.1,
    h.2.2.2.1.trans h2.2.2.2.1, h.2.2.2.2.trans h2.2.2.2.2⟩

theorem set_first_4k_snap (w : World) (t : Nat) (f : MyFile) :
    sameSnapshot (f.set_first_4k w t).1.1 f := by
  unfold MyFile.set_first_4k
  split
  · split <;> exact ⟨rfl, rfl, rfl, rfl, rfl⟩
  · exact sameSnapshot_refl f

theorem hash_snap (L : Lib) (w : World) (t : Nat) (f : MyFile) :
    sameSnapshot (f.hash L w t).1.1 f := by
  unfold MyFile.hash
  split
  · exact ⟨rfl, rfl, rfl, rfl, rfl⟩
  · exact sameSnapshot_refl f

theorem hash_hashed (L : Lib) (w : World) (t : Nat) (f : MyFile) :
    (f.hash L w t).1.1.hashed_ = true := by
  unfold MyFile.hash
  by_cases h : f.hashed_ = true
  · simp [h]
  · simp [h]

@[simp] theorem set_first_4k_path (w : World) (t : Nat) (f : MyFile) :
    (f.set_first_4k w t).1.1.real_path_ = f.real_path_ := (set_first_4k_snap w t f).1

@[simp] theorem hash_path (L : Lib) (w : World) (t : Nat) (f : MyFile) :
    (f.hash L w t).1.1.real_path_ = f.real_path_ := (hash_snap L w t f).1

theorem compare_snap (L : Lib) (w : World) (t : Nat) (a b : MyFile) :
    sameSnapshot (a.compare L w t b).1.2.1 a ∧ sameSnapshot (a.compare L w t b).1.2.2 b := by
  unfold MyFile.compare
  split
  · exact ⟨sameSnapshot_refl a, sameSnapshot_refl b⟩
  · simp only
    split
    · exact ⟨set_first_4k_snap _ _ _, set_first_4k_snap _ _ _⟩
    · split
      · exact ⟨sameSnapshot_trans (hash_snap _ _ _ _) (set_first_4k_snap _ _ _),
          sameSnapshot_trans (hash_snap _ _ _ _) (set_first_4k_snap _ _ _)⟩
      · exact ⟨sameSnapshot_trans (hash_snap _ _ _ _) (set_first_4k_snap _ _ _),
          sameSnapshot_trans (hash_snap _ _ _ _) (set_first_4k_snap _ _ _)⟩

theorem changed_congr (w : World) (t : Nat) {a b : MyFile} (h : sameSnapshot a b) :
    a.changed w t = b.changed w t := by
  obtain ⟨h1, h2, h3, h4, h5⟩ := h
  unfold MyFile.changed
  rw [h1, h2, h3, h4, h5]

/-- When `compare` returns 0 it has reached `checkFileEqualDeep`, which returned 0. -/
theorem compare_zero (L : Lib) (w : World) (t : Nat) (a b : MyFile)
    (h : (a.compare L w t b).1.1 = 0) :
    a.size_ = b.size_ ∧
    ∃ t2, (checkFileEqualDeep w t2 a.real_path_ b.real_path_).1.1 = 0 := by
  unfold MyFile.compare at h
  split at h
  · split at h <;> simp at h
  · rename_i hsz
    refine ⟨by simpa using hsz, ?_⟩
    simp only at h
    split at h
    · rename_i hc
      exact absurd h hc
    · split at h
      · split at h <;> simp at h
      · simp only [hash_path, set_first_4k_path] at h
        exact ⟨_, h⟩

theorem compare_zero_still (L : Lib) (fs : FileSys) (t : Nat) (a b : MyFile)
    (h : (a.compare L (still fs) t b).1.1 = 0) :
    a.real_path_ = b.real_path_ ∨ ∃ n1 n2, fs a.real_path_ = some n1 ∧
      fs b.real_path_ = some n2 ∧ n1.type = FileType.regular ∧ n2.type = FileType.regular ∧
      n1.readable = true ∧ n2.readable = true ∧ n1.data = n2.data := by
  obtain ⟨_, t2, h2⟩ := compare_zero L (still fs) t a b h
  exact checkFileEqualDeep_still_zero fs t2 _ _ h2

/-! ### Ticks only advance -/

theorem legal_file_tick (w : World) (t : Nat) (p : Path) : t ≤ (legal_file w t p).2 := by
  unfold legal_file
  split
  · simp
  · split <;> simp

theorem changed_tick (w : World) (t : Nat) (f : MyFile) : t ≤ (f.changed w t).2 := by
  have h := legal_file_tick w t f.real_path_
  unfold MyFile.changed
  simp only
  split
  · exact h
  · split
    · simp only; omega
    · split
      · simp only; omega
      · split
        · simp only; omega
        · split <;> (simp only; omega)

theorem set_first_4k_tick (w : World) (t : Nat) (f : MyFile) : t ≤ (f.set_first_4k w t).2 := by
  unfold MyFile.set_first_4k
  split
  · split <;> simp
  · simp

theorem hash_tick (L : Lib) (w : World) (t : Nat) (f : MyFile) : t ≤ (f.hash L w t).2 := by
  unfold MyFile.hash
  split <;> simp

theorem checkFileEqualDeep_tick (w : World) (t : Nat) (p1 p2 : Path) :
    t ≤ (checkFileEqualDeep w t p1 p2).2 := by
  have h1 := legal_file_tick w t p1
  have h2 := legal_file_tick w (legal_file w t p1).2 p2
  unfold checkFileEqualDeep
  simp only
  split
  · simp
  · split
    · exact h1
    · split
      · simp only; omega
      · split
        · simp only; omega
        · split
          · simp only; omega
          · split
            · simp only; omega
            · split
              · split
                · simp only; omega
                · split
                  · simp only; omega
                  · split <;> (simp only; omega)
              · simp only; omega

theorem compare_tick (L : Lib) (w : World) (t : Nat) (a b : MyFile) :
    t ≤ (a.compare L w t b).2 := by
  unfold MyFile.compare
  simp only
  have h1 := set_first_4k_tick w t a
  have h2 := set_first_4k_tick w (a.set_first_4k w t).2 b
  have h3 := hash_tick L w (b.set_first_4k w (a.set_first_4k w t).2).2 (a.set_first_4k w t).1.1
  have h4 := hash_tick L w ((a.set_first_4k w t).1.1.hash L w
    (b.set_first_4k w (a.set_first_4k w t).2).2).2 (b.set_first_4k w (a.set_first_4k w t).2).1.1
  have h5 := checkFileEqualDeep_tick w (((b.set_first_4k w (a.set_first_4k w t).2).1.1).hash L w
    ((a.set_first_4k w t).1.1.hash L w (b.set_first_4k w (a.set_first_4k w t).2).2).2).2
    ((a.set_first_4k w t).1.1.hash L w (b.set_first_4k w (a.set_first_4k w t).2).2).1.1.real_path_
    (((b.set_first_4k w (a.set_first_4k w t).2).1.1).hash L w
    ((a.set_first_4k w t).1.1.hash L w (b.set_first_4k w (a.set_first_4k w t).2).2).2).1.1.real_path_
  split
  · simp
  · split
    · simp only; omega
    · split
      · simp only; omega
      · simp only; omega

/-! ## The group builder: every group comes from a leader and its matches -/

theorem fileAt_set (files : List MyFile) (i k : Nat) (a : MyFile) :
    fileAt (files.set i a) k = if i = k ∧ i < files.length then a else fileAt files k := by
  unfold fileAt
  simp only [List.getD_eq_getElem?_getD, List.getElem?_set]
  by_cases h : i = k
  · subst h
    by_cases h2 : i < files.length
    · simp [h2]
    · have h3 : files[i]? = none := List.getElem?_eq_none (by omega)
      simp [h2, h3]
  · simp [h]

theorem fileAt_mem (files : List MyFile) (k : Nat) (h : k < files.length) :
    fileAt files k ∈ files := by
  unfold fileAt
  rw [List.getD_eq_getElem?_getD, List.getElem?_eq_getElem h]
  exact List.getElem_mem h

theorem SnapRel_refl (files : List MyFile) : SnapRel files files :=
  ⟨rfl, fun _ => sameSnapshot_refl _⟩

theorem SnapRel_set2 {files files0 : List MyFile} (h : SnapRel files files0) (i j : Nat)
    (a b : MyFile) (ha : sameSnapshot a (fileAt files i)) (hb : sameSnapshot b (fileAt files j)) :
    SnapRel ((files.set i a).set j b) files0 := by
  refine ⟨by simp [h.1], fun k => ?_⟩
  rw [fileAt_set, fileAt_set]
  split
  · rename_i hk
    rw [← hk.1]
    exact sameSnapshot_trans hb (h.2 j)
  · split
    · rename_i hk
      rw [← hk.1]
      exact sameSnapshot_trans ha (h.2 i)
    · exact h.2 k

theorem backPush_concat (gs : List (List Path)) (g : List Path) (p : Path) :
    backPush (gs ++ [g]) p = gs ++ [g ++ [p]] := by
  simp [backPush]

theorem innerScan_inv (L : Lib) (w : World) (t0 : Nat) (files0 : List MyFile) (i : Nat) :
    ∀ (todo : List Nat) (st : GroupState) (gs : List (List Path)) (js : List Nat),
      todo.Pairwise (· < ·) → (∀ j ∈ todo, j < files0.length) →
      (∀ x ∈ js, ∀ y ∈ todo, x < y) →
      t0 ≤ st.t →
      SnapRel st.files files0 →
      st.same_file_groups = gs ++ [(i :: js).map (pathAt files0)] →
      GroupOf L w t0 files0 i js ((i :: js).map (pathAt files0)) →
      t0 ≤ (innerScan L w i todo st).t ∧
      SnapRel (innerScan L w i todo st).files files0 ∧
      (innerScan L w i todo st).items = st.items ∧
      ((innerScan L w i todo st).same_file_groups = gs ∨
        ∃ js2, (innerScan L w i todo st).same_file_groups =
            gs ++ [(i :: js2).map (pathAt files0)] ∧
          GroupOf L w t0 files0 i js2 ((i :: js2).map (pathAt files0))) := by
  intro todo
  induction todo with
  | nil =>
    intro st gs js _ _ _ ht hsnap hg hgo
    exact ⟨ht, hsnap, rfl, Or.inr ⟨js, hg, hgo⟩⟩
  | cons j rest ih =>
    intro st gs js hsorted hlt hjs ht hsnap hg hgo
    have hsorted2 : rest.Pairwise (· < ·) := (List.pairwise_cons.mp hsorted).2
    have hlt2 : ∀ y ∈ rest, y < files0.length := fun y hy => hlt y (List.mem_cons_of_mem _ hy)
    have hjs2 : ∀ x ∈ js, ∀ y ∈ rest, x < y := fun x hx y hy => hjs x hx y (List.mem_cons_of_mem _ hy)
    have hjlt : j < files0.length := hlt j (List.mem_cons_self _ _)
    have ht1 := changed_tick w st.t (fileAt st.files j)
    have ht2 := changed_tick w ((fileAt st.files j).changed w st.t).2 (fileAt st.files i)
    have ht3 := compare_tick L w ((fileAt st.files i).changed w
      ((fileAt st.files j).changed w st.t).2).2 (fileAt st.files i) (fileAt st.files j)
    simp only [innerScan]
    generalize hcjd : (fileAt st.files j).changed w st.t = cj at ht1 ht2 ht3
    generalize hcid : (fileAt st.files i).changed w cj.2 = ci at ht2 ht3
    generalize hrd : (fileAt st.files i).compare L w ci.2 (fileAt st.files j) = r at ht3
    have hrs := compare_snap L w ci.2 (fileAt st.files i) (fileAt st.files j)
    rw [hrd] at hrs
    have hsnap2 : SnapRel ((st.files.set i r.1.2.1).set j r.1.2.2) files0 :=
      SnapRel_set2 hsnap i j _ _ hrs.1 hrs.2
    split
    · exact ih st gs js hsorted2 hlt2 hjs2 ht hsnap hg hgo
    · rename_i hji
      split
      · exact ih st gs js hsorted2 hlt2 hjs2 ht hsnap hg hgo
      · split
        · exact ih _ gs js hsorted2 hlt2 hjs2 (by simp only; omega) hsnap hg hgo
        · rename_i hcj
          split
          · refine ⟨by simp only; omega, hsnap, rfl, Or.inl ?_⟩
            simp [hg]
          · split
            · rename_i hzero
              have hpath : (fileAt ((st.files.set i r.1.2.1).set j r.1.2.2) j).real_path_
                    = pathAt files0 j := (hsnap2.2 j).1
              rw [hpath]
              refine ih _ gs (js ++ [j]) hsorted2 hlt2 ?_ (by simp only; omega) hsnap2 ?_ ?_
              · intro x hx y hy
                rcases List.mem_append.mp hx with hx | hx
                · exact hjs2 x hx y hy
                · simp only [List.mem_singleton] at hx
                  rw [hx]
                  exact (List.pairwise_cons.mp hsorted).1 y hy
              · simp [hg, backPush_concat]
              · obtain ⟨_, h2, h3, h4, h5, h6⟩ := hgo
                refine ⟨rfl, h2, ?_, ?_, h5, ?_⟩
                · intro x hx
                  rcases List.mem_append.mp hx with hx | hx
                  · exact h3 x hx
                  · simp only [List.mem_singleton] at hx
                    rw [hx]
                    exact ⟨hjlt, hji⟩
                · rw [List.pairwise_append]
                  refine ⟨h4, List.pairwise_singleton _ _, ?_⟩
                  intro x hx y hy
                  simp only [List.mem_singleton] at hy
                  rw [hy]
                  exact hjs x hx j (List.mem_cons_self _ _)
                · intro x hx
                  rcases List.mem_append.mp hx with hx | hx
                  · exact h6 x hx
                  · simp only [List.mem_singleton] at hx
                    rw [hx]
                    refine ⟨⟨st.t, ht, ?_⟩, ⟨ci.2, fileAt st.files i, fileAt st.files j,
                      by omega, hsnap.2 i, hsnap.2 j, ?_⟩⟩
                    · rw [← changed_congr w st.t (hsnap.2 j), hcjd]
                      simpa using hcj
                    · rw [hrd]
                      exact hzero
            · exact ih _ gs js hsorted2 hlt2 hjs2 (by simp only; omega) hsnap2 hg hgo

theorem leaderLoop_inv (L : Lib) (w : World) (t0 : Nat) (files0 : List MyFile) :
    ∀ (todo : List Nat) (st : GroupState),
      (∀ i ∈ todo, i < files0.length) →
      t0 ≤ st.t →
      SnapRel st.files files0 →
      GroupsOK L w t0 files0 st.same_file_groups →
      GroupsOK L w t0 files0 st.items →
      (∀ g ∈ st.items, 1 < g.length) →
      t0 ≤ (leaderLoop L w files0.length todo st).t ∧
      SnapRel (leaderLoop L w files0.length todo st).files files0 ∧
      GroupsOK L w t0 files0 (leaderLoop L w files0.length todo st).same_file_groups ∧
      GroupsOK L w t0 files0 (leaderLoop L w files0.length todo st).items ∧
      (∀ g ∈ (leaderLoop L w files0.length todo st).items, 1 < g.length) := by
  intro todo
  induction todo with
  | nil =>
    intro st _ ht hsnap hgs hitems hlen
    exact ⟨ht, hsnap, hgs, hitems, hlen⟩
  | cons i rest ih =>
    intro st hlt ht hsnap hgs hitems hlen
    have hilt : i < files0.length := hlt i (List.mem_cons_self _ _)
    have hlt2 : ∀ y ∈ rest, y < files0.length := fun y hy => hlt y (List.mem_cons_of_mem _ hy)
    have ht1 := changed_tick w st.t (fileAt st.files i)
    simp only [leaderLoop]
    generalize hcid : (fileAt st.files i).changed w st.t = ci at ht1
    split
    · exact ih st hlt2 ht hsnap hgs hitems hlen
    · split
      · exact ih _ hlt2 (by simp only; omega) hsnap hgs hitems hlen
      · rename_i hci
        have hpath : (fileAt st.files i).real_path_ = pathAt files0 i := (hsnap.2 i).1
        rw [hpath]
        have hun : Unchanged w t0 (fileAt files0 i) := by
          refine ⟨st.t, ht, ?_⟩
          rw [← changed_congr w st.t (hsnap.2 i), hcid]
          simpa using hci
        have hgo : GroupOf L w t0 files0 i [] ((i :: []).map (pathAt files0)) :=
          ⟨rfl, hilt, by simp, List.Pairwise.nil, hun, by simp⟩
        obtain ⟨h0, h1, h2, h3⟩ := innerScan_inv L w t0 files0 i (List.range files0.length)
          { st with same_file_groups := st.same_file_groups ++ [[pathAt files0 i]], t := ci.2 }
          st.same_file_groups [] (List.pairwise_lt_range _)
          (fun j hj => List.mem_range.mp hj) (by simp) (by simp only; omega) hsnap (by simp) hgo
        have hgs2 : GroupsOK L w t0 files0 (innerScan L w i (List.range files0.length)
            { st with same_file_groups := st.same_file_groups ++ [[pathAt files0 i]],
                      t := ci.2 }).same_file_groups := by
          rcases h3 with h3 | ⟨js2, h3, h4⟩
          · rw [h3]; exact hgs
          · rw [h3]
            intro g hg
            rcases List.mem_append.mp hg with hg | hg
            · exact hgs g hg
            · simp only [List.mem_singleton] at hg
              rw [hg]
              exact ⟨i, js2, h4⟩
        refine ih _ hlt2 (by simpa [emitGroups] using h0) h1 hgs2 ?_ ?_
        · intro g hg
          simp only [emitGroups, List.mem_append, List.mem_filter] at hg
          rcases hg with hg | hg
          · rw [h2] at hg; exact hitems g hg
          · exact hgs2 g hg.1
        · intro g hg
          simp only [emitGroups, List.mem_append, List.mem_filter] at hg
          rcases hg with hg | hg
          · rw [h2] at hg; exact hlen g hg
          · simpa using hg.2

/-- Every group emitted for a bucket has more than one member and was built
from that bucket by a leader and its matched candidates; the tick only
advances. -/
theorem groupBucket_groups (L : Lib) (w : World) (t : Nat) (files : List MyFile) :
    t ≤ (groupBucket L w t files).2 ∧
    ∀ g ∈ (groupBucket L w t files).1,
      (∃ i js, GroupOf L w t files i js g) ∧ 1 < g.length := by
  unfold groupBucket
  split
  · obtain ⟨h0, _, _, h3, h4⟩ := leaderLoop_inv L w t files (List.range files.length)
      { files := files, checked := [], same_file_groups := [], items := [], t := t }
      (fun j hj => List.mem_range.mp hj) (Nat.le_refl _) (SnapRel_refl files)
      (by intro g hg; simp at hg) (by intro g hg; simp at hg) (by intro g hg; simp at hg)
    exact ⟨h0, fun g hg => ⟨h3 g hg, h4 g hg⟩⟩
  · simp

theorem Unchanged_mono {w : World} {t0 t1 : Nat} {f : MyFile} (h : t0 ≤ t1)
    (hu : Unchanged w t1 f) : Unchanged w t0 f := by
  obtain ⟨t, ht, hc⟩ := hu
  exact ⟨t, by omega, hc⟩

theorem Matched_mono {L : Lib} {w : World} {t0 t1 : Nat} {a b : MyFile} (h : t0 ≤ t1)
    (hm : Matched L w t1 a b) : Matched L w t0 a b := by
  obtain ⟨t, a2, b2, ht, h1, h2, h3⟩ := hm
  exact ⟨t, a2, b2, by omega, h1, h2, h3⟩

theorem GroupOf_mono {L : Lib} {w : World} {t0 t1 : Nat} {files : List MyFile} {i : Nat}
    {js : List Nat} {g : List Path} (h : t0 ≤ t1) (hg : GroupOf L w t1 files i js g) :
    GroupOf L w t0 files i js g := by
  obtain ⟨h1, h2, h3, h4, h5, h6⟩ := hg
  exact ⟨h1, h2, h3, h4, Unchanged_mono h h5,
    fun j hj => ⟨Unchanged_mono h (h6 j hj).1, Matched_mono h (h6 j hj).2⟩⟩

theorem groupAll_groups (L : Lib) (w : World) :
    ∀ (m : List (Key × List MyFile)) (t : Nat) (g : List Path), g ∈ groupAll L w t m →
      ∃ kv ∈ m, (∃ i js, GroupOf L w t kv.2 i js g) ∧ 1 < g.length := by
  intro m
  induction m with
  | nil => intro t g hg; simp [groupAll] at hg
  | cons kv rest ih =>
    intro t g hg
    obtain ⟨k, files⟩ := kv
    simp only [groupAll, List.mem_append] at hg
    have hb := groupBucket_groups L w t files
    rcases hg with hg | hg
    · exact ⟨(k, files), List.mem_cons_self _ _, hb.2 g hg⟩
    · obtain ⟨kv2, hkv, ⟨i, js, h2⟩, h3⟩ := ih _ g hg
      exact ⟨kv2, List.mem_cons_of_mem _ hkv, ⟨i, js, GroupOf_mono hb.1 h2⟩, h3⟩

theorem reportGroups_some (L : Lib) (w : World) (root : Path) (fuel : Nat)
    (out : List (List Path)) (h : reportGroups L w root fuel = some out) :
    out = groupAll L w (walkLoop L w fuel (walkInit root)).t
      (walkLoop L w fuel (walkInit root)).all_files := by
  unfold reportGroups at h
  simp only at h
  split at h
  · simpa using h.symm
  · simp at h

/-- Every group of the report has more than one member and was built, after
the walk, from one bucket of the index by a leader and its matched candidates. -/
theorem reportGroups_groups (L : Lib) (w : World) (root : Path) (fuel : Nat)
    (out : List (List Path)) (h : reportGroups L w root fuel = some out) :
    ∀ g ∈ out, ∃ kv ∈ (walkLoop L w fuel (walkInit root)).all_files,
      (∃ i js, GroupOf L w (walkLoop L w fuel (walkInit root)).t kv.2 i js g) ∧
        1 < g.length := by
  intro g hg
  rw [reportGroups_some L w root fuel out h] at hg
  exact groupAll_groups L w _ _ g hg

/-! ## The walker -/

theorem filename_pathAppend (c : Path) (e : String) : filename (pathAppend c e) = e := by
  simp [filename, pathAppend]

theorem mem_records_mapPush (key : Key) (f : MyFile) :
    ∀ (m : List (Key × List MyFile)) (g : MyFile),
      g ∈ records (mapPush key f m) ↔ g = f ∨ g ∈ records m := by
  intro m
  induction m with
  | nil => intro g; simp [mapPush, records]
  | cons kv rest ih =>
    intro g
    obtain ⟨k, v⟩ := kv
    simp only [mapPush]
    split
    · simp only [records, List.mem_append, List.mem_singleton]
      tauto
    · split
      · simp only [records, List.mem_append, List.mem_singleton, List.not_mem_nil, or_false,
          List.mem_cons]
      · simp only [records, List.mem_append, ih]
        tauto

theorem records_mapPush_perm (key : Key) (f : MyFile) :
    ∀ (m : List (Key × List MyFile)), (records (mapPush key f m)).Perm (f :: records m) := by
  intro m
  induction m with
  | nil => simp [mapPush, records]
  | cons kv rest ih =>
    obtain ⟨k, v⟩ := kv
    simp only [mapPush]
    split
    · simp only [records, List.append_assoc]
      have h1 : (v ++ ([f] ++ records rest)).Perm (([f] ++ records rest) ++ v) :=
        List.perm_append_comm
      have h2 : (([f] ++ records rest) ++ v).Perm (f :: (v ++ records rest)) := by
        simp only [List.singleton_append, List.cons_append, List.perm_cons]
        exact List.perm_append_comm
      exact h1.trans h2
    · split
      · simp [records]
      · simp only [records]
        have h1 : (v ++ records (mapPush key f rest)).Perm (v ++ f :: records rest) :=
          List.Perm.append_left v ih
        exact h1.trans List.perm_middle

/-- Case analysis of the loop body of the walker. -/
theorem visitEntry_cases (L : Lib) (w : World) (c : Path) (st : WalkState) (e : String)
    (P : WalkState → Prop)
    (hskip : ∀ t2, P { st with t := t2 })
    (hdir : dotName e = false → is_directory (w st.t) (pathAppend c e) = true →
      P { st with s := pathAppend c e :: st.s, t := st.t + 1 })
    (hins : dotName e = false → is_directory (w st.t) (pathAppend c e) = false →
      is_regular_file (w (st.t + 1)) (pathAppend c e) = true →
      (MyFile.construct w (st.t + 2) (pathAppend c e)).1.2 = true →
      get_inode (w (MyFile.construct w (st.t + 2) (pathAppend c e)).2) (pathAppend c e)
        ≠ UINT64_MAX →
      st.checked_inodes.count
        (get_inode (w (MyFile.construct w (st.t + 2) (pathAppend c e)).2) (pathAppend c e)) = 0 →
      ∀ f h t2, (f, h) = ((MyFile.construct w (st.t + 2) (pathAppend c e)).1.1.little_hash L w
          ((MyFile.construct w (st.t + 2) (pathAppend c e)).2 + 1)).1 →
      P { st with
          checked_inodes := get_inode (w (MyFile.construct w (st.t + 2) (pathAppend c e)).2)
            (pathAppend c e) :: st.checked_inodes,
          all_files := mapPush (h, f.size_) f st.all_files, t := t2 }) :
    P (visitEntry L w c st e) := by
  unfold visitEntry
  simp only [filename_pathAppend]
  split
  · exact hskip st.t
  · rename_i hdot
    split
    · rename_i hd
      exact hdir (by simpa using hdot) hd
    · rename_i hd
      split
      · rename_i hreg
        split
        · exact hskip _
        · rename_i hok
          split
          · exact hskip _
          · rename_i hino
            split
            · exact hskip _
            · rename_i hcount
              exact hins (by simpa using hdot) (by simpa using hd) hreg (by simpa using hok)
                hino (by omega) _ _ _ rfl
      · exact hskip _

theorem foldl_visitEntry_inv (L : Lib) (w : World) (c : Path) (P : WalkState → Prop)
    (hent : ∀ st e, P st → P (visitEntry L w c st e)) :
    ∀ (es : List String) (st : WalkState), P st → P (es.foldl (visitEntry L w c) st) := by
  intro es
  induction es with
  | nil => intro st h; exact h
  | cons e rest ih => intro st h; exact ih _ (hent st e h)

theorem visitLoop_inv (L : Lib) (w : World) (c : Path) (P : WalkState → Prop)
    (htick : ∀ st t2, P st → P { st with t := t2 })
    (hent : ∀ st e, P st → P (visitEntry L w c st e)) :
    ∀ (es : List String) (st : WalkState), P st → P (visitLoop L w c es st) := by
  intro es
  induction es with
  | nil => intro st h; exact h
  | cons e rest ih =>
    intro st h
    simp only [visitLoop]
    split
    · exact htick st _ h
    · exact ih _ (hent st e h)

/-- Without a throwing status query the listing loop is the fold of its body. -/
theorem visitLoop_eq_foldl (L : Lib) (w : World) (c : Path)
    (hno : ∀ t p, L.status_error t p = false) :
    ∀ (es : List String) (st : WalkState),
      visitLoop L w c es st = es.foldl (visitEntry L w c) st := by
  intro es
  induction es with
  | nil => intro st; rfl
  | cons e rest ih =>
    intro st
    have h : entryThrows L w c st e = none := by
      simp [entryThrows, throws, hno]
    simp only [visitLoop, h, List.foldl_cons]
    exact ih _

theorem walkStep_inv (L : Lib) (w : World) (P : WalkState → Prop)
    (htick : ∀ st t2, P st → P { st with t := t2 })
    (hpop : ∀ st c rest t2, st.s = c :: rest → P st → P { st with s := rest, t := t2 })
    (hent : ∀ st0 c rest, st0.s = c :: rest → P st0 → fuseTmpDir c = false →
      ∀ st e, P st → P (visitEntry L w c st e)) :
    ∀ st, P st → P (walkStep L w st) := by
  intro st h
  unfold walkStep
  split
  · exact h
  · rename_i c rest hs
    split
    · exact hpop st c rest st.t hs h
    · rename_i hf
      exact visitLoop_inv L w c P htick (hent st c rest hs h (by simpa using hf)) _ _
        (hpop st c rest (st.t + 1) hs h)

theorem walkLoop_inv (L : Lib) (w : World) (P : WalkState → Prop)
    (hstep : ∀ st, P st → P (walkStep L w st)) :
    ∀ (fuel : Nat) (st : WalkState), P st → P (walkLoop L w fuel st) := by
  intro fuel
  induction fuel with
  | zero => intro st h; exact h
  | succ n ih =>
    intro st h
    unfold walkLoop
    split
    · exact h
    · exact ih _ (hstep st h)

theorem Below_refl (root : Path) : Below root root := ⟨[], by simp, by simp, by simp⟩

theorem Below_append {root c : Path} (h : Below root c) (e : String) (he : dotName e = false)
    (hf : fuseTmpDir c = false) : Below root (pathAppend c e) := by
  obtain ⟨names, hc, hn, hk⟩ := h
  refine ⟨names ++ [e], by simp [pathAppend, hc], ?_, ?_⟩
  · intro n hn2
    rcases List.mem_append.mp hn2 with h1 | h1
    · exact hn n h1
    · simp only [List.mem_singleton] at h1
      rw [h1]; exact he
  · intro k hklt
    simp only [List.length_append, List.length_singleton] at hklt
    by_cases hk2 : k < names.length
    · rw [List.take_append_of_le_length (by omega)]
      exact hk k hk2
    · have hk3 : k = names.length := by omega
      rw [hk3, List.take_left, ← hc]
      exact hf

theorem walkStep_WalkInv (L : Lib) (w : World) (root : Path) :
    ∀ st, WalkInv L w root st → WalkInv L w root (walkStep L w st) := by
  apply walkStep_inv
  · intro st t2 h; exact h
  · intro st c rest t2 hs h
    exact ⟨fun d hd => h.1 d (by rw [hs]; exact List.mem_cons_of_mem _ hd), h.2⟩
  · intro st0 c rest hs h0 hfuse st e h
    have hc : Below root c := h0.1 c (by rw [hs]; exact List.mem_cons_self _ _)
    apply visitEntry_cases
    · intro t2; exact h
    · intro hdot _
      refine ⟨?_, h.2⟩
      intro d hd
      rcases List.mem_cons.mp hd with hd | hd
      · rw [hd]; exact Below_append hc e hdot hfuse
      · exact h.1 d hd
    · intro hdot _ _ hok _ _ f hh t2 hf
      refine ⟨h.1, ?_⟩
      intro g hg
      rcases (mem_records_mapPush _ _ _ _).mp hg with hg | hg
      · rw [hg]
        refine ⟨c, e, st.t + 2, (MyFile.construct w (st.t + 2) (pathAppend c e)).2 + 1,
          hc, hfuse, hdot, hok, ?_⟩
        have := congrArg Prod.fst hf
        simpa [MyFile.little_hash] using this
      · exact h.2 g hg

theorem walkLoop_WalkInv (L : Lib) (w : World) (root : Path) (fuel : Nat) :
    WalkInv L w root (walkLoop L w fuel (walkInit root)) := by
  apply walkLoop_inv L w _ (walkStep_WalkInv L w root)
  refine ⟨?_, ?_⟩
  · intro c hc
    simp only [walkInit, List.mem_singleton] at hc
    rw [hc]; exact Below_refl root
  · intro f hf
    simp [walkInit, records] at hf

/-! ## From groups back to records -/

theorem mem_records_of_mem : ∀ (m : List (Key × List MyFile)) (kv : Key × List MyFile)
    (f : MyFile), kv ∈ m → f ∈ kv.2 → f ∈ records m := by
  intro m
  induction m with
  | nil => intro kv f h; simp at h
  | cons x rest ih =>
    intro kv f hkv hf
    obtain ⟨k, v⟩ := x
    simp only [records, List.mem_append]
    rcases List.mem_cons.mp hkv with h | h
    · left; rw [h] at hf; exact hf
    · right; exact ih kv f h hf

/-- Every member of a group built from a bucket is the path of a record of the
bucket that answered "not changed". -/
theorem GroupOf_member {L : Lib} {w : World} {t0 : Nat} {files : List MyFile} {i : Nat}
    {js : List Nat} {g : List Path} (h : GroupOf L w t0 files i js g) :
    ∀ p ∈ g, ∃ f ∈ files, f.real_path_ = p ∧ Unchanged w t0 f := by
  obtain ⟨h1, h2, h3, _, h5, h6⟩ := h
  intro p hp
  rw [h1] at hp
  simp only [List.map_cons, List.mem_cons, List.mem_map] at hp
  rcases hp with hp | ⟨j, hj, hp⟩
  · exact ⟨fileAt files i, fileAt_mem files i h2, hp.symm, h5⟩
  · exact ⟨fileAt files j, fileAt_mem files j (h3 j hj).1, hp, (h6 j hj).1⟩

/-- Every path of the report is the path of a record of the index that
answered "not changed" to a query made after the walk. -/
theorem reportGroups_member (L : Lib) (w : World) (root : Path) (fuel : Nat)
    (out : List (List Path)) (h : reportGroups L w root fuel = some out) :
    ∀ g ∈ out, ∀ p ∈ g, ∃ f ∈ records (walkLoop L w fuel (walkInit root)).all_files,
      f.real_path_ = p ∧ Unchanged w (walkLoop L w fuel (walkInit root)).t f := by
  intro g hg p hp
  obtain ⟨kv, hkv, ⟨i, js, hgo⟩, _⟩ := reportGroups_groups L w root fuel out h g hg
  obtain ⟨f, hf, hfp, hu⟩ := GroupOf_member hgo p hp
  exact ⟨f, mem_records_of_mem _ kv f hkv hf, hfp, hu⟩

theorem little_hash_snap (L : Lib) (w : World) (t : Nat) (f : MyFile) :
    sameSnapshot (f.little_hash L w t).1.1 f := by
  unfold MyFile.little_hash
  exact set_first_4k_snap w t f

theorem construct_path (w : World) (t : Nat) (p : Path) :
    (MyFile.construct w t p).1.1.real_path_ = p := by
  unfold MyFile.construct
  simp only
  split <;> rfl

theorem Recorded_path {L : Lib} {w : World} {root : Path} {f : MyFile}
    (h : Recorded L w root f) :
    ∃ c e, f.real_path_ = pathAppend c e ∧ Below root c ∧ fuseTmpDir c = false ∧
      dotName e = false := by
  obtain ⟨c, e, t, t2, h1, h2, h3, _, h5⟩ := h
  refine ⟨c, e, ?_, h1, h2, h3⟩
  rw [h5, (little_hash_snap L w t2 _).1, construct_path]

/-- The shape of a recorded path: the root, then names without a leading dot,
and no directory from the root down to the parent has `xzfs_fuse_tmp` in its
path string. -/
theorem Recorded_shape {L : Lib} {w : World} {root : Path} {f : MyFile}
    (h : Recorded L w root f) :
    ∃ names e, f.real_path_ = root ++ names ++ [e] ∧ dotName e = false ∧
      (∀ n ∈ names, dotName n = false) ∧
      ∀ k, k ≤ names.length → fuseTmpDir (root ++ names.take k) = false := by
  obtain ⟨c, e, hp, ⟨names, hc, hn, hk⟩, hf, he⟩ := Recorded_path h
  refine ⟨names, e, by rw [hp, hc]; rfl, he, hn, ?_⟩
  intro k hkle
  by_cases hlt : k < names.length
  · exact hk k hlt
  · have : k = names.length := by omega
    rw [this, List.take_length, ← hc]
    exact hf

theorem walkTrace_Below (L : Lib) (w : World) (root : Path) :
    ∀ (fuel : Nat) (st : WalkState), WalkInv L w root st →
      ∀ c ∈ walkTrace L w fuel st, Below root c ∧ fuseTmpDir c = false := by
  intro fuel
  induction fuel with
  | zero => intro st _ c hc; simp [walkTrace] at hc
  | succ n ih =>
    intro st hinv c hc
    unfold walkTrace at hc
    split at hc
    · simp at hc
    · rename_i d rest hs
      rcases List.mem_append.mp hc with h | h
      · split at h
        · simp at h
        · rename_i hf
          simp only [List.mem_singleton] at h
          rw [h]
          exact ⟨hinv.1 d (by rw [hs]; exact List.mem_cons_self _ _), by simpa using hf⟩
      · exact ih _ (walkStep_WalkInv L w root st hinv) c h

/-! ## Facts about the constructor and about unchanging trees -/

theorem construct_ok_iff (w : World) (t : Nat) (p : Path) :
    (MyFile.construct w t p).1.2 = true ↔
      (legal_file w t p).1 = true ∧
      Atime (w (legal_file w t p).2) p ≠ 0 ∧
      Mtime (w ((legal_file w t p).2 + 1)) p ≠ 0 ∧
      Ctime (w ((legal_file w t p).2 + 2)) p ≠ 0 ∧
      safe_file_size (w ((legal_file w t p).2 + 3)) p ≠ 0 ∧
      safe_file_size (w ((legal_file w t p).2 + 3)) p ≠ UINT64_MAX := by
  unfold MyFile.construct
  simp only
  by_cases hl : (legal_file w t p).1 = true
  · simp only [hl, Bool.not_true, Bool.false_eq_true, if_false, true_and]
    by_cases hs : safe_file_size (w ((legal_file w t p).2 + 3)) p = 0 ∨
        safe_file_size (w ((legal_file w t p).2 + 3)) p = UINT64_MAX
    · simp only [hs, if_true, Bool.false_eq_true, false_iff]
      intro h
      rcases hs with hs | hs
      · exact h.2.2.2.1 hs
      · exact h.2.2.2.2 hs
    · simp only [hs, if_false]
      have hs1 : safe_file_size (w ((legal_file w t p).2 + 3)) p ≠ 0 := fun h => hs (Or.inl h)
      have hs2 : safe_file_size (w ((legal_file w t p).2 + 3)) p ≠ UINT64_MAX :=
        fun h => hs (Or.inr h)
      by_cases hm : min (Atime (w (legal_file w t p).2) p)
          (min (Mtime (w ((legal_file w t p).2 + 1)) p)
            (Ctime (w ((legal_file w t p).2 + 2)) p)) = 0
      · simp only [hm, if_true, Bool.false_eq_true, false_iff]
        intro h
        have := h.1
        have := h.2.1
        have := h.2.2.1
        omega
      · simp only [hm, if_false, true_iff]
        refine ⟨?_, ?_, ?_, hs1, hs2⟩ <;> omega
  · simp [hl]

/-- The snapshot of a constructed record with `ok`. -/
theorem construct_fields (w : World) (t : Nat) (p : Path)
    (h : (legal_file w t p).1 = true) :
    (MyFile.construct w t p).1.1.atime_ = Atime (w (legal_file w t p).2) p ∧
    (MyFile.construct w t p).1.1.mtime_ = Mtime (w ((legal_file w t p).2 + 1)) p ∧
    (MyFile.construct w t p).1.1.ctime_ = Ctime (w ((legal_file w t p).2 + 2)) p ∧
    (MyFile.construct w t p).1.1.size_ = safe_file_size (w ((legal_file w t p).2 + 3)) p := by
  unfold MyFile.construct
  simp [h]

theorem construct_ok_still (fs : FileSys) (t : Nat) (p : Path) :
    (MyFile.construct (still fs) t p).1.2 = true ↔
      ∃ n, fs p = some n ∧ n.type = FileType.regular ∧ n.st_atime ≠ 0 ∧ n.st_mtime ≠ 0 ∧
        n.st_ctime ≠ 0 ∧ n.data.length ≠ 0 ∧ n.data.length ≠ UINT64_MAX := by
  rw [construct_ok_iff, legal_file_still]
  simp only [still_apply]
  constructor
  · rintro ⟨⟨n, hn, hr⟩, h1, h2, h3, h4, h5⟩
    refine ⟨n, hn, hr, ?_⟩
    simp only [Atime, Mtime, Ctime, safe_file_size, file_size, hn, hr, if_true] at h1 h2 h3 h4 h5
    exact ⟨h1, h2, h3, h4, h5⟩
  · rintro ⟨n, hn, hr, h1, h2, h3, h4, h5⟩
    refine ⟨⟨n, hn, hr⟩, ?_⟩
    simp only [Atime, Mtime, Ctime, safe_file_size, file_size, hn, hr, if_true]
    exact ⟨h1, h2, h3, h4, h5⟩

/-- A record of the index keeps the values the constructor accepted. -/
theorem Recorded_valid {L : Lib} {w : World} {root : Path} {f : MyFile}
    (h : Recorded L w root f) :
    f.size_ ≠ 0 ∧ f.size_ ≠ UINT64_MAX ∧ f.atime_ ≠ 0 ∧ f.mtime_ ≠ 0 ∧ f.ctime_ ≠ 0 := by
  obtain ⟨c, e, t, t2, _, _, _, hok, hf⟩ := h
  obtain ⟨_, s2, s3, s4, s5⟩ := little_hash_snap L w t2 (MyFile.construct w t (pathAppend c e)).1.1
  obtain ⟨hl, h1, h2, h3, h4, h5⟩ := (construct_ok_iff w t _).mp hok
  obtain ⟨f1, f2, f3, f4⟩ := construct_fields w t _ hl
  rw [hf, s2, s3, s4, s5, f1, f2, f3, f4]
  exact ⟨h4, h5, h1, h2, h3⟩

/-- In an unchanging tree a record of the index is the snapshot of a regular
file with bytes. -/
theorem Recorded_still {L : Lib} {fs : FileSys} {root : Path} {f : MyFile}
    (h : Recorded L (still fs) root f) :
    ∃ n, fs f.real_path_ = some n ∧ n.type = FileType.regular ∧ f.atime_ = n.st_atime ∧
      f.mtime_ = n.st_mtime ∧ f.ctime_ = n.st_ctime ∧ f.size_ = n.data.length ∧
      n.data ≠ [] := by
  obtain ⟨c, e, t, t2, _, _, _, hok, hf⟩ := h
  obtain ⟨s1, s2, s3, s4, s5⟩ :=
    little_hash_snap L (still fs) t2 (MyFile.construct (still fs) t (pathAppend c e)).1.1
  obtain ⟨n, hn, hr, _, _, _, h4, _⟩ := (construct_ok_still fs t _).mp hok
  obtain ⟨f1, f2, f3, f4⟩ := construct_fields (still fs) t (pathAppend c e)
    ((legal_file_still fs t _).mpr ⟨n, hn, hr⟩)
  simp only [still_apply, Atime, Mtime, Ctime, safe_file_size, file_size, hn, hr,
    if_true] at f1 f2 f3 f4
  refine ⟨n, ?_, hr, ?_, ?_, ?_, ?_, ?_⟩
  · rw [hf, s1, construct_path]; exact hn
  · rw [hf, s3, f1]
  · rw [hf, s4, f2]
  · rw [hf, s5, f3]
  · rw [hf, s2, f4]
  · intro h0
    rw [h0] at h4
    exact h4 rfl

theorem little_hash_fst_path (L : Lib) (w : World) (t t2 : Nat) (p : Path) (f : MyFile) (h : Nat)
    (hf : (f, h) = ((MyFile.construct w t p).1.1.little_hash L w t2).1) : f.real_path_ = p := by
  have h1 : f = ((MyFile.construct w t p).1.1.little_hash L w t2).1.1 := by
    rw [← hf]
  rw [h1, (little_hash_snap L w t2 _).1, construct_path]

theorem walkStep_InodeInv (L : Lib) (fs : FileSys) :
    ∀ st, InodeInv fs st → InodeInv fs (walkStep L (still fs) st) := by
  apply walkStep_inv
  · intro st t2 h; exact h
  · intro st c rest t2 _ h
    exact h
  · intro st0 c rest _ _ _ st e h
    apply visitEntry_cases
    · intro t2; exact h
    · intro _ _; exact h
    · intro _ _ _ _ _ hcount f hh t2 hf
      have hpath : f.real_path_ = pathAppend c e := little_hash_fst_path L _ _ _ _ f hh hf
      have hino : inodeOf fs f = get_inode fs (pathAppend c e) := by
        unfold inodeOf; rw [hpath]
      simp only [still_apply] at hcount
      have hnew : get_inode fs (pathAppend c e) ∉ st.checked_inodes :=
        List.count_eq_zero.mp hcount
      have hperm := records_mapPush_perm (hh, f.size_) f st.all_files
      constructor
      · have hp2 := List.Perm.map (inodeOf fs) hperm
        refine (List.Perm.nodup_iff hp2).mpr ?_
        simp only [List.map_cons, List.nodup_cons]
        refine ⟨?_, h.1⟩
        intro hmem
        obtain ⟨g, hg, hge⟩ := List.mem_map.mp hmem
        apply hnew
        rw [← hino, ← hge]
        exact h.2 g hg
      · intro g hg
        simp only [still_apply]
        rcases (mem_records_mapPush _ _ _ _).mp hg with hg | hg
        · rw [hg, hino]; exact List.mem_cons_self _ _
        · exact List.mem_cons_of_mem _ (h.2 g hg)

theorem walkLoop_InodeInv (L : Lib) (fs : FileSys) (root : Path) (fuel : Nat) :
    InodeInv fs (walkLoop L (still fs) fuel (walkInit root)) := by
  apply walkLoop_inv L (still fs) _ (walkStep_InodeInv L fs)
  constructor
  · simp [walkInit, records]
  · intro f hf
    simp [walkInit, records] at hf

theorem bucket_sublist_records : ∀ (m : List (Key × List MyFile)) (kv : Key × List MyFile),
    kv ∈ m → kv.2.Sublist (records m) := by
  intro m
  induction m with
  | nil => intro kv h; simp at h
  | cons x rest ih =>
    intro kv hkv
    obtain ⟨k, v⟩ := x
    simp only [records]
    rcases List.mem_cons.mp hkv with h | h
    · rw [h]
      exact List.sublist_append_left _ _
    · exact (ih kv h).trans (List.sublist_append_right _ _)

theorem fileAt_eq_getElem (files : List MyFile) (k : Nat) (h : k < files.length) :
    fileAt files k = files[k] := by
  unfold fileAt
  rw [List.getD_eq_getElem?_getD, List.getElem?_eq_getElem h]
  rfl

/-- In a bucket whose records have pairwise different values of `φ`, equal
values at two indices mean equal indices. -/
theorem fileAt_inj {β : Type} (φ : MyFile → β) (files : List MyFile)
    (hnd : (files.map φ).Nodup) (a b : Nat) (ha : a < files.length) (hb : b < files.length)
    (h : φ (fileAt files a) = φ (fileAt files b)) : a = b := by
  rw [fileAt_eq_getElem files a ha, fileAt_eq_getElem files b hb] at h
  have ha2 : a < (files.map φ).length := by simpa using ha
  have hb2 : b < (files.map φ).length := by simpa using hb
  have h2 : (files.map φ)[a] = (files.map φ)[b] := by simpa using h
  exact (List.Nodup.getElem_inj_iff hnd).mp h2

theorem GroupOf_indices_nodup {L : Lib} {w : World} {t0 : Nat} {files : List MyFile} {i : Nat}
    {js : List Nat} {g : List Path} (h : GroupOf L w t0 files i js g) : (i :: js).Nodup := by
  obtain ⟨_, _, h3, h4, _, _⟩ := h
  rw [List.nodup_cons]
  refine ⟨fun hi => (h3 i hi).2 rfl, ?_⟩
  exact h4.imp (fun hlt => Nat.ne_of_lt hlt)

/-- A group built from a bucket whose records have pairwise different values
of `φ` (a function of the path) has pairwise different values of `φ`. -/
theorem GroupOf_nodup_map {β : Type} (φ : Path → β) {L : Lib} {w : World} {t0 : Nat}
    {files : List MyFile} {i : Nat} {js : List Nat} {g : List Path}
    (h : GroupOf L w t0 files i js g)
    (hnd : (files.map (fun f => φ f.real_path_)).Nodup) : (g.map φ).Nodup := by
  have hidx := GroupOf_indices_nodup h
  obtain ⟨h1, h2, h3, _, _, _⟩ := h
  rw [h1, List.map_map]
  apply List.Nodup.map_on _ hidx
  intro a ha b hb hab
  have hlt : ∀ x ∈ i :: js, x < files.length := by
    intro x hx
    rcases List.mem_cons.mp hx with hx | hx
    · rw [hx]; exact h2
    · exact (h3 x hx).1
  exact fileAt_inj (fun f => φ f.real_path_) files hnd a b (hlt a ha) (hlt b hb) hab

/-- A record that keeps reporting a different mtime is reported as changed. -/
theorem changed_of_mtime (w : World) (t : Nat) (f : MyFile)
    (h : ∀ s, t ≤ s → Mtime (w s) f.real_path_ ≠ f.mtime_) : (f.changed w t).1 = true := by
  have ht := legal_file_tick w t f.real_path_
  unfold MyFile.changed
  simp only
  split
  · rfl
  · split
    · rfl
    · split
      · rfl
      · rename_i hm
        exfalso
        apply hm
        exact fun he => h _ (by omega) he.symm

theorem legal_file_tick_eq (w : World) (t : Nat) (p : Path) (h : (legal_file w t p).1 = true) :
    (legal_file w t p).2 = t + 2 := by
  unfold legal_file at h ⊢
  split
  · rename_i h1; simp [h1] at h
  · split
    · rename_i h1 h2; simp [h1, h2] at h
    · rfl

/-! ## The walker in an unchanging tree: stack, termination, listed directories -/

theorem visitEntry_stack (L : Lib) (fs : FileSys) (c : Path) (st : WalkState) (e : String) :
    (visitEntry L (still fs) c st e).s =
      if (!dotName e && is_directory fs (pathAppend c e)) = true then pathAppend c e :: st.s
      else st.s := by
  unfold visitEntry
  simp only [filename_pathAppend, still_apply]
  by_cases hd : dotName e = true
  · simp [hd]
  · by_cases hdir : is_directory fs (pathAppend c e) = true
    · simp [hd, hdir]
    · simp only [hd, hdir, Bool.false_eq_true, if_false]
      simp only [Bool.not_eq_true] at hd hdir
      simp only [hd, hdir, Bool.not_false, Bool.and_false, Bool.false_eq_true, if_false]
      split
      · split
        · rfl
        · split
          · rfl
          · split <;> rfl
      · rfl

theorem foldl_visitEntry_stack (L : Lib) (fs : FileSys) (c : Path) :
    ∀ (es : List String) (st : WalkState),
      (es.foldl (visitEntry L (still fs) c) st).s =
        ((es.filter (fun e => !dotName e && is_directory fs (pathAppend c e))).map
          (pathAppend c)).reverse ++ st.s := by
  intro es
  induction es with
  | nil => intro st; simp
  | cons e rest ih =>
    intro st
    simp only [List.foldl_cons]
    rw [ih, visitEntry_stack]
    by_cases h : (!dotName e && is_directory fs (pathAppend c e)) = true
    · simp [List.filter_cons, h]
    · simp [List.filter_cons, h]

theorem walkStep_stack (L : Lib) (hno : ∀ t p, L.status_error t p = false) (fs : FileSys)
    (st : WalkState) (c : Path) (rest : List Path) (hs : st.s = c :: rest) :
    (walkStep L (still fs) st).s = (children fs c).reverse ++ rest := by
  unfold walkStep children
  rw [hs]
  simp only
  by_cases hf : fuseTmpDir c = true
  · simp [hf]
  · simp only [hf, Bool.false_eq_true, if_false]
    rw [visitLoop_eq_foldl L _ c hno, foldl_visitEntry_stack]
    simp

theorem walkLoop_nil (L : Lib) (w : World) (n : Nat) (st : WalkState) (h : st.s = []) :
    walkLoop L w n st = st := by
  cases n with
  | zero => rfl
  | succ k => unfold walkLoop; rw [h]

theorem walkTrace_nil (L : Lib) (w : World) (n : Nat) (st : WalkState) (h : st.s = []) :
    walkTrace L w n st = [] := by
  cases n with
  | zero => rfl
  | succ k => unfold walkTrace; rw [h]

theorem walkLoop_add (L : Lib) (w : World) :
    ∀ (a b : Nat) (st : WalkState),
      walkLoop L w (a + b) st = walkLoop L w b (walkLoop L w a st) := by
  intro a
  induction a with
  | zero => intro b st; simp [walkLoop]
  | succ k ih =>
    intro b st
    rw [show k + 1 + b = (k + b) + 1 by omega]
    cases hs : st.s with
    | nil =>
      rw [walkLoop_nil L w _ st hs, walkLoop_nil L w _ st hs, walkLoop_nil L w _ st hs]
    | cons c rest =>
      have e1 : walkLoop L w (k + b + 1) st = walkLoop L w (k + b) (walkStep L w st) := by
        rw [walkLoop]; rw [hs]
      have e2 : walkLoop L w (k + 1) st = walkLoop L w k (walkStep L w st) := by
        rw [walkLoop]; rw [hs]
      rw [e1, e2, ih]

theorem walkLoop_succ (L : Lib) (w : World) (n : Nat) (st : WalkState) (c : Path)
    (rest : List Path) (hs : st.s = c :: rest) :
    walkLoop L w (n + 1) st = walkLoop L w n (walkStep L w st) := by
  rw [walkLoop]; rw [hs]

theorem walkTrace_succ (L : Lib) (w : World) (n : Nat) (st : WalkState) (c : Path)
    (rest : List Path) (hs : st.s = c :: rest) :
    walkTrace L w (n + 1) st =
      (if fuseTmpDir c then [] else [c]) ++ walkTrace L w n (walkStep L w st) := by
  rw [walkTrace]; rw [hs]

theorem walkTrace_add (L : Lib) (w : World) :
    ∀ (a b : Nat) (st : WalkState),
      walkTrace L w (a + b) st = walkTrace L w a st ++ walkTrace L w b (walkLoop L w a st) := by
  intro a
  induction a with
  | zero => intro b st; simp [walkLoop, walkTrace]
  | succ k ih =>
    intro b st
    rw [show k + 1 + b = (k + b) + 1 by omega]
    cases hs : st.s with
    | nil =>
      rw [walkTrace_nil L w _ st hs, walkTrace_nil L w _ st hs, walkLoop_nil L w _ st hs,
        walkTrace_nil L w _ st hs]
      rfl
    | cons c rest =>
      rw [walkTrace_succ L w _ st c rest hs, walkTrace_succ L w _ st c rest hs,
        walkLoop_succ L w _ st c rest hs, ih, List.append_assoc]

theorem children_nil_of_deep (fs : FileSys) (D : Nat)
    (hD : ∀ p : Path, D < p.length → is_directory fs p = false) (c : Path)
    (hc : D < c.length) : children fs c = [] := by
  have h := hD c hc
  unfold children
  split
  · rfl
  · have : directory_iterator fs c = [] := by
      unfold directory_iterator
      unfold is_directory at h
      cases hfs : fs c with
      | none => rfl
      | some n =>
        rw [hfs] at h
        simp only [decide_eq_false_iff_not] at h
        simp [h]
    rw [this]; rfl

theorem children_length (fs : FileSys) (c x : Path) (h : x ∈ children fs c) :
    x.length = c.length + 1 := by
  unfold children at h
  split at h
  · simp at h
  · obtain ⟨e, _, he⟩ := List.mem_map.mp h
    rw [← he]; simp [pathAppend]

/-- With depth bounded by `D`, the walker consumes a prefix `pre` of its stack
in finitely many iterations, listing exactly `listed` of its members. -/
theorem walk_consume (L : Lib) (hno : ∀ t p, L.status_error t p = false) (fs : FileSys) (D : Nat)
    (hD : ∀ p : Path, D < p.length → is_directory fs p = false) :
    ∀ (d : Nat) (pre : List Path) (st : WalkState) (rest : List Path),
      st.s = pre ++ rest → (∀ c ∈ pre, D + 1 ≤ c.length + d) →
      ∃ n, (walkLoop L (still fs) n st).s = rest ∧
        walkTrace L (still fs) n st = pre.flatMap (listed fs d) := by
  intro d
  induction d with
  | zero =>
    intro pre
    induction pre with
    | nil => intro st rest hs _; exact ⟨0, by simpa [walkLoop] using hs, by simp [walkTrace]⟩
    | cons c pre2 ih =>
      intro st rest hs hdepth
      have hc : D < c.length := by
        have := hdepth c (List.mem_cons_self _ _); omega
      have hs1 : (walkStep L (still fs) st).s = pre2 ++ rest := by
        rw [walkStep_stack L hno fs st c (pre2 ++ rest) (by simpa using hs),
          children_nil_of_deep fs D hD c hc]
        rfl
      obtain ⟨n, h1, h2⟩ := ih (walkStep L (still fs) st) rest hs1
        (fun x hx => hdepth x (List.mem_cons_of_mem _ hx))
      refine ⟨n + 1, ?_, ?_⟩
      · rw [walkLoop_succ L _ n st c (pre2 ++ rest) (by simpa using hs)]; exact h1
      · rw [walkTrace_succ L _ n st c (pre2 ++ rest) (by simpa using hs), h2]
        simp [listed]
  | succ d ihd =>
    intro pre
    induction pre with
    | nil => intro st rest hs _; exact ⟨0, by simpa [walkLoop] using hs, by simp [walkTrace]⟩
    | cons c pre2 ih =>
      intro st rest hs hdepth
      have hs0 : st.s = c :: (pre2 ++ rest) := by simpa using hs
      have hs1 : (walkStep L (still fs) st).s = (children fs c).reverse ++ (pre2 ++ rest) :=
        walkStep_stack L hno fs st c (pre2 ++ rest) hs0
      obtain ⟨n1, h1, h2⟩ := ihd (children fs c).reverse (walkStep L (still fs) st)
        (pre2 ++ rest) hs1
        (by
          intro x hx
          have hx2 := children_length fs c x (List.mem_reverse.mp hx)
          have := hdepth c (List.mem_cons_self _ _)
          omega)
      obtain ⟨n2, h3, h4⟩ := ih (walkLoop L (still fs) n1 (walkStep L (still fs) st)) rest h1
        (fun x hx => hdepth x (List.mem_cons_of_mem _ hx))
      refine ⟨(n1 + n2) + 1, ?_, ?_⟩
      · rw [walkLoop_succ L _ _ st c (pre2 ++ rest) hs0, walkLoop_add]; exact h3
      · rw [walkTrace_succ L _ _ st c (pre2 ++ rest) hs0, walkTrace_add, h2, h4]
        simp [listed]

theorem mem_children (fs : FileSys) (c x : Path) :
    x ∈ children fs c ↔ fuseTmpDir c = false ∧ ∃ e, e ∈ directory_iterator fs c ∧
      dotName e = false ∧ is_directory fs (pathAppend c e) = true ∧ x = pathAppend c e := by
  unfold children
  by_cases hf : fuseTmpDir c = true
  · simp [hf]
  · simp only [hf, Bool.false_eq_true, if_false, List.mem_map, List.mem_filter,
      Bool.and_eq_true, Bool.not_eq_true', Bool.not_eq_true, true_and]
    constructor
    · rintro ⟨e, ⟨h1, h2, h3⟩, h4⟩
      exact ⟨e, h1, h2, h3, h4.symm⟩
    · rintro ⟨e, h1, h2, h3, h4⟩
      exact ⟨e, ⟨h1, h2, h3⟩, h4.symm⟩

theorem Reach_child {fs : FileSys} {root c x : Path} (h : Reach fs root c)
    (hx : x ∈ children fs c) : Reach fs root x := by
  obtain ⟨hf, e, h1, h2, h3, h4⟩ := (mem_children fs c x).mp hx
  rw [h4]
  exact Reach.step c e h hf h1 h2 h3

/-- Everything in `listed` is reached and passes the `xzfs_fuse_tmp` test. -/
theorem listed_sound (fs : FileSys) (root : Path) :
    ∀ (d : Nat) (c x : Path), Reach fs root c → x ∈ listed fs d c →
      Reach fs root x ∧ fuseTmpDir x = false := by
  intro d
  induction d with
  | zero =>
    intro c x hc hx
    simp only [listed] at hx
    split at hx
    · simp at hx
    · rename_i hf
      simp only [List.mem_singleton] at hx
      rw [hx]; exact ⟨hc, by simpa using hf⟩
  | succ d ih =>
    intro c x hc hx
    simp only [listed, List.mem_append, List.mem_flatMap, List.mem_reverse] at hx
    rcases hx with hx | ⟨y, hy, hx⟩
    · split at hx
      · simp at hx
      · rename_i hf
        simp only [List.mem_singleton] at hx
        rw [hx]; exact ⟨hc, by simpa using hf⟩
    · exact ih y x (Reach_child hc hy) hx

theorem listed_self (fs : FileSys) (d : Nat) (c : Path) (hf : fuseTmpDir c = false) :
    c ∈ listed fs d c := by
  cases d with
  | zero => simp [listed, hf]
  | succ k => simp [listed, hf]

/-- Everything in `listed fs d c` extends `c`. -/
theorem listed_extends (fs : FileSys) :
    ∀ (d : Nat) (c x : Path), x ∈ listed fs d c → ∃ t, x = c ++ t := by
  intro d
  induction d with
  | zero =>
    intro c x hx
    simp only [listed] at hx
    split at hx
    · simp at hx
    · simp only [List.mem_singleton] at hx
      exact ⟨[], by simp [hx]⟩
  | succ d ih =>
    intro c x hx
    simp only [listed, List.mem_append, List.mem_flatMap, List.mem_reverse] at hx
    rcases hx with hx | ⟨y, hy, hx⟩
    · split at hx
      · simp at hx
      · simp only [List.mem_singleton] at hx
        exact ⟨[], by simp [hx]⟩
    · obtain ⟨t, ht⟩ := ih y x hx
      obtain ⟨_, e, _, _, _, he⟩ := (mem_children fs c y).mp hy
      refine ⟨e :: t, ?_⟩
      rw [ht, he]; simp [pathAppend]

theorem child_listed (fs : FileSys) (D : Nat)
    (hD : ∀ p : Path, D < p.length → is_directory fs p = false) :
    ∀ (d : Nat) (a c x : Path), D + 1 ≤ a.length + d → c ∈ listed fs d a →
      x ∈ children fs c → fuseTmpDir x = false → x ∈ listed fs d a := by
  intro d
  induction d with
  | zero =>
    intro a c x hdepth hc hx _
    simp only [listed] at hc
    split at hc
    · simp at hc
    · simp only [List.mem_singleton] at hc
      rw [hc, children_nil_of_deep fs D hD a (by omega)] at hx
      simp at hx
  | succ d ih =>
    intro a c x hdepth hc hx hfx
    simp only [listed, List.mem_append, List.mem_flatMap, List.mem_reverse] at hc ⊢
    right
    rcases hc with hc | ⟨y, hy, hc⟩
    · split at hc
      · simp at hc
      · simp only [List.mem_singleton] at hc
        rw [hc] at hx
        exact ⟨x, hx, listed_self fs d x hfx⟩
    · have hyl := children_length fs a y hy
      exact ⟨y, hy, ih y c x (by omega) hc hx hfx⟩

/-- With depth bounded by `D`, every reached directory that passes the
`xzfs_fuse_tmp` test is in `listed` of the root. -/
theorem listed_complete (fs : FileSys) (root : Path) (D : Nat)
    (hD : ∀ p : Path, D < p.length → is_directory fs p = false) (d : Nat)
    (hdepth : D + 1 ≤ root.length + d) :
    ∀ c, Reach fs root c → fuseTmpDir c = false → c ∈ listed fs d root := by
  intro c hc
  induction hc with
  | root => intro hf; exact listed_self fs d root hf
  | step c e _ hfc he hdot hdir ih =>
    intro hf
    exact child_listed fs D hD d root c _ hdepth (ih hfc)
      ((mem_children fs c _).mpr ⟨hfc, e, he, hdot, hdir, rfl⟩) hf

theorem children_nodup (fs : FileSys) (hnames : ∀ p, (directory_iterator fs p).Nodup)
    (c : Path) : (children fs c).Nodup := by
  unfold children
  split
  · exact List.nodup_nil
  · apply List.Nodup.map_on
    · intro a _ b _ hab
      simp only [pathAppend] at hab
      have := List.append_cancel_left hab
      simpa using this
    · exact List.Nodup.filter _ (hnames c)

/-- When no listing repeats a name, `listed` repeats no path. -/
theorem listed_nodup (fs : FileSys) (hnames : ∀ p, (directory_iterator fs p).Nodup) :
    ∀ (d : Nat) (c : Path), (listed fs d c).Nodup := by
  intro d
  induction d with
  | zero =>
    intro c
    simp only [listed]
    split
    · exact List.nodup_nil
    · exact List.nodup_singleton c
  | succ d ih =>
    intro c
    simp only [listed]
    rw [List.nodup_append]
    refine ⟨?_, ?_, ?_⟩
    · split
      · exact List.nodup_nil
      · exact List.nodup_singleton c
    · rw [List.nodup_flatMap]
      refine ⟨fun x _ => ih x, ?_⟩
      have hnd : (children fs c).reverse.Nodup := List.nodup_reverse.mpr (children_nodup fs hnames c)
      refine List.Pairwise.imp_of_mem ?_ hnd
      intro x y hx hy hxy
      intro z hzx hzy
      obtain ⟨t1, h1⟩ := listed_extends fs d x z hzx
      obtain ⟨t2, h2⟩ := listed_extends fs d y z hzy
      have lx := children_length fs c x (List.mem_reverse.mp hx)
      have ly := children_length fs c y (List.mem_reverse.mp hy)
      rw [h1] at h2
      exact hxy (List.append_inj h2 (by omega)).1
    · intro z hz1 hz2
      split at hz1
      · simp at hz1
      · simp only [List.mem_singleton] at hz1
        simp only [List.mem_flatMap, List.mem_reverse] at hz2
        obtain ⟨y, hy, hz⟩ := hz2
        obtain ⟨t, ht⟩ := listed_extends fs d y z hz
        have ly := children_length fs c y hy
        have : z.length = y.length + t.length := by rw [ht]; simp
        rw [hz1] at this
        omega

/-! ## The group builder computes equivalence classes -/

theorem RelFiles_set2 {Rel : MyFile → MyFile → Prop} {files files0 : List MyFile}
    (h : RelFiles Rel files files0) (i j : Nat) (a b : MyFile)
    (hi : i < files0.length) (hj : j < files0.length)
    (ha : Rel a (fileAt files0 i)) (hb : Rel b (fileAt files0 j)) :
    RelFiles Rel ((files.set i a).set j b) files0 := by
  refine ⟨by simp [h.1], fun k hk => ?_⟩
  rw [fileAt_set, fileAt_set]
  by_cases h1 : j = k
  · subst h1
    simp only [List.length_set, true_and, h.1, hj, if_true]
    exact hb
  · simp only [h1, false_and, if_false]
    by_cases h2 : i = k
    · subst h2
      simp only [true_and, h.1, hi, if_true]
      exact ha
    · simp only [h2, false_and, if_false]
      exact h.2 k hk

theorem contains_iff_mem_nat (l : List Nat) (x : Nat) : l.contains x = true ↔ x ∈ l := by
  simp

theorem newMember_true (E : Nat → Nat → Bool) (i : Nat) (checked : List Nat) (j : Nat) :
    newMember E i checked j = true ↔ j ≠ i ∧ j ∉ checked ∧ E i j = true := by
  unfold newMember
  simp only [Bool.and_eq_true, decide_eq_true_eq, Bool.not_eq_true', ← Bool.not_eq_true,
    contains_iff_mem_nat]
  tauto

/-- Under `ClassHyp` the inner scan adds to the group of the leader `i` exactly
the indices still to come that are not checked and related to `i`, and marks
them checked. -/
theorem innerScan_class (L : Lib) (w : World) (files0 : List MyFile)
    (Rel : MyFile → MyFile → Prop) (E : Nat → Nat → Bool)
    (H : ClassHyp L w files0 Rel E) (i : Nat) (hi : i < files0.length) :
    ∀ (todo : List Nat) (st : GroupState) (gs : List (List Path)) (cur : List Path),
      todo.Nodup → (∀ j ∈ todo, j < files0.length) →
      RelFiles Rel st.files files0 →
      st.same_file_groups = gs ++ [cur] →
      RelFiles Rel (innerScan L w i todo st).files files0 ∧
      (innerScan L w i todo st).same_file_groups =
        gs ++ [cur ++ (todo.filter (newMember E i st.checked)).map (pathAt files0)] ∧
      (innerScan L w i todo st).items = st.items ∧
      (∀ x, x ∈ (innerScan L w i todo st).checked ↔
        x ∈ st.checked ∨ x ∈ todo.filter (newMember E i st.checked)) := by
  intro todo
  induction todo with
  | nil =>
    intro st gs cur _ _ hrel hg
    exact ⟨hrel, by simp [innerScan, hg], rfl, by simp [innerScan]⟩
  | cons j rest ih =>
    intro st gs cur hnd hlt hrel hg
    have hnd2 : rest.Nodup := (List.nodup_cons.mp hnd).2
    have hjrest : j ∉ rest := (List.nodup_cons.mp hnd).1
    have hlt2 : ∀ y ∈ rest, y < files0.length := fun y hy => hlt y (List.mem_cons_of_mem _ hy)
    have hjlt : j < files0.length := hlt j (List.mem_cons_self _ _)
    simp only [innerScan]
    by_cases hji : j = i
    · simp only [hji, if_true]
      have hsel : ¬ (newMember E i st.checked i = true) := by
        rw [newMember_true]; intro h; exact h.1 rfl
      rw [hji] at hnd hlt
      rw [List.filter_cons_of_neg hsel]
      exact ih st gs cur hnd2 hlt2 hrel hg
    · simp only [hji, if_false]
      by_cases hck : st.checked.contains j = true
      · simp only [hck, if_true]
        have hsel : ¬ (newMember E i st.checked j = true) := by
          rw [newMember_true]; intro h
          exact h.2.1 ((contains_iff_mem_nat _ _).mp hck)
        rw [List.filter_cons_of_neg hsel]
        exact ih st gs cur hnd2 hlt2 hrel hg
      · simp only [hck, Bool.false_eq_true, if_false]
        have hjnc : j ∉ st.checked := fun h => hck ((contains_iff_mem_nat _ _).mpr h)
        have hcj : ((fileAt st.files j).changed w st.t).1 = false :=
          H.unchanged j hjlt _ _ (hrel.2 j hjlt)
        have hci : ((fileAt st.files i).changed w
            ((fileAt st.files j).changed w st.t).2).1 = false :=
          H.unchanged i hi _ _ (hrel.2 i hi)
        simp only [hcj, hci, Bool.false_eq_true, if_false]
        obtain ⟨hiff, hr1, hr2⟩ := H.cmp i j hi hjlt (Ne.symm hji)
          ((fileAt st.files i).changed w ((fileAt st.files j).changed w st.t).2).2
          (fileAt st.files i) (fileAt st.files j) (hrel.2 i hi) (hrel.2 j hjlt)
        generalize hrd : (fileAt st.files i).compare L w
          ((fileAt st.files i).changed w ((fileAt st.files j).changed w st.t).2).2
          (fileAt st.files j) = r at hiff hr1 hr2
        have hrel2 : RelFiles Rel ((st.files.set i r.1.2.1).set j r.1.2.2) files0 :=
          RelFiles_set2 hrel i j _ _ hi hjlt hr1 hr2
        by_cases hz : r.1.1 = 0
        · simp only [hz, if_true]
          have hE : E i j = true := hiff.mp hz
          have hsel : newMember E i st.checked j = true :=
            (newMember_true E i st.checked j).mpr ⟨hji, hjnc, hE⟩
          have hpath : (fileAt ((st.files.set i r.1.2.1).set j r.1.2.2) j).real_path_
              = pathAt files0 j := (H.rel_snap _ _ (hrel2.2 j hjlt)).1
          rw [hpath]
          obtain ⟨h1, h2, h3, h4⟩ := ih
            { st with files := (st.files.set i r.1.2.1).set j r.1.2.2,
                      same_file_groups := backPush st.same_file_groups (pathAt files0 j),
                      checked := j :: st.checked, t := r.2 }
            gs (cur ++ [pathAt files0 j]) hnd2 hlt2 hrel2 (by simp [hg, backPush_concat])
          have hf : rest.filter (newMember E i (j :: st.checked)) =
              rest.filter (newMember E i st.checked) := by
            apply List.filter_congr
            intro y hy
            have hyj : y ≠ j := fun h => hjrest (h ▸ hy)
            rw [Bool.eq_iff_iff, newMember_true, newMember_true]
            simp only [List.mem_cons, hyj, false_or]
          simp only at h2 h4
          rw [hf] at h2 h4
          rw [List.filter_cons_of_pos hsel]
          refine ⟨h1, ?_, h3, ?_⟩
          · rw [h2]
            simp
          · intro x
            rw [h4]
            simp only [List.mem_cons]
            tauto
        · simp only [hz, if_false]
          have hsel : ¬ (newMember E i st.checked j = true) := by
            rw [newMember_true]; intro h
            exact hz (hiff.mpr h.2.2)
          rw [List.filter_cons_of_neg hsel]
          exact ih { st with files := (st.files.set i r.1.2.1).set j r.1.2.2, t := r.2 }
            gs cur hnd2 hlt2 hrel2 hg

theorem LeaderInv_skip {files0 : List MyFile} {Rel : MyFile → MyFile → Prop}
    {E : Nat → Nat → Bool} {L : Lib} {w : World} (H : ClassHyp L w files0 Rel E)
    {n : Nat} {st : GroupState} (h : LeaderInv files0 Rel E n st) (hn : n ∈ st.checked) :
    LeaderInv files0 Rel E (n + 1) st := by
  obtain ⟨h1, h2, h3, h4, h5, h6⟩ := h
  obtain ⟨_, i0, hi0, _, hE0⟩ := (h2 n).mp hn
  have hnot : ¬ isLeader E n := by
    intro hl
    rw [hl i0 hi0] at hE0
    exact Bool.false_ne_true hE0
  refine ⟨h1, ?_, ?_, ?_, ?_, ?_⟩
  · intro j
    rw [h2 j]
    constructor
    · rintro ⟨hj, i, hi, hij, hE⟩
      exact ⟨hj, i, by omega, hij, hE⟩
    · rintro ⟨hj, i, hi, hij, hE⟩
      by_cases hin : i < n
      · exact ⟨hj, i, hin, hij, hE⟩
      · have : i = n := by omega
        subst this
        exact ⟨hj, i0, hi0, by omega, H.trans i0 i j hE0 hE⟩
  · intro g hg
    obtain ⟨m, hm, hl, he⟩ := h3 g hg
    exact ⟨m, by omega, hl, he⟩
  · intro m hm hl
    by_cases hmn : m < n
    · exact h4 m hmn hl
    · have : m = n := by omega
      subst this
      exact absurd hl hnot
  · intro g hg
    obtain ⟨hlen, m, hm, hl, he⟩ := h5 g hg
    exact ⟨hlen, m, by omega, hl, he⟩
  · intro m hm hl hlen
    by_cases hmn : m < n
    · exact h6 m hmn hl hlen
    · have : m = n := by omega
      subst this
      exact absurd hl hnot

theorem LeaderInv_lead {files0 : List MyFile} {Rel : MyFile → MyFile → Prop}
    {E : Nat → Nat → Bool} {L : Lib} {w : World} (H : ClassHyp L w files0 Rel E)
    {n : Nat} {st st2 : GroupState} (h : LeaderInv files0 Rel E n st)
    (hnc : n < files0.length) (hn : n ∉ st.checked)
    (hfiles : RelFiles Rel st2.files files0)
    (hgroups : st2.same_file_groups = st.same_file_groups ++
      [[pathAt files0 n] ++ ((List.range files0.length).filter
        (newMember E n st.checked)).map (pathAt files0)])
    (hitems : st2.items = st.items)
    (hchecked : ∀ x, x ∈ st2.checked ↔ x ∈ st.checked ∨
      x ∈ (List.range files0.length).filter (newMember E n st.checked)) :
    LeaderInv files0 Rel E (n + 1) (emitGroups st2) := by
  obtain ⟨_, h2, h3, h4, h5, h6⟩ := h
  have hlead : isLeader E n := by
    intro i hi
    cases hE : E i n with
    | false => rfl
    | true => exact absurd ((h2 n).mpr ⟨hnc, i, hi, hi, hE⟩) hn
  have hfree : ∀ j, j ≠ n → E n j = true → j ∉ st.checked := by
    intro j _ hE hj
    obtain ⟨_, i, hi, _, hEi⟩ := (h2 j).mp hj
    have : E i n = true := H.trans i j n hEi (H.symm n j hE)
    rw [hlead i hi] at this
    exact Bool.false_ne_true this
  have hM : (List.range files0.length).filter (newMember E n st.checked) =
      (List.range files0.length).filter (fun j => decide (j ≠ n) && E n j) := by
    apply List.filter_congr
    intro j _
    rw [Bool.eq_iff_iff, newMember_true]
    simp only [Bool.and_eq_true, decide_eq_true_eq]
    constructor
    · rintro ⟨a, _, b⟩; exact ⟨a, b⟩
    · rintro ⟨a, b⟩; exact ⟨a, hfree j a b, b⟩
  have hcls : [pathAt files0 n] ++ ((List.range files0.length).filter
      (newMember E n st.checked)).map (pathAt files0) = classGroup files0 E n := by
    rw [hM]; rfl
  rw [hcls] at hgroups
  have hG3 : ∀ g ∈ st2.same_file_groups,
      ∃ m, m < n + 1 ∧ isLeader E m ∧ g = classGroup files0 E m := by
    intro g hg
    rw [hgroups] at hg
    rcases List.mem_append.mp hg with hg | hg
    · obtain ⟨m, hm, hl, he⟩ := h3 g hg
      exact ⟨m, by omega, hl, he⟩
    · simp only [List.mem_singleton] at hg
      exact ⟨n, by omega, hlead, hg⟩
  have hG4 : ∀ m, m < n + 1 → isLeader E m → classGroup files0 E m ∈ st2.same_file_groups := by
    intro m hm hl
    rw [hgroups]
    by_cases hmn : m < n
    · exact List.mem_append_left _ (h4 m hmn hl)
    · have : m = n := by omega
      subst this
      exact List.mem_append_right _ (List.mem_singleton.mpr rfl)
  refine ⟨hfiles, ?_, hG3, hG4, ?_, ?_⟩
  · intro x
    show x ∈ st2.checked ↔ _
    rw [hchecked x, h2 x, List.mem_filter, newMember_true, List.mem_range]
    constructor
    · rintro (⟨hx, i, hi, hix, hE⟩ | ⟨hx, hxn, _, hE⟩)
      · exact ⟨hx, i, by omega, hix, hE⟩
      · refine ⟨hx, n, by omega, ?_, hE⟩
        by_contra hlt
        have hxlt : x < n := by omega
        have := H.symm n x hE
        rw [hlead x hxlt] at this
        exact Bool.false_ne_true this
    · rintro ⟨hx, i, hi, hix, hE⟩
      by_cases hin : i < n
      · exact Or.inl ⟨hx, i, hin, hix, hE⟩
      · have : i = n := by omega
        subst this
        exact Or.inr ⟨hx, by omega, hfree x (by omega) hE, hE⟩
  · intro g hg
    simp only [emitGroups, List.mem_append, List.mem_filter, decide_eq_true_eq] at hg
    rcases hg with hg | ⟨hg, hlen⟩
    · rw [hitems] at hg
      obtain ⟨hlen, m, hm, hl, he⟩ := h5 g hg
      exact ⟨hlen, m, by omega, hl, he⟩
    · exact ⟨hlen, hG3 g hg⟩
  · intro m hm hl hlen
    simp only [emitGroups, List.mem_append, List.mem_filter, decide_eq_true_eq]
    exact Or.inr ⟨hG4 m hm hl, hlen⟩

theorem leaderLoop_class (L : Lib) (w : World) (files0 : List MyFile)
    (Rel : MyFile → MyFile → Prop) (E : Nat → Nat → Bool)
    (H : ClassHyp L w files0 Rel E) :
    ∀ (k n : Nat) (st : GroupState), n + k = files0.length →
      LeaderInv files0 Rel E n st →
      LeaderInv files0 Rel E files0.length
        (leaderLoop L w files0.length (List.range' n k) st) := by
  intro k
  induction k with
  | zero =>
    intro n st hn h
    have : n = files0.length := by omega
    subst this
    simpa [leaderLoop] using h
  | succ k ih =>
    intro n st hn h
    have hnc : n < files0.length := by omega
    rw [List.range'_succ]
    simp only [leaderLoop]
    by_cases hck : st.checked.contains n = true
    · simp only [hck, if_true]
      exact ih (n + 1) st (by omega)
        (LeaderInv_skip H h ((contains_iff_mem_nat _ _).mp hck))
    · simp only [hck, Bool.false_eq_true, if_false]
      have hnot : n ∉ st.checked := fun hm => hck ((contains_iff_mem_nat _ _).mpr hm)
      have hch : ((fileAt st.files n).changed w st.t).1 = false :=
        H.unchanged n hnc _ _ (h.1.2 n hnc)
      simp only [hch, Bool.false_eq_true, if_false]
      have hpath : (fileAt st.files n).real_path_ = pathAt files0 n :=
        (H.rel_snap _ _ (h.1.2 n hnc)).1
      rw [hpath]
      obtain ⟨h1, h2, h3, h4⟩ := innerScan_class L w files0 Rel E H n hnc
        (List.range files0.length)
        { st with same_file_groups := st.same_file_groups ++ [[pathAt files0 n]],
                  t := ((fileAt st.files n).changed w st.t).2 }
        st.same_file_groups [pathAt files0 n] (List.nodup_range _)
        (fun j hj => List.mem_range.mp hj) h.1 rfl
      exact ih (n + 1) _ (by omega) (LeaderInv_lead H h hnc hnot h1 h2 h3 h4)

/-- Under `ClassHyp` the groups emitted for a bucket are class groups of
leaders with more than one member, and every such group is emitted. -/
theorem groupBucket_class (L : Lib) (w : World) (files0 : List MyFile)
    (Rel : MyFile → MyFile → Prop) (E : Nat → Nat → Bool)
    (H : ClassHyp L w files0 Rel E) (t : Nat) :
    (∀ g ∈ (groupBucket L w t files0).1, 1 < g.length ∧
      ∃ m, m < files0.length ∧ isLeader E m ∧ g = classGroup files0 E m) ∧
    (∀ m, m < files0.length → isLeader E m → 1 < (classGroup files0 E m).length →
      classGroup files0 E m ∈ (groupBucket L w t files0).1) := by
  unfold groupBucket
  split
  · rw [List.range_eq_range']
    obtain ⟨_, _, _, _, h5, h6⟩ := leaderLoop_class L w files0 Rel E H files0.length 0
      { files := files0, checked := [], same_file_groups := [], items := [], t := t }
      (by omega)
      ⟨⟨rfl, fun k hk => H.rel_self k hk⟩, by simp, by simp, by
        intro m hm; omega, by simp, by intro m hm; omega⟩
    exact ⟨h5, h6⟩
  · rename_i hlen
    refine ⟨by simp, ?_⟩
    intro m hm _ hl
    exfalso
    have hc : files0.length = 1 := by omega
    have hm0 : m = 0 := by omega
    subst hm0
    simp [classGroup, hc, List.range_succ] at hl

/-! ## Records in an unchanging tree -/

theorem legal_file_still_fst (fs : FileSys) (t t2 : Nat) (p : Path) :
    (legal_file (still fs) t p).1 = (legal_file (still fs) t2 p).1 := by
  unfold legal_file
  simp only [still_apply]
  split
  · rfl
  · split <;> rfl

theorem construct_still_eq (fs : FileSys) (t : Nat) (p : Path) :
    (MyFile.construct (still fs) t p).1 = (MyFile.construct (still fs) 0 p).1 := by
  unfold MyFile.construct
  simp only [still_apply, legal_file_still_fst fs t 0 p]
  split <;> rfl

theorem set_first_4k_still_eq (fs : FileSys) (t : Nat) (f : MyFile) :
    (f.set_first_4k (still fs) t).1 = (f.set_first_4k (still fs) 0).1 := by
  unfold MyFile.set_first_4k
  simp only [still_apply]
  split
  · split <;> rfl
  · rfl

theorem little_hash_still_eq (L : Lib) (fs : FileSys) (t : Nat) (f : MyFile) :
    (f.little_hash L (still fs) t).1 = (f.little_hash L (still fs) 0).1 := by
  unfold MyFile.little_hash
  simp only [set_first_4k_still_eq fs t f]

theorem little_hash_key (L : Lib) (w : World) (t : Nat) (f : MyFile) :
    (f.little_hash L w t).1.2 = (keyOf L (f.little_hash L w t).1.1).1 := rfl

theorem construct_first (w : World) (t : Nat) (p : Path) :
    (MyFile.construct w t p).1.1.first_4k_ = false := by
  unfold MyFile.construct
  simp only
  split <;> rfl

theorem recordOf_first (L : Lib) (fs : FileSys) (p : Path) :
    (recordOf L fs p).first_4k_ = true := by
  unfold recordOf MyFile.little_hash MyFile.set_first_4k
  simp only [construct_first, Bool.not_false, if_true]
  split <;> rfl

theorem recordOf_path (L : Lib) (fs : FileSys) (p : Path) :
    (recordOf L fs p).real_path_ = p := by
  unfold recordOf
  rw [(little_hash_snap L (still fs) 0 _).1, construct_path]

theorem construct_data (w : World) (t : Nat) (p : Path) :
    (MyFile.construct w t p).1.1.first_4k_data_ = List.replicate 4096 0 := by
  unfold MyFile.construct
  simp only
  split <;> rfl

/-- The first-block bytes of a record depend only on what the stream delivers. -/
theorem recordOf_data (L : Lib) (fs : FileSys) (p : Path) :
    (recordOf L fs p).first_4k_data_ =
      match ifstream fs p with
      | none => List.replicate 4096 0
      | some bytes => bytes.take 4096 ++ (List.replicate 4096 0).drop (bytes.take 4096).length := by
  unfold recordOf MyFile.little_hash MyFile.set_first_4k
  simp only [construct_first, Bool.not_false, if_true, still_apply, construct_path]
  split
  · rename_i h; simp only [h, construct_data]
  · rename_i b h; simp only [h, construct_data]

theorem Eligible_ok {fs : FileSys} {p : Path} (h : Eligible fs p) (t : Nat) :
    (MyFile.construct (still fs) t p).1.2 = true := by
  obtain ⟨n, h1, h2, h3, h4, h5, h6, h7, _⟩ := h
  exact (construct_ok_still fs t p).mpr ⟨n, h1, h2, h3, h4, h5, h6, h7⟩

/-- The snapshot of the record of an eligible path. -/
theorem recordOf_snapshot (L : Lib) {fs : FileSys} {p : Path} {n : Node} (hn : fs p = some n)
    (hr : n.type = FileType.regular) :
    (recordOf L fs p).size_ = n.data.length ∧ (recordOf L fs p).atime_ = n.st_atime ∧
    (recordOf L fs p).mtime_ = n.st_mtime ∧ (recordOf L fs p).ctime_ = n.st_ctime := by
  obtain ⟨_, s2, s3, s4, s5⟩ :=
    little_hash_snap L (still fs) 0 (MyFile.construct (still fs) 0 p).1.1
  obtain ⟨f1, f2, f3, f4⟩ := construct_fields (still fs) 0 p
    ((legal_file_still fs 0 _).mpr ⟨n, hn, hr⟩)
  simp only [still_apply, Atime, Mtime, Ctime, safe_file_size, file_size, hn, hr,
    if_true] at f1 f2 f3 f4
  unfold recordOf
  rw [s2, s3, s4, s5, f1, f2, f3, f4]
  exact ⟨rfl, rfl, rfl, rfl⟩

/-- In an unchanging tree the loop body changes the index exactly when it
inserts the record of the entry. -/
theorem visitEntry_still_files (L : Lib) (fs : FileSys) (c : Path) (st : WalkState)
    (e : String) :
    (visitEntry L (still fs) c st e).all_files =
      if insertsB fs st.checked_inodes (pathAppend c e) e = true then
        mapPush (keyOf L (recordOf L fs (pathAppend c e))) (recordOf L fs (pathAppend c e))
          st.all_files
      else st.all_files := by
  unfold visitEntry insertsB
  simp only [filename_pathAppend, still_apply]
  rw [construct_still_eq fs (st.t + 2)]
  by_cases hd : dotName e = true
  · simp [hd]
  · simp only [Bool.not_eq_true] at hd
    by_cases hdir : is_directory fs (pathAppend c e) = true
    · simp [hd, hdir]
    · simp only [Bool.not_eq_true] at hdir
      by_cases hreg : is_regular_file fs (pathAppend c e) = true
      · by_cases hok : (MyFile.construct (still fs) 0 (pathAppend c e)).1.2 = true
        · by_cases hino : get_inode fs (pathAppend c e) = UINT64_MAX
          · simp [hd, hdir, hreg, hok, hino]
          · by_cases hcnt : List.count (get_inode fs (pathAppend c e)) st.checked_inodes = 0
            · simp only [hd, hdir, hreg, hok, hino, hcnt, Bool.false_eq_true, if_false, if_true,
                Bool.not_true, Bool.not_false, Bool.and_self, ne_eq, not_false_eq_true,
                decide_True, gt_iff_lt, Nat.lt_irrefl]
              rw [little_hash_still_eq]
              rfl
            · have : List.count (get_inode fs (pathAppend c e)) st.checked_inodes > 0 := by
                omega
              simp [hd, hdir, hreg, hok, hino, hcnt, this]
        · simp [hd, hdir, hreg, hok]
      · simp [hd, hdir, hreg]

theorem visitEntry_still_inodes (L : Lib) (fs : FileSys) (c : Path) (st : WalkState)
    (e : String) :
    (visitEntry L (still fs) c st e).checked_inodes =
      if insertsB fs st.checked_inodes (pathAppend c e) e = true then
        get_inode fs (pathAppend c e) :: st.checked_inodes
      else st.checked_inodes := by
  unfold visitEntry insertsB
  simp only [filename_pathAppend, still_apply]
  rw [construct_still_eq fs (st.t + 2)]
  by_cases hd : dotName e = true
  · simp [hd]
  · simp only [Bool.not_eq_true] at hd
    by_cases hdir : is_directory fs (pathAppend c e) = true
    · simp [hd, hdir]
    · simp only [Bool.not_eq_true] at hdir
      by_cases hreg : is_regular_file fs (pathAppend c e) = true
      · by_cases hok : (MyFile.construct (still fs) 0 (pathAppend c e)).1.2 = true
        · by_cases hino : get_inode fs (pathAppend c e) = UINT64_MAX
          · simp [hd, hdir, hreg, hok, hino]
          · by_cases hcnt : List.count (get_inode fs (pathAppend c e)) st.checked_inodes = 0
            · simp [hd, hdir, hreg, hok, hino, hcnt]
            · have : List.count (get_inode fs (pathAppend c e)) st.checked_inodes > 0 := by
                omega
              simp [hd, hdir, hreg, hok, hino, hcnt, this]
        · simp [hd, hdir, hreg, hok]
      · simp [hd, hdir, hreg]

theorem insertsB_true (fs : FileSys) (checked : List Nat) (p : Path) (e : String) :
    insertsB fs checked p e = true ↔
      dotName e = false ∧ is_directory fs p = false ∧ is_regular_file fs p = true ∧
      (MyFile.construct (still fs) 0 p).1.2 = true ∧ get_inode fs p ≠ UINT64_MAX ∧
      get_inode fs p ∉ checked := by
  unfold insertsB
  simp only [Bool.and_eq_true, Bool.not_eq_true', decide_eq_true_eq, List.count_eq_zero]
  tauto

/-! ## The walker in an unchanging tree records exactly the candidates -/

theorem keyLt_iff (a b : Key) :
    keyLt a b = true ↔ a.1 < b.1 ∨ (a.1 = b.1 ∧ a.2 < b.2) := by
  unfold keyLt
  simp only [Bool.or_eq_true, Bool.and_eq_true, decide_eq_true_eq]

theorem keyLt_trans {a b c : Key} (h1 : keyLt a b = true) (h2 : keyLt b c = true) :
    keyLt a c = true := by
  rw [keyLt_iff] at *
  omega

theorem keyLt_irrefl (a : Key) : ¬ keyLt a a = true := by
  rw [keyLt_iff]
  omega

theorem keyLt_total {a b : Key} (h1 : ¬ a = b) (h2 : ¬ keyLt a b = true) :
    keyLt b a = true := by
  rw [keyLt_iff] at *
  have : ¬ (a.1 = b.1 ∧ a.2 = b.2) := fun h => h1 (Prod.ext h.1 h.2)
  omega

theorem mapPush_keys_mem (key : Key) (f : MyFile) :
    ∀ (m : List (Key × List MyFile)) (k : Key),
      k ∈ (mapPush key f m).map Prod.fst ↔ k = key ∨ k ∈ m.map Prod.fst := by
  intro m
  induction m with
  | nil => intro k; simp [mapPush]
  | cons kv rest ih =>
    intro k
    obtain ⟨k0, v⟩ := kv
    simp only [mapPush]
    split
    · rename_i h
      simp only [List.map_cons, List.mem_cons, h]
      tauto
    · split
      · simp only [List.map_cons, List.mem_cons]
      · simp only [List.map_cons, List.mem_cons, ih]
        tauto

theorem mapPush_sorted (key : Key) (f : MyFile) :
    ∀ (m : List (Key × List MyFile)),
      (m.map Prod.fst).Pairwise (fun a b => keyLt a b = true) →
      ((mapPush key f m).map Prod.fst).Pairwise (fun a b => keyLt a b = true) := by
  intro m
  induction m with
  | nil => intro _; simp [mapPush]
  | cons kv rest ih =>
    intro h
    obtain ⟨k0, v⟩ := kv
    simp only [List.map_cons, List.pairwise_cons] at h
    simp only [mapPush]
    split
    · simpa only [List.map_cons, List.pairwise_cons] using h
    · rename_i hne
      split
      · rename_i hlt
        simp only [List.map_cons, List.pairwise_cons, List.mem_cons]
        refine ⟨?_, h⟩
        intro k hk
        rcases hk with hk | hk
        · rw [hk]; exact hlt
        · exact keyLt_trans hlt (h.1 k hk)
      · rename_i hnlt
        simp only [List.map_cons, List.pairwise_cons, mapPush_keys_mem]
        refine ⟨?_, ih h.2⟩
        intro k hk
        rcases hk with hk | hk
        · rw [hk]; exact keyLt_total hne hnlt
        · exact h.1 k hk

theorem mapPush_keyed (L : Lib) (key : Key) (f : MyFile) (hk : keyOf L f = key) :
    ∀ (m : List (Key × List MyFile)),
      (∀ kv ∈ m, ∀ g ∈ kv.2, keyOf L g = kv.1) →
      ∀ kv ∈ mapPush key f m, ∀ g ∈ kv.2, keyOf L g = kv.1 := by
  intro m
  induction m with
  | nil =>
    intro _ kv hkv g hg
    simp only [mapPush, List.mem_singleton] at hkv
    rw [hkv] at hg ⊢
    simp only [List.mem_singleton] at hg
    rw [hg]; exact hk
  | cons x rest ih =>
    intro h kv hkv g hg
    obtain ⟨k0, v⟩ := x
    simp only [mapPush] at hkv
    split at hkv
    · rename_i he
      rcases List.mem_cons.mp hkv with hkv | hkv
      · rw [hkv] at hg ⊢
        simp only [List.mem_append, List.mem_singleton] at hg
        rcases hg with hg | hg
        · exact h (k0, v) (List.mem_cons_self _ _) g hg
        · rw [hg, hk]; exact he
      · exact h kv (List.mem_cons_of_mem _ hkv) g hg
    · split at hkv
      · rcases List.mem_cons.mp hkv with hkv | hkv
        · rw [hkv] at hg ⊢
          simp only [List.mem_singleton] at hg
          rw [hg]; exact hk
        · exact h kv hkv g hg
      · rcases List.mem_cons.mp hkv with hkv | hkv
        · rw [hkv] at hg ⊢
          exact h (k0, v) (List.mem_cons_self _ _) g hg
        · exact ih (fun kv2 h2 => h kv2 (List.mem_cons_of_mem _ h2)) kv hkv g hg

/-- In an index ordered by key, two buckets with the same key are one bucket. -/
theorem bucket_unique : ∀ (m : List (Key × List MyFile)),
    (m.map Prod.fst).Pairwise (fun a b => keyLt a b = true) →
    ∀ kv1 ∈ m, ∀ kv2 ∈ m, kv1.1 = kv2.1 → kv1 = kv2 := by
  intro m
  induction m with
  | nil => intro _ kv1 h; simp at h
  | cons x rest ih =>
    intro h kv1 h1 kv2 h2 he
    simp only [List.map_cons, List.pairwise_cons] at h
    rcases List.mem_cons.mp h1 with h1 | h1 <;> rcases List.mem_cons.mp h2 with h2 | h2
    · rw [h1, h2]
    · exfalso
      have := h.1 kv2.1 (List.mem_map_of_mem _ h2)
      rw [← he, h1] at this
      exact keyLt_irrefl _ this
    · exfalso
      have := h.1 kv1.1 (List.mem_map_of_mem _ h1)
      rw [he, h2] at this
      exact keyLt_irrefl _ this
    · exact ih h.2 kv1 h1 kv2 h2 he

theorem mem_records_iff : ∀ (m : List (Key × List MyFile)) (f : MyFile),
    f ∈ records m ↔ ∃ kv ∈ m, f ∈ kv.2 := by
  intro m
  induction m with
  | nil => intro f; simp [records]
  | cons x rest ih =>
    intro f
    obtain ⟨k, v⟩ := x
    simp only [records, List.mem_append, ih, List.mem_cons, exists_eq_or_imp]

theorem foldl_visitEntry_inv_mem (L : Lib) (w : World) (c : Path) (P : WalkState → Prop) :
    ∀ (es : List String) (st : WalkState),
      (∀ e ∈ es, ∀ st, P st → P (visitEntry L w c st e)) → P st →
      P (es.foldl (visitEntry L w c) st) := by
  intro es
  induction es with
  | nil => intro st _ h; exact h
  | cons e rest ih =>
    intro st hent h
    exact ih _ (fun e2 he2 => hent e2 (List.mem_cons_of_mem _ he2))
      (hent e (List.mem_cons_self _ _) st h)

theorem visitLoop_inv_mem (L : Lib) (w : World) (c : Path) (P : WalkState → Prop)
    (htick : ∀ st t2, P st → P { st with t := t2 }) :
    ∀ (es : List String) (st : WalkState),
      (∀ e ∈ es, ∀ st, P st → P (visitEntry L w c st e)) → P st →
      P (visitLoop L w c es st) := by
  intro es
  induction es with
  | nil => intro st _ h; exact h
  | cons e rest ih =>
    intro st hent h
    simp only [visitLoop]
    split
    · exact htick st _ h
    · exact ih _ (fun e2 he2 => hent e2 (List.mem_cons_of_mem _ he2))
        (hent e (List.mem_cons_self _ _) st h)

theorem walkStep_inv_mem (L : Lib) (w : World) (P : WalkState → Prop)
    (htick : ∀ st t2, P st → P { st with t := t2 })
    (hpop : ∀ st c rest t2, st.s = c :: rest → P st → P { st with s := rest, t := t2 })
    (hent : ∀ st0 c rest, st0.s = c :: rest → P st0 → fuseTmpDir c = false →
      ∀ e ∈ directory_iterator (w st0.t) c, ∀ st, P st → P (visitEntry L w c st e)) :
    ∀ st, P st → P (walkStep L w st) := by
  intro st h
  unfold walkStep
  split
  · exact h
  · rename_i c rest hs
    split
    · exact hpop st c rest st.t hs h
    · rename_i hf
      exact visitLoop_inv_mem L w c P htick _ _ (hent st c rest hs h (by simpa using hf))
        (hpop st c rest (st.t + 1) hs h)

theorem Candidate_of_inserts {fs : FileSys} {root c : Path} {e : String} {checked : List Nat}
    (hc : Reach fs root c) (hf : fuseTmpDir c = false) (he : e ∈ directory_iterator fs c)
    (h : insertsB fs checked (pathAppend c e) e = true) :
    Candidate fs root (pathAppend c e) := by
  obtain ⟨h1, _, _, h4, h5, _⟩ := (insertsB_true fs checked _ e).mp h
  obtain ⟨n, hn, hr, a1, a2, a3, a4, a5⟩ := (construct_ok_still fs 0 _).mp h4
  refine ⟨c, e, rfl, hc, hf, he, h1, n, hn, hr, a1, a2, a3, a4, a5, ?_⟩
  simpa [get_inode, hn] using h5

theorem walkStep_StillInv (L : Lib) (fs : FileSys) (root : Path) :
    ∀ st, StillInv L fs root st → StillInv L fs root (walkStep L (still fs) st) := by
  apply walkStep_inv_mem
  · intro st t2 h; exact h
  · intro st c rest t2 hs h
    exact ⟨fun d hd => h.1 d (by rw [hs]; exact List.mem_cons_of_mem _ hd), h.2⟩
  · intro st0 c rest hs h0 hfuse e he st h
    have hc : Reach fs root c := h0.1 c (by rw [hs]; exact List.mem_cons_self _ _)
    simp only [still_apply] at he
    obtain ⟨h1, h2, h3, h4, h5⟩ := h
    unfold StillInv
    rw [visitEntry_stack, visitEntry_still_files, visitEntry_still_inodes]
    refine ⟨?_, ?_, ?_, ?_, ?_⟩
    · intro d hd
      split at hd
      · rename_i hcond
        simp only [Bool.and_eq_true, Bool.not_eq_true'] at hcond
        rcases List.mem_cons.mp hd with hd | hd
        · rw [hd]; exact Reach.step c e hc hfuse he hcond.1 hcond.2
        · exact h1 d hd
      · exact h1 d hd
    · intro f hf
      split at hf
      · rename_i hins
        rcases (mem_records_mapPush _ _ _ _).mp hf with hf | hf
        · rw [hf, recordOf_path]
          exact ⟨Candidate_of_inserts hc hfuse he hins, rfl⟩
        · exact h2 f hf
      · exact h2 f hf
    · intro x hx
      split at hx
      · rename_i hins
        simp only [hins, if_true]
        rcases List.mem_cons.mp hx with hx | hx
        · refine ⟨recordOf L fs (pathAppend c e),
            (mem_records_mapPush _ _ _ _).mpr (Or.inl rfl), ?_⟩
          rw [hx, inodeOf, recordOf_path]
        · obtain ⟨f, hf, hfx⟩ := h3 x hx
          exact ⟨f, (mem_records_mapPush _ _ _ _).mpr (Or.inr hf), hfx⟩
      · rename_i hins
        simp only [hins, if_false]
        exact h3 x hx
    · split
      · exact mapPush_sorted _ _ _ h4
      · exact h4
    · split
      · exact mapPush_keyed L _ _ rfl _ h5
      · exact h5

theorem walkLoop_StillInv (L : Lib) (fs : FileSys) (root : Path) (fuel : Nat) :
    StillInv L fs root (walkLoop L (still fs) fuel (walkInit root)) := by
  apply walkLoop_inv L (still fs) _ (walkStep_StillInv L fs root)
  refine ⟨?_, ?_, ?_, ?_, ?_⟩
  · intro c hc
    simp only [walkInit, List.mem_singleton] at hc
    rw [hc]; exact Reach.root
  · intro f hf; simp [walkInit, records] at hf
  · intro x hx; simp [walkInit] at hx
  · simp [walkInit]
  · intro kv hkv; simp [walkInit] at hkv

theorem Eligible_not_directory {fs : FileSys} {p : Path} (h : Eligible fs p) :
    is_directory fs p = false ∧ is_regular_file fs p = true ∧ get_inode fs p ≠ UINT64_MAX := by
  obtain ⟨n, hn, hr, _, _, _, _, _, hi⟩ := h
  simp [is_directory, is_regular_file, get_inode, hn, hr, hi]

/-- One pass of the loop body in an unchanging tree keeps every record, keeps
every seen inode backed by a record, and leaves a record with the inode of the
entry when the entry is eligible. -/
theorem visitEntry_complete (L : Lib) (fs : FileSys) (c : Path) (st : WalkState) (e : String)
    (hinv : ∀ x ∈ st.checked_inodes, ∃ f ∈ records st.all_files, inodeOf fs f = x) :
    (∀ x ∈ (visitEntry L (still fs) c st e).checked_inodes,
      ∃ f ∈ records (visitEntry L (still fs) c st e).all_files, inodeOf fs f = x) ∧
    (∀ f ∈ records st.all_files, f ∈ records (visitEntry L (still fs) c st e).all_files) ∧
    (dotName e = false → Eligible fs (pathAppend c e) →
      ∃ f ∈ records (visitEntry L (still fs) c st e).all_files,
        inodeOf fs f = get_inode fs (pathAppend c e)) := by
  rw [visitEntry_still_files, visitEntry_still_inodes]
  by_cases hins : insertsB fs st.checked_inodes (pathAppend c e) e = true
  · simp only [hins, if_true]
    have hnew : recordOf L fs (pathAppend c e) ∈ records
        (mapPush (keyOf L (recordOf L fs (pathAppend c e))) (recordOf L fs (pathAppend c e))
          st.all_files) := (mem_records_mapPush _ _ _ _).mpr (Or.inl rfl)
    have hino : inodeOf fs (recordOf L fs (pathAppend c e)) = get_inode fs (pathAppend c e) := by
      rw [inodeOf, recordOf_path]
    refine ⟨?_, ?_, ?_⟩
    · intro x hx
      rcases List.mem_cons.mp hx with hx | hx
      · exact ⟨_, hnew, by rw [hx, hino]⟩
      · obtain ⟨f, hf, hfx⟩ := hinv x hx
        exact ⟨f, (mem_records_mapPush _ _ _ _).mpr (Or.inr hf), hfx⟩
    · intro f hf
      exact (mem_records_mapPush _ _ _ _).mpr (Or.inr hf)
    · intro _ _
      exact ⟨_, hnew, hino⟩
  · simp only [hins, if_false]
    refine ⟨hinv, fun f hf => hf, ?_⟩
    intro hdot hel
    obtain ⟨h1, h2, h3⟩ := Eligible_not_directory hel
    have hseen : get_inode fs (pathAppend c e) ∈ st.checked_inodes := by
      by_contra hno
      exact hins ((insertsB_true fs _ _ e).mpr ⟨hdot, h1, h2, Eligible_ok hel 0, h3, hno⟩)
    exact hinv _ hseen

theorem foldl_complete (L : Lib) (fs : FileSys) (c : Path) :
    ∀ (es : List String) (st : WalkState),
      (∀ x ∈ st.checked_inodes, ∃ f ∈ records st.all_files, inodeOf fs f = x) →
      (∀ x ∈ (es.foldl (visitEntry L (still fs) c) st).checked_inodes,
        ∃ f ∈ records (es.foldl (visitEntry L (still fs) c) st).all_files, inodeOf fs f = x) ∧
      (∀ f ∈ records st.all_files,
        f ∈ records (es.foldl (visitEntry L (still fs) c) st).all_files) ∧
      (∀ e ∈ es, dotName e = false → Eligible fs (pathAppend c e) →
        ∃ f ∈ records (es.foldl (visitEntry L (still fs) c) st).all_files,
          inodeOf fs f = get_inode fs (pathAppend c e)) := by
  intro es
  induction es with
  | nil => intro st h; exact ⟨h, fun f hf => hf, by simp⟩
  | cons e rest ih =>
    intro st h
    obtain ⟨a1, a2, a3⟩ := visitEntry_complete L fs c st e h
    obtain ⟨b1, b2, b3⟩ := ih (visitEntry L (still fs) c st e) a1
    simp only [List.foldl_cons]
    refine ⟨b1, fun f hf => b2 f (a2 f hf), ?_⟩
    intro e2 he2 hdot hel
    rcases List.mem_cons.mp he2 with he2 | he2
    · obtain ⟨f, hf, hfi⟩ := a3 (he2 ▸ hdot) (he2 ▸ hel)
      exact ⟨f, b2 f hf, by rw [he2]; exact hfi⟩
    · exact b3 e2 he2 hdot hel

theorem children_of_fuse (fs : FileSys) (c : Path) (h : fuseTmpDir c = true) :
    children fs c = [] := by
  simp [children, h]

theorem walkStep_DoneInv (L : Lib) (hno : ∀ t p, L.status_error t p = false) (fs : FileSys) (root : Path) (st : WalkState)
    (hs : StillInv L fs root st) (hd : DoneInv fs root st) :
    DoneInv fs root (walkStep L (still fs) st) := by
  cases hst : st.s with
  | nil =>
    have : walkStep L (still fs) st = st := by
      unfold walkStep; rw [hst]
    rw [this]; exact hd
  | cons c rest =>
    obtain ⟨V, v1, v2, v3⟩ := hd
    have hstack := walkStep_stack L hno fs st c rest hst
    have hrec : (∀ f ∈ records st.all_files, f ∈ records (walkStep L (still fs) st).all_files) ∧
        (fuseTmpDir c = false → ∀ e ∈ directory_iterator fs c, dotName e = false →
          Eligible fs (pathAppend c e) →
          ∃ f ∈ records (walkStep L (still fs) st).all_files,
            inodeOf fs f = get_inode fs (pathAppend c e)) := by
      unfold walkStep
      rw [hst]
      simp only [still_apply]
      by_cases hf : fuseTmpDir c = true
      · simp only [hf, if_true]
        exact ⟨fun f h => h, fun h => by simp at h⟩
      · simp only [hf, Bool.false_eq_true, if_false]
        rw [visitLoop_eq_foldl L _ c hno]
        obtain ⟨_, b2, b3⟩ := foldl_complete L fs c (directory_iterator fs c)
          { st with s := rest, t := st.t + 1 } hs.2.2.1
        exact ⟨b2, fun _ => b3⟩
    refine ⟨fun x => V x ∨ x = c, ?_, ?_, ?_⟩
    · rw [hstack]
      rcases v1 with v1 | v1
      · rw [hst] at v1
        rcases List.mem_cons.mp v1 with v1 | v1
        · exact Or.inr (Or.inr v1)
        · exact Or.inl (List.mem_append_right _ v1)
      · exact Or.inr (Or.inl v1)
    · intro d hd x hx
      rw [hstack]
      rcases hd with hd | hd
      · rcases v2 d hd x hx with h | h
        · rw [hst] at h
          rcases List.mem_cons.mp h with h | h
          · exact Or.inr (Or.inr h)
          · exact Or.inl (List.mem_append_right _ h)
        · exact Or.inr (Or.inl h)
      · rw [hd] at hx
        exact Or.inl (List.mem_append_left _ (List.mem_reverse.mpr hx))
    · intro d hd hfd e he hdot hel
      rcases hd with hd | hd
      · obtain ⟨f, hf, hfi⟩ := v3 d hd hfd e he hdot hel
        exact ⟨f, hrec.1 f hf, hfi⟩
      · rw [hd] at hfd he hel ⊢
        exact hrec.2 hfd e he hdot hel

theorem walkLoop_DoneInv (L : Lib) (hno : ∀ t p, L.status_error t p = false) (fs : FileSys) (root : Path) :
    ∀ (fuel : Nat) (st : WalkState), StillInv L fs root st → DoneInv fs root st →
      DoneInv fs root (walkLoop L (still fs) fuel st) := by
  intro fuel
  induction fuel with
  | zero => intro st _ h; exact h
  | succ n ih =>
    intro st hs hd
    unfold walkLoop
    split
    · exact hd
    · exact ih _ (walkStep_StillInv L fs root st hs) (walkStep_DoneInv L hno fs root st hs hd)

/-- When the walk of an unchanging tree has finished and no two candidate
paths share an inode, the paths of the records are exactly the candidates. -/
theorem walk_records (L : Lib) (hno : ∀ t p, L.status_error t p = false) (fs : FileSys) (root : Path) (fuel : Nat)
    (hdone : (walkLoop L (still fs) fuel (walkInit root)).s = [])
    (hino : ∀ p q, Candidate fs root p → Candidate fs root q →
      get_inode fs p = get_inode fs q → p = q) (p : Path) :
    (∃ f ∈ records (walkLoop L (still fs) fuel (walkInit root)).all_files, f.real_path_ = p) ↔
      Candidate fs root p := by
  have hs := walkLoop_StillInv L fs root fuel
  constructor
  · rintro ⟨f, hf, hp⟩
    rw [← hp]; exact (hs.2.1 f hf).1
  · intro hc
    have hinit : StillInv L fs root (walkInit root) := by
      refine ⟨?_, ?_, ?_, ?_, ?_⟩
      · intro c hc
        simp only [walkInit, List.mem_singleton] at hc
        rw [hc]; exact Reach.root
      · intro f hf; simp [walkInit, records] at hf
      · intro x hx; simp [walkInit] at hx
      · simp [walkInit]
      · intro kv hkv; simp [walkInit] at hkv
    have hdinit : DoneInv fs root (walkInit root) :=
      ⟨fun _ => False, Or.inl (by simp [walkInit]), fun c h => h.elim, fun c h => h.elim⟩
    obtain ⟨V, v1, v2, v3⟩ := walkLoop_DoneInv L hno fs root fuel (walkInit root) hinit hdinit
    rw [hdone] at v1 v2
    have hV : ∀ c, Reach fs root c → V c := by
      intro c hr
      induction hr with
      | root =>
        rcases v1 with h | h
        · simp at h
        · exact h
      | step c e _ hfc he hdot hdir ih =>
        rcases v2 c ih _ ((mem_children fs c _).mpr ⟨hfc, e, he, hdot, hdir, rfl⟩) with h | h
        · simp at h
        · exact h
    obtain ⟨c, e, hp, hr, hfc, he, hdot, hel⟩ := hc
    obtain ⟨f, hf, hfi⟩ := v3 c (hV c hr) hfc e he hdot (hp ▸ hel)
    refine ⟨f, hf, ?_⟩
    apply hino _ _ (hs.2.1 f hf).1 ⟨c, e, hp, hr, hfc, he, hdot, hel⟩
    rw [hp]; exact hfi

/-! ## Comparison of records in an unchanging tree -/

theorem sameData_iff (fs : FileSys) (p q : Path) :
    sameData fs p q = true ↔ ∃ n1 n2, fs p = some n1 ∧ fs q = some n2 ∧
      n1.type = FileType.regular ∧ n2.type = FileType.regular ∧
      n1.readable = true ∧ n2.readable = true ∧ n1.data = n2.data := by
  unfold sameData
  cases hp : fs p with
  | none => simp
  | some n1 =>
    cases hq : fs q with
    | none => simp
    | some n2 =>
      simp only [Bool.and_eq_true, decide_eq_true_eq, Option.some.injEq, exists_and_left,
        exists_eq_left']
      tauto

theorem sameData_symm {fs : FileSys} {p q : Path} (h : sameData fs p q = true) :
    sameData fs q p = true := by
  rw [sameData_iff] at *
  obtain ⟨n1, n2, h1, h2, h3, h4, h5, h6, h7⟩ := h
  exact ⟨n2, n1, h2, h1, h4, h3, h6, h5, h7.symm⟩

theorem sameData_trans {fs : FileSys} {p q r : Path} (h : sameData fs p q = true)
    (h2 : sameData fs q r = true) : sameData fs p r = true := by
  rw [sameData_iff] at *
  obtain ⟨n1, n2, a1, a2, a3, a4, a5, a6, a7⟩ := h
  obtain ⟨m1, m2, b1, b2, b3, b4, b5, b6, b7⟩ := h2
  rw [a2] at b1
  have := Option.some.inj b1
  subst this
  exact ⟨n1, m2, a1, b2, a3, b4, a5, b6, a7.trans b7⟩

theorem set_first_4k_of_true (w : World) (t : Nat) (f : MyFile) (h : f.first_4k_ = true) :
    f.set_first_4k w t = ((f, true), t) := by
  unfold MyFile.set_first_4k
  simp [h]

theorem hash_cache (L : Lib) (w : World) (t : Nat) (f : MyFile) :
    (f.hash L w t).1.1.first_4k_ = f.first_4k_ ∧
    (f.hash L w t).1.1.first_4k_data_ = f.first_4k_data_ := by
  unfold MyFile.hash
  split <;> exact ⟨rfl, rfl⟩

/-- With both first blocks cached, `compare` keeps them. -/
theorem compare_cache (L : Lib) (w : World) (t : Nat) (a b : MyFile)
    (ha : a.first_4k_ = true) (hb : b.first_4k_ = true) :
    (a.compare L w t b).1.2.1.first_4k_ = true ∧
    (a.compare L w t b).1.2.1.first_4k_data_ = a.first_4k_data_ ∧
    (a.compare L w t b).1.2.2.first_4k_ = true ∧
    (a.compare L w t b).1.2.2.first_4k_data_ = b.first_4k_data_ := by
  unfold MyFile.compare
  simp only [set_first_4k_of_true w _ a ha, set_first_4k_of_true w _ b hb]
  split
  · exact ⟨ha, rfl, hb, rfl⟩
  · split
    · exact ⟨ha, rfl, hb, rfl⟩
    · split
      · exact ⟨by rw [(hash_cache L w _ a).1]; exact ha, (hash_cache L w _ a).2,
          by rw [(hash_cache L w _ b).1]; exact hb, (hash_cache L w _ b).2⟩
      · exact ⟨by rw [(hash_cache L w _ a).1]; exact ha, (hash_cache L w _ a).2,
          by rw [(hash_cache L w _ b).1]; exact hb, (hash_cache L w _ b).2⟩

theorem compare_CacheRel (L : Lib) (w : World) (t : Nat) (a b x y : MyFile)
    (ha : CacheRel a x) (hb : CacheRel b y) :
    CacheRel (a.compare L w t b).1.2.1 x ∧ CacheRel (a.compare L w t b).1.2.2 y := by
  obtain ⟨c1, c2, c3, c4⟩ := compare_cache L w t a b ha.2.1 hb.2.1
  obtain ⟨s1, s2⟩ := compare_snap L w t a b
  exact ⟨⟨sameSnapshot_trans s1 ha.1, c1, c2.trans ha.2.2⟩,
    ⟨sameSnapshot_trans s2 hb.1, c3, c4.trans hb.2.2⟩⟩

/-- With both first blocks cached, equal sizes and equal first blocks, the
result of `compare` is the result of `checkFileEqualDeep`. -/
theorem compare_of_cached (L : Lib) (w : World) (t : Nat) (a b : MyFile)
    (ha : a.first_4k_ = true) (hb : b.first_4k_ = true) (hsz : a.size_ = b.size_)
    (hm : a.first_4k_data_ = b.first_4k_data_) :
    ∃ t2, (a.compare L w t b).1.1 = (checkFileEqualDeep w t2 a.real_path_ b.real_path_).1.1 := by
  unfold MyFile.compare
  simp only [set_first_4k_of_true w _ a ha, set_first_4k_of_true w _ b hb, hsz, hm,
    memcmp_self, ne_eq, not_true_eq_false, if_false, hash_hashed, hash_path]
  exact ⟨_, rfl⟩

theorem checkFileEqualDeep_still_same (fs : FileSys) (t : Nat) (p q : Path) (n1 n2 : Node)
    (h1 : fs p = some n1) (h2 : fs q = some n2) (r1 : n1.type = FileType.regular)
    (r2 : n2.type = FileType.regular) (o1 : n1.readable = true) (o2 : n2.readable = true)
    (hd : n1.data = n2.data) (hlen : n1.data.length ≠ UINT64_MAX) :
    (checkFileEqualDeep (still fs) t p q).1.1 = 0 := by
  unfold checkFileEqualDeep
  by_cases hpq : p = q
  · simp [hpq]
  · have l1 : ∀ t2, (legal_file (still fs) t2 p).1 = true :=
      fun t2 => (legal_file_still fs t2 p).mpr ⟨n1, h1, r1⟩
    have l2 : ∀ t2, (legal_file (still fs) t2 q).1 = true :=
      fun t2 => (legal_file_still fs t2 q).mpr ⟨n2, h2, r2⟩
    have s1 : safe_file_size fs p = n1.data.length := by
      simp [safe_file_size, file_size, h1, r1]
    have s2 : safe_file_size fs q = n1.data.length := by
      simp [safe_file_size, file_size, h2, r2, hd]
    have i1 : ifstream fs p = some n1.data := by simp [ifstream, h1, r1, o1]
    have i2 : ifstream fs q = some n1.data := by simp [ifstream, h2, r2, o2, hd]
    simp only [hpq, if_false, l1, l2, Bool.not_true, Bool.false_eq_true, still_apply,
      s1, s2, Nat.max_self, hlen, Nat.lt_irrefl, gt_iff_lt, i1, i2, compareLoop_self,
      ne_eq, not_true_eq_false]

/-- A record with the snapshot of an eligible path never answers "changed" in
an unchanging tree. -/
theorem changed_still_false (L : Lib) (fs : FileSys) (t : Nat) (p : Path) (a : MyFile)
    (hel : Eligible fs p) (ha : sameSnapshot a (recordOf L fs p)) :
    (a.changed (still fs) t).1 = false := by
  obtain ⟨n, hn, hr, _⟩ := hel
  obtain ⟨f1, f2, f3, f4⟩ := recordOf_snapshot L hn hr
  obtain ⟨a1, a2, a3, a4, a5⟩ := ha
  rw [recordOf_path] at a1
  rw [f1] at a2
  rw [f2] at a3
  rw [f3] at a4
  rw [f4] at a5
  unfold MyFile.changed
  have l1 : (legal_file (still fs) t p).1 = true := (legal_file_still fs t p).mpr ⟨n, hn, hr⟩
  simp [a1, a2, a3, a4, a5, l1, Atime, Mtime, Ctime, safe_file_size, file_size, hn, hr]

/-- In an unchanging tree, `compare` on cached records of two different
paths, the first eligible, returns 0 exactly when the two files have the same bytes. -/
theorem compare_still_iff (L : Lib) (fs : FileSys) (t : Nat) (p q : Path) (a b : MyFile)
    (hp : Eligible fs p) (hne : p ≠ q)
    (ha : CacheRel a (recordOf L fs p)) (hb : CacheRel b (recordOf L fs q)) :
    (a.compare L (still fs) t b).1.1 = 0 ↔ sameData fs p q = true := by
  have pa : a.real_path_ = p := by rw [ha.1.1, recordOf_path]
  have pb : b.real_path_ = q := by rw [hb.1.1, recordOf_path]
  constructor
  · intro h
    rcases compare_zero_still L fs t a b h with he | ⟨n1, n2, e1, e2, r1, r2, o1, o2, hd⟩
    · rw [pa, pb] at he; exact absurd he hne
    · rw [pa] at e1; rw [pb] at e2
      exact (sameData_iff fs p q).mpr ⟨n1, n2, e1, e2, r1, r2, o1, o2, hd⟩
  · intro h
    obtain ⟨n1, n2, e1, e2, r1, r2, o1, o2, hd⟩ := (sameData_iff fs p q).mp h
    obtain ⟨m, hm, _, _, _, _, _, hlen, _⟩ := hp
    rw [e1] at hm
    have hmn := Option.some.inj hm
    subst hmn
    have hsz : a.size_ = b.size_ := by
      rw [ha.1.2.1, hb.1.2.1, (recordOf_snapshot L e1 r1).1, (recordOf_snapshot L e2 r2).1, hd]
    have hbuf : a.first_4k_data_ = b.first_4k_data_ := by
      rw [ha.2.2, hb.2.2, recordOf_data, recordOf_data]
      have i1 : ifstream fs p = some n1.data := by simp [ifstream, e1, r1, o1]
      have i2 : ifstream fs q = some n1.data := by simp [ifstream, e2, r2, o2, hd]
      rw [i1, i2]
    obtain ⟨t2, ht2⟩ := compare_of_cached L (still fs) t a b ha.2.1 hb.2.1 hsz hbuf
    rw [ht2, pa, pb]
    exact checkFileEqualDeep_still_same fs t2 p q n1 n2 e1 e2 r1 r2 o1 o2 hd hlen

/-- Two eligible files with the same bytes get the same key. -/
theorem sameData_key (L : Lib) (fs : FileSys) (p q : Path) (h : sameData fs p q = true) :
    keyOf L (recordOf L fs p) = keyOf L (recordOf L fs q) := by
  obtain ⟨n1, n2, e1, e2, r1, r2, o1, o2, hd⟩ := (sameData_iff fs p q).mp h
  have i1 : ifstream fs p = some n1.data := by simp [ifstream, e1, r1, o1]
  have i2 : ifstream fs q = some n1.data := by simp [ifstream, e2, r2, o2, hd]
  unfold keyOf
  rw [recordOf_data, recordOf_data, i1, i2, (recordOf_snapshot L e1 r1).1,
    (recordOf_snapshot L e2 r2).1, hd]

/-- A bucket of records of different eligible paths of an unchanging tree
satisfies the hypotheses under which the group builder computes classes. -/
theorem bucket_ClassHyp (L : Lib) (fs : FileSys) (files0 : List MyFile)
    (hrec : ∀ f ∈ files0, Eligible fs f.real_path_ ∧ f = recordOf L fs f.real_path_)
    (hnd : (files0.map (fun f => f.real_path_)).Nodup) :
    ClassHyp L (still fs) files0 CacheRel (dataRel fs files0) := by
  have hf : ∀ k, k < files0.length → Eligible fs (pathAt files0 k) ∧
      fileAt files0 k = recordOf L fs (pathAt files0 k) :=
    fun k hk => hrec _ (fileAt_mem files0 k hk)
  refine ⟨?_, fun a b h => h.1, ?_, ?_, ?_, ?_, ?_⟩
  · intro k hk
    refine ⟨sameSnapshot_refl _, ?_, rfl⟩
    rw [(hf k hk).2]; exact recordOf_first L fs _
  · intro k hk t a ha
    rw [(hf k hk).2] at ha
    exact changed_still_false L fs t _ a (hf k hk).1 ha.1
  · intro i j hi hj hij t a b ha hb
    have hne : pathAt files0 i ≠ pathAt files0 j := by
      intro he
      exact hij (fileAt_inj (fun f => f.real_path_) files0 hnd i j hi hj he)
    refine ⟨?_, compare_CacheRel L (still fs) t a b _ _ ha hb⟩
    rw [(hf i hi).2] at ha
    rw [(hf j hj).2] at hb
    rw [compare_still_iff L fs t _ _ a b (hf i hi).1 hne ha hb]
    simp [dataRel, hij]
  · intro i; simp [dataRel]
  · intro i j h
    simp only [dataRel, Bool.or_eq_true, decide_eq_true_eq] at h ⊢
    rcases h with h | h
    · exact Or.inl h.symm
    · exact Or.inr (sameData_symm h)
  · intro i j k h1 h2
    simp only [dataRel, Bool.or_eq_true, decide_eq_true_eq] at h1 h2 ⊢
    rcases h1 with h1 | h1
    · rw [h1]; exact h2
    · rcases h2 with h2 | h2
      · rw [← h2]; exact Or.inr h1
      · exact Or.inr (sameData_trans h1 h2)

/-! ## The report of an unchanging tree: the classes of identical candidates -/

theorem mem_classGroup (files0 : List MyFile) (E : Nat → Nat → Bool) (m : Nat)
    (hm : m < files0.length) (hrefl : E m m = true) (p : Path) :
    p ∈ classGroup files0 E m ↔
      ∃ k, k < files0.length ∧ E m k = true ∧ pathAt files0 k = p := by
  unfold classGroup
  simp only [List.map_cons, List.mem_cons, List.mem_map, List.mem_filter, List.mem_range,
    Bool.and_eq_true, decide_eq_true_eq]
  constructor
  · rintro (h | ⟨k, ⟨hk, _, hE⟩, hp⟩)
    · exact ⟨m, hm, hrefl, h.symm⟩
    · exact ⟨k, hk, hE, hp⟩
  · rintro ⟨k, hk, hE, hp⟩
    by_cases hkm : k = m
    · left; rw [← hp, hkm]
    · right; exact ⟨k, ⟨hk, hkm, hE⟩, hp⟩

theorem classGroup_length (files0 : List MyFile) (E : Nat → Nat → Bool) (m : Nat) :
    1 < (classGroup files0 E m).length ↔
      ∃ j, j < files0.length ∧ j ≠ m ∧ E m j = true := by
  unfold classGroup
  simp only [List.map_cons, List.length_cons, List.length_map, Nat.lt_add_left_iff_pos,
    List.length_pos_iff_exists_mem, List.mem_filter, List.mem_range, Bool.and_eq_true,
    decide_eq_true_eq]

/-- Every index has a leader: the first index of its class. -/
theorem exists_leader (E : Nat → Nat → Bool) (hrefl : ∀ i, E i i = true)
    (htrans : ∀ i j k, E i j = true → E j k = true → E i k = true) (i : Nat) :
    ∃ m, m ≤ i ∧ E m i = true ∧ isLeader E m := by
  have hex : ∃ m, E m i = true := ⟨i, hrefl i⟩
  refine ⟨Nat.find hex, Nat.find_min' hex (hrefl i), Nat.find_spec hex, ?_⟩
  intro k hk
  cases hE : E k (Nat.find hex) with
  | false => rfl
  | true =>
    exfalso
    exact Nat.find_min hex hk (htrans k _ i hE (Nat.find_spec hex))

theorem exists_index (files : List MyFile) (f : MyFile) (h : f ∈ files) :
    ∃ k, k < files.length ∧ fileAt files k = f := by
  obtain ⟨k, hk, he⟩ := List.mem_iff_getElem.mp h
  exact ⟨k, hk, by rw [fileAt_eq_getElem files k hk]; exact he⟩

theorem groupAll_mem_exists (L : Lib) (w : World) :
    ∀ (m : List (Key × List MyFile)) (t : Nat) (g : List Path), g ∈ groupAll L w t m →
      ∃ kv ∈ m, ∃ t2, g ∈ (groupBucket L w t2 kv.2).1 := by
  intro m
  induction m with
  | nil => intro t g hg; simp [groupAll] at hg
  | cons kv rest ih =>
    intro t g hg
    obtain ⟨k, files⟩ := kv
    simp only [groupAll, List.mem_append] at hg
    rcases hg with hg | hg
    · exact ⟨(k, files), List.mem_cons_self _ _, t, hg⟩
    · obtain ⟨kv2, hkv, t2, h2⟩ := ih _ g hg
      exact ⟨kv2, List.mem_cons_of_mem _ hkv, t2, h2⟩

theorem groupAll_mem_of (L : Lib) (w : World) :
    ∀ (m : List (Key × List MyFile)) (t : Nat) (g : List Path) (kv : Key × List MyFile),
      kv ∈ m → (∀ t2, g ∈ (groupBucket L w t2 kv.2).1) → g ∈ groupAll L w t m := by
  intro m
  induction m with
  | nil => intro t g kv h; simp at h
  | cons x rest ih =>
    intro t g kv hkv hall
    obtain ⟨k, files⟩ := x
    simp only [groupAll, List.mem_append]
    rcases List.mem_cons.mp hkv with h | h
    · left
      have := hall t
      rw [h] at this
      exact this
    · right
      exact ih _ g kv h hall

/-- The facts about a bucket of a finished index. -/
theorem bucket_facts {L : Lib} {fs : FileSys} {root : Path} {m : List (Key × List MyFile)}
    (F : IndexFacts L fs root m) (kv : Key × List MyFile) (hkv : kv ∈ m) :
    (∀ f ∈ kv.2, Eligible fs f.real_path_ ∧ f = recordOf L fs f.real_path_) ∧
    (kv.2.map (fun f => f.real_path_)).Nodup := by
  constructor
  · intro f hf
    obtain ⟨⟨_, _, _, _, _, _, _, hel⟩, hr⟩ := F.sound f (mem_records_of_mem m kv f hkv hf)
    exact ⟨hel, hr⟩
  · exact List.Nodup.sublist (List.Sublist.map _ (bucket_sublist_records m kv hkv)) F.nodup

/-- A candidate with the bytes of a record of a bucket is in that bucket. -/
theorem same_bucket {L : Lib} {fs : FileSys} {root : Path} {m : List (Key × List MyFile)}
    (F : IndexFacts L fs root m) (kv : Key × List MyFile) (hkv : kv ∈ m) (i : Nat)
    (hi : i < kv.2.length) (p : Path) (hp : Candidate fs root p)
    (hd : sameData fs (pathAt kv.2 i) p = true) :
    ∃ k, k < kv.2.length ∧ pathAt kv.2 k = p := by
  obtain ⟨f, hf, hfp⟩ := F.complete p hp
  obtain ⟨kv2, hkv2, hf2⟩ := (mem_records_iff m f).mp hf
  have hfi := fileAt_mem kv.2 i hi
  have hri := (F.sound _ (mem_records_of_mem m kv _ hkv hfi)).2
  have hrf := (F.sound f hf).2
  have hkey : kv.1 = kv2.1 := by
    rw [← F.keyed kv hkv _ hfi, ← F.keyed kv2 hkv2 f hf2, hri, hrf, hfp]
    exact sameData_key L fs _ _ hd
  have := bucket_unique m F.sorted kv hkv kv2 hkv2 hkey
  rw [← this] at hf2
  obtain ⟨k, hk, he⟩ := exists_index kv.2 f hf2
  exact ⟨k, hk, by rw [pathAt, he]; exact hfp⟩

/-- The members of the class group of the index `i` of a bucket are the class
of its path among all candidates. -/
theorem classGroup_members {L : Lib} {fs : FileSys} {root : Path}
    {m : List (Key × List MyFile)} (F : IndexFacts L fs root m) (kv : Key × List MyFile)
    (hkv : kv ∈ m) (i : Nat) (hi : i < kv.2.length) (p : Path) :
    p ∈ classGroup kv.2 (dataRel fs kv.2) i ↔ InClass fs root (pathAt kv.2 i) p := by
  rw [mem_classGroup kv.2 _ i hi (by simp [dataRel])]
  constructor
  · rintro ⟨k, hk, hE, hp⟩
    refine ⟨?_, ?_⟩
    · rw [← hp]
      exact (F.sound _ (mem_records_of_mem m kv _ hkv (fileAt_mem kv.2 k hk))).1
    · simp only [dataRel, Bool.or_eq_true, decide_eq_true_eq] at hE
      rcases hE with hE | hE
      · left; rw [← hp, hE]
      · right; rw [← hp]; exact hE
  · rintro ⟨hc, hp | hp⟩
    · exact ⟨i, hi, by simp [dataRel], hp.symm⟩
    · obtain ⟨k, hk, hkp⟩ := same_bucket F kv hkv i hi p hc hp
      refine ⟨k, hk, ?_, hkp⟩
      simp only [dataRel, Bool.or_eq_true, decide_eq_true_eq]
      right; rw [hkp]; exact hp

theorem reportGroups_done (L : Lib) (w : World) (root : Path) (fuel : Nat)
    (out : List (List Path)) (h : reportGroups L w root fuel = some out) :
    (walkLoop L w fuel (walkInit root)).s = [] := by
  unfold reportGroups at h
  simp only at h
  split at h
  · rename_i hs; exact hs
  · simp at h

/-- The index of a finished walk of an unchanging tree in which no two
candidate paths share an inode. -/
theorem index_facts (L : Lib) (hno : ∀ t p, L.status_error t p = false) (fs : FileSys)
    (root : Path) (fuel : Nat)
    (hdone : (walkLoop L (still fs) fuel (walkInit root)).s = [])
    (hino : ∀ p q, Candidate fs root p → Candidate fs root q →
      get_inode fs p = get_inode fs q → p = q) :
    IndexFacts L fs root (walkLoop L (still fs) fuel (walkInit root)).all_files := by
  have hs := walkLoop_StillInv L fs root fuel
  refine ⟨hs.2.2.2.1, hs.2.2.2.2, hs.2.1, ?_, ?_⟩
  · have h := (walkLoop_InodeInv L fs root fuel).1
    have he : (records (walkLoop L (still fs) fuel (walkInit root)).all_files).map (inodeOf fs) =
        ((records (walkLoop L (still fs) fuel (walkInit root)).all_files).map
          (fun f => f.real_path_)).map (get_inode fs) := by
      rw [List.map_map]; rfl
    rw [he] at h
    exact List.Nodup.of_map _ h
  · intro p hp
    exact (walk_records L hno fs root fuel hdone hino p).mpr hp

theorem InClass_congr {fs : FileSys} {root x y : Path} (h : sameData fs x y = true) (p : Path) :
    InClass fs root x p ↔ InClass fs root y p := by
  unfold InClass
  constructor
  · rintro ⟨hc, hp | hp⟩
    · exact ⟨hc, Or.inr (by rw [hp]; exact sameData_symm h)⟩
    · exact ⟨hc, Or.inr (sameData_trans (sameData_symm h) hp)⟩
  · rintro ⟨hc, hp | hp⟩
    · exact ⟨hc, Or.inr (by rw [hp]; exact h)⟩
    · exact ⟨hc, Or.inr (sameData_trans h hp)⟩

/-- Every group emitted from a finished index is the class of a candidate that
has another candidate with the same bytes. -/
theorem groupAll_sound {L : Lib} {fs : FileSys} {root : Path} {m : List (Key × List MyFile)}
    (F : IndexFacts L fs root m) (t : Nat) (g : List Path)
    (hg : g ∈ groupAll L (still fs) t m) :
    ∃ x y, Candidate fs root x ∧ Candidate fs root y ∧ x ≠ y ∧ sameData fs x y = true ∧
      ∀ p, p ∈ g ↔ InClass fs root x p := by
  obtain ⟨kv, hkv, t2, hg2⟩ := groupAll_mem_exists L (still fs) m t g hg
  obtain ⟨hrec, hnd⟩ := bucket_facts F kv hkv
  have H := bucket_ClassHyp L fs kv.2 hrec hnd
  obtain ⟨hlen, i, hi, _, hgi⟩ := (groupBucket_class L (still fs) kv.2 _ _ H t2).1 g hg2
  rw [hgi] at hlen
  obtain ⟨j, hj, hji, hE⟩ := (classGroup_length kv.2 _ i).mp hlen
  have hsd : sameData fs (pathAt kv.2 i) (pathAt kv.2 j) = true := by
    simp only [dataRel, Bool.or_eq_true, decide_eq_true_eq] at hE
    rcases hE with hE | hE
    · exact absurd hE.symm hji
    · exact hE
  refine ⟨pathAt kv.2 i, pathAt kv.2 j,
    (F.sound _ (mem_records_of_mem m kv _ hkv (fileAt_mem kv.2 i hi))).1,
    (F.sound _ (mem_records_of_mem m kv _ hkv (fileAt_mem kv.2 j hj))).1, ?_, hsd, ?_⟩
  · intro he
    exact hji (fileAt_inj (fun f => f.real_path_) kv.2 hnd j i hj hi he.symm)
  · intro p
    rw [hgi]
    exact classGroup_members F kv hkv i hi p

/-- The class of every candidate that has another candidate with the same
bytes is emitted from a finished index. -/
theorem groupAll_complete {L : Lib} {fs : FileSys} {root : Path}
    {m : List (Key × List MyFile)} (F : IndexFacts L fs root m) (t : Nat) (x y : Path)
    (hx : Candidate fs root x) (hy : Candidate fs root y) (hxy : x ≠ y)
    (hsd : sameData fs x y = true) :
    ∃ g ∈ groupAll L (still fs) t m, ∀ p, p ∈ g ↔ InClass fs root x p := by
  obtain ⟨f, hf, hfp⟩ := F.complete x hx
  obtain ⟨kv, hkv, hfkv⟩ := (mem_records_iff m f).mp hf
  obtain ⟨i, hi, hfi⟩ := exists_index kv.2 f hfkv
  have hpi : pathAt kv.2 i = x := by rw [pathAt, hfi]; exact hfp
  obtain ⟨j, hj, hpj⟩ := same_bucket F kv hkv i hi y hy (by rw [hpi]; exact hsd)
  have hij : i ≠ j := by
    intro he
    rw [he, hpj] at hpi
    exact hxy hpi.symm
  obtain ⟨hrec, hnd⟩ := bucket_facts F kv hkv
  have H := bucket_ClassHyp L fs kv.2 hrec hnd
  obtain ⟨l, _, hEl, hlead⟩ := exists_leader (dataRel fs kv.2) H.refl H.trans i
  have hl : l < kv.2.length := by omega
  have hEij : dataRel fs kv.2 i j = true := by
    simp only [dataRel, Bool.or_eq_true, decide_eq_true_eq]
    right; rw [hpi, hpj]; exact hsd
  have hlen : 1 < (classGroup kv.2 (dataRel fs kv.2) l).length := by
    rw [classGroup_length]
    by_cases hli : l = i
    · exact ⟨j, hj, by rw [hli]; exact Ne.symm hij, by rw [hli]; exact hEij⟩
    · exact ⟨i, hi, Ne.symm hli, hEl⟩
  refine ⟨classGroup kv.2 (dataRel fs kv.2) l, ?_, ?_⟩
  · apply groupAll_mem_of L (still fs) m t _ kv hkv
    intro t2
    exact (groupBucket_class L (still fs) kv.2 _ _ H t2).2 l hl hlead hlen
  · intro p
    rw [classGroup_members F kv hkv l hl p]
    by_cases hli : l = i
    · rw [hli, hpi]
    · have hsl : sameData fs (pathAt kv.2 l) x = true := by
        simp only [dataRel, Bool.or_eq_true, decide_eq_true_eq] at hEl
        rcases hEl with hEl | hEl
        · exact absurd hEl hli
        · rw [hpi] at hEl; exact hEl
      exact InClass_congr hsl p

/-! ### Two observations of one tree -/

theorem sameTree_symm {fs1 fs2 : FileSys} (h : sameTree fs1 fs2) : sameTree fs2 fs1 := by
  intro p
  rcases h p with ⟨a, b⟩ | ⟨n1, n2, a1, a2, a3, a4, a5, a6, a7, a8, a9, a10⟩
  · exact Or.inl ⟨b, a⟩
  · exact Or.inr ⟨n2, n1, a2, a1, a3.symm, a4.symm, a5.symm, a6.symm, a7.symm, a8.symm,
      a9.symm, a10.symm⟩

theorem sameTree_is_directory {fs1 fs2 : FileSys} (h : sameTree fs1 fs2) (p : Path) :
    is_directory fs1 p = is_directory fs2 p := by
  rcases h p with ⟨a, b⟩ | ⟨n1, n2, a1, a2, a3, _⟩
  · simp [is_directory, a, b]
  · simp [is_directory, a1, a2, a3]

theorem sameTree_get_inode {fs1 fs2 : FileSys} (h : sameTree fs1 fs2) (p : Path) :
    get_inode fs1 p = get_inode fs2 p := by
  rcases h p with ⟨a, b⟩ | ⟨n1, n2, a1, a2, _, a4, _⟩
  · simp [get_inode, a, b]
  · simp [get_inode, a1, a2, a4]

theorem sameTree_listing {fs1 fs2 : FileSys} (h : sameTree fs1 fs2) (c : Path) (e : String)
    (he : e ∈ directory_iterator fs1 c) : e ∈ directory_iterator fs2 c := by
  rcases h c with ⟨a, b⟩ | ⟨n1, n2, a1, a2, a3, _, _, _, _, _, _, a10⟩
  · simp [directory_iterator, a] at he
  · simp only [directory_iterator, a1, a2] at he ⊢
    rw [← a3]
    split at he
    · rename_i hd
      simp only [hd, if_true]
      exact a10.mem_iff.mp he
    · simp at he

theorem sameTree_Eligible {fs1 fs2 : FileSys} (h : sameTree fs1 fs2) (p : Path)
    (he : Eligible fs1 p) : Eligible fs2 p := by
  obtain ⟨n, hn, b1, b2, b3, b4, b5, b6, b7⟩ := he
  rcases h p with ⟨a, _⟩ | ⟨n1, n2, a1, a2, a3, a4, a5, a6, a7, a8, _, _⟩
  · rw [a] at hn; simp at hn
  · rw [a1] at hn
    have := Option.some.inj hn
    subst this
    exact ⟨n2, a2, by rw [← a3]; exact b1, by rw [← a5]; exact b2, by rw [← a6]; exact b3,
      by rw [← a7]; exact b4, by rw [← a8]; exact b5, by rw [← a8]; exact b6,
      by rw [← a4]; exact b7⟩

theorem sameTree_sameData {fs1 fs2 : FileSys} (h : sameTree fs1 fs2) (p q : Path)
    (hd : sameData fs1 p q = true) : sameData fs2 p q = true := by
  rw [sameData_iff] at *
  obtain ⟨n1, n2, e1, e2, r1, r2, o1, o2, hdat⟩ := hd
  rcases h p with ⟨a, _⟩ | ⟨m1, m2, a1, a2, a3, _, _, _, _, a8, a9, _⟩
  · rw [a] at e1; simp at e1
  · rcases h q with ⟨b, _⟩ | ⟨k1, k2, b1, b2, b3, _, _, _, _, b8, b9, _⟩
    · rw [b] at e2; simp at e2
    · rw [a1] at e1; rw [b1] at e2
      have x1 := Option.some.inj e1
      have x2 := Option.some.inj e2
      subst x1; subst x2
      exact ⟨m2, k2, a2, b2, by rw [← a3]; exact r1, by rw [← b3]; exact r2,
        by rw [← a9]; exact o1, by rw [← b9]; exact o2, by rw [← a8, ← b8]; exact hdat⟩

theorem sameTree_Reach {fs1 fs2 : FileSys} (h : sameTree fs1 fs2) (root c : Path)
    (hr : Reach fs1 root c) : Reach fs2 root c := by
  induction hr with
  | root => exact Reach.root
  | step c e _ hf he hdot hdir ih =>
    exact Reach.step c e ih hf (sameTree_listing h c e he) hdot
      (by rw [← sameTree_is_directory h]; exact hdir)

theorem sameTree_Candidate {fs1 fs2 : FileSys} (h : sameTree fs1 fs2) (root p : Path)
    (hc : Candidate fs1 root p) : Candidate fs2 root p := by
  obtain ⟨c, e, hp, hr, hf, he, hdot, hel⟩ := hc
  exact ⟨c, e, hp, sameTree_Reach h root c hr, hf, sameTree_listing h c e he, hdot,
    sameTree_Eligible h p hel⟩

theorem sameTree_InClass {fs1 fs2 : FileSys} (h : sameTree fs1 fs2) (root x p : Path)
    (hc : InClass fs1 root x p) : InClass fs2 root x p := by
  obtain ⟨h1, h2⟩ := hc
  refine ⟨sameTree_Candidate h root p h1, ?_⟩
  rcases h2 with h2 | h2
  · exact Or.inl h2
  · exact Or.inr (sameTree_sameData h x p h2)

/-- One half of idempotence: every group of the first report has a group with
the same members in the second. -/
theorem report_subset (L : Lib) (hno : ∀ t p, L.status_error t p = false) (fs1 fs2 : FileSys)
    (root : Path) (fuel1 fuel2 : Nat)
    (out1 out2 : List (List Path)) (htree : sameTree fs1 fs2)
    (hino1 : ∀ p q, Candidate fs1 root p → Candidate fs1 root q →
      get_inode fs1 p = get_inode fs1 q → p = q)
    (hino2 : ∀ p q, Candidate fs2 root p → Candidate fs2 root q →
      get_inode fs2 p = get_inode fs2 q → p = q)
    (h1 : reportGroups L (still fs1) root fuel1 = some out1)
    (h2 : reportGroups L (still fs2) root fuel2 = some out2) :
    ∀ g ∈ out1, ∃ h ∈ out2, sameMembers g h := by
  intro g hg
  have F1 := index_facts L hno fs1 root fuel1 (reportGroups_done L _ root fuel1 out1 h1) hino1
  have F2 := index_facts L hno fs2 root fuel2 (reportGroups_done L _ root fuel2 out2 h2) hino2
  rw [reportGroups_some L _ root fuel1 out1 h1] at hg
  obtain ⟨x, y, hx, hy, hxy, hsd, hmem⟩ := groupAll_sound F1 _ g hg
  obtain ⟨g2, hg2, hmem2⟩ := groupAll_complete F2
    (walkLoop L (still fs2) fuel2 (walkInit root)).t x y
    (sameTree_Candidate htree root x hx) (sameTree_Candidate htree root y hy) hxy
    (sameTree_sameData htree x y hsd)
  refine ⟨g2, by rw [reportGroups_some L _ root fuel2 out2 h2]; exact hg2, ?_⟩
  intro p
  rw [hmem p, hmem2 p]
  exact ⟨sameTree_InClass htree root x p, sameTree_InClass (sameTree_symm htree) root x p⟩

/-! ## The claims -/

/-- C1 (code evaluated at the failing input): `/root` holds `a.txt`, `c.txt`,
`b.txt` in this listing order, `a.txt` and `b.txt` identical, `c.txt` of the
same size with the same first 4096 bytes and another last byte.  The report
holds the group of `a.txt` and `b.txt` twice: it is pushed once after the
leader `a.txt` and once more after the later leader `c.txt`. -/
theorem C1_group_reported_twice :
    reportGroups demoLib (still fsAcb) demoRoot 5 =
      some [[["", "root", "a.txt"], ["", "root", "b.txt"]],
            [["", "root", "a.txt"], ["", "root", "b.txt"]]] := by
  decide!

/-- C7 (code evaluated at the failing input): for an empty root directory the
value written is the JSON value null, not an object with the key `items`. -/
theorem C7_empty_report_is_null :
    process demoLib (still fsEmpty) demoRoot 5 = some Json.null := by
  rfl

/-- C3 as stated fails: a regular file whose own name contains `xzfs_fuse_tmp`,
in a directory whose path does not, is reported. -/
theorem C3_counterexample :
    reportGroups demoLib (still fsFuse) demoRoot 5 =
        some [[["", "root", "xzfs_fuse_tmp_a.txt"], ["", "root", "b.txt"]]] ∧
    (stringFind "xzfs_fuse_tmp".data
      (pathString ["", "root", "xzfs_fuse_tmp_a.txt"]).data).isSome = true := by
  decide!

/-- C3 amended: every path in a bucket and every path of the report is an
entry `e` of a directory below the root such that no directory from the root
down to that directory has `xzfs_fuse_tmp` in its path string; so no file that
lives under a directory whose path contains `xzfs_fuse_tmp` is reported. -/
theorem C3_no_file_under_fuse_tmp_directory (L : Lib) (w : World) (root : Path) (fuel : Nat) :
    (∀ f ∈ records (walkLoop L w fuel (walkInit root)).all_files,
      ∃ names e, f.real_path_ = root ++ names ++ [e] ∧
        ∀ k, k ≤ names.length → fuseTmpDir (root ++ names.take k) = false) ∧
    (∀ out, reportGroups L w root fuel = some out → ∀ g ∈ out, ∀ p ∈ g,
      ∃ names e, p = root ++ names ++ [e] ∧
        ∀ k, k ≤ names.length → fuseTmpDir (root ++ names.take k) = false) := by
  have hrec : ∀ f ∈ records (walkLoop L w fuel (walkInit root)).all_files,
      ∃ names e, f.real_path_ = root ++ names ++ [e] ∧
        ∀ k, k ≤ names.length → fuseTmpDir (root ++ names.take k) = false := by
    intro f hf
    obtain ⟨names, e, h1, _, _, h4⟩ :=
      Recorded_shape ((walkLoop_WalkInv L w root fuel).2 f hf)
    exact ⟨names, e, h1, h4⟩
  refine ⟨hrec, ?_⟩
  intro out h g hg p hp
  obtain ⟨f, hf, hfp, _⟩ := reportGroups_member L w root fuel out h g hg p hp
  rw [← hfp]
  exact hrec f hf

/-- C3 amended at the tree with the directory `xzfs_fuse_tmp`: the copy inside
that directory is not reported. -/
theorem C3_no_file_under_fuse_tmp_directory_witness :
    reportGroups demoLib (still fsFuse) demoRoot 5 =
        some [[["", "root", "xzfs_fuse_tmp_a.txt"], ["", "root", "b.txt"]]] ∧
    ∀ g ∈ [[["", "root", "xzfs_fuse_tmp_a.txt"], ["", "root", "b.txt"]]], ∀ p ∈ g,
      ∃ names e, p = demoRoot ++ names ++ [e] ∧
        ∀ k, k ≤ names.length → fuseTmpDir (demoRoot ++ names.take k) = false := by
  have hrun : reportGroups demoLib (still fsFuse) demoRoot 5 =
      some [[["", "root", "xzfs_fuse_tmp_a.txt"], ["", "root", "b.txt"]]] := by decide!
  exact ⟨hrun,
    (C3_no_file_under_fuse_tmp_directory demoLib (still fsFuse) demoRoot 5).2 _ hrun⟩

/-- C4: a path below the root that has a component starting with a dot is
never the path of a record in a bucket, is never pushed on the stack, is never
listed, and is in no group of the report. -/
theorem C4_dot_entries_skipped (L : Lib) (w : World) (root : Path) (fuel : Nat)
    (names : List String) (hdot : ∃ n ∈ names, dotName n = true) :
    (∀ f ∈ records (walkLoop L w fuel (walkInit root)).all_files,
      f.real_path_ ≠ root ++ names) ∧
    root ++ names ∉ (walkLoop L w fuel (walkInit root)).s ∧
    root ++ names ∉ walkTrace L w fuel (walkInit root) ∧
    (∀ out, reportGroups L w root fuel = some out → ∀ g ∈ out, root ++ names ∉ g) := by
  obtain ⟨n, hn, hd⟩ := hdot
  have hnot : ¬ Below root (root ++ names) := by
    rintro ⟨names2, h1, h2, _⟩
    have := List.append_cancel_left h1
    rw [← this] at h2
    rw [h2 n hn] at hd
    exact Bool.false_ne_true hd
  have hrec : ∀ f ∈ records (walkLoop L w fuel (walkInit root)).all_files,
      f.real_path_ ≠ root ++ names := by
    intro f hf heq
    obtain ⟨names2, e, h1, h2, h3, _⟩ :=
      Recorded_shape ((walkLoop_WalkInv L w root fuel).2 f hf)
    rw [h1, List.append_assoc] at heq
    have := List.append_cancel_left heq
    rw [← this] at hn
    rcases List.mem_append.mp hn with hn | hn
    · rw [h3 n hn] at hd; exact Bool.false_ne_true hd
    · simp only [List.mem_singleton] at hn
      rw [hn, h2] at hd; exact Bool.false_ne_true hd
  refine ⟨hrec, ?_, ?_, ?_⟩
  · intro hmem
    exact hnot ((walkLoop_WalkInv L w root fuel).1 _ hmem)
  · intro hmem
    refine hnot (walkTrace_Below L w root fuel (walkInit root) ?_ _ hmem).1
    refine ⟨?_, ?_⟩
    · intro c hc
      simp only [walkInit, List.mem_singleton] at hc
      rw [hc]; exact Below_refl root
    · intro f hf
      simp [walkInit, records] at hf
  · intro out h g hg hp
    obtain ⟨f, hf, hfp, _⟩ := reportGroups_member L w root fuel out h g hg _ hp
    exact hrec f hf hfp

/-- C4 at a tree with the hidden directory `.git`: its file `d.txt`, a copy of
the reported files, is in no bucket and in no group. -/
theorem C4_dot_entries_skipped_witness :
    (∃ n ∈ [".git", "d.txt"], dotName n = true) ∧
    reportGroups demoLib (still fsDot) demoRoot 5 =
        some [[["", "root", "a.txt"], ["", "root", "b.txt"]]] ∧
    (∀ f ∈ records (walkLoop demoLib (still fsDot) 5 (walkInit demoRoot)).all_files,
      f.real_path_ ≠ demoRoot ++ [".git", "d.txt"]) :=
  ⟨by decide!, by decide!,
   (C4_dot_entries_skipped demoLib (still fsDot) demoRoot 5 [".git", "d.txt"] (by decide!)).1⟩

/-- C9: the constructor reports `ok` exactly when the path exists and is a
regular file (the two status queries), the three times obtained are nonzero,
and the size obtained is neither 0 nor `UINT64_MAX`; for a tree that does not
change this is a regular file with nonzero times and a length other than 0
and `UINT64_MAX`.  When the constructor reports no `ok` the loop body leaves
the index as it was.  Every record of the index has such a snapshot, and in a
tree that does not change a file of 0 bytes is the path of no record. -/
theorem C9_construct_ok (L : Lib) (w : World) (root : Path) (fuel : Nat) :
    (∀ (t : Nat) (p : Path), (MyFile.construct w t p).1.2 = true ↔
      fs_exists (w t) p = true ∧ is_regular_file (w (t + 1)) p = true ∧
      Atime (w (t + 2)) p ≠ 0 ∧ Mtime (w (t + 3)) p ≠ 0 ∧ Ctime (w (t + 4)) p ≠ 0 ∧
      safe_file_size (w (t + 5)) p ≠ 0 ∧ safe_file_size (w (t + 5)) p ≠ UINT64_MAX) ∧
    (∀ (fs : FileSys) (t : Nat) (p : Path), (MyFile.construct (still fs) t p).1.2 = true ↔
      ∃ n, fs p = some n ∧ n.type = FileType.regular ∧ n.st_atime ≠ 0 ∧ n.st_mtime ≠ 0 ∧
        n.st_ctime ≠ 0 ∧ n.data.length ≠ 0 ∧ n.data.length ≠ UINT64_MAX) ∧
    (∀ (c : Path) (st : WalkState) (e : String),
      (MyFile.construct w (st.t + 2) (pathAppend c e)).1.2 = false →
      (visitEntry L w c st e).all_files = st.all_files) ∧
    (∀ f ∈ records (walkLoop L w fuel (walkInit root)).all_files,
      f.size_ ≠ 0 ∧ f.size_ ≠ UINT64_MAX ∧ f.atime_ ≠ 0 ∧ f.mtime_ ≠ 0 ∧ f.ctime_ ≠ 0) ∧
    (∀ (fs : FileSys) (p : Path) (n : Node), fs p = some n → n.data = [] →
      ∀ f ∈ records (walkLoop L (still fs) fuel (walkInit root)).all_files,
        f.real_path_ ≠ p) := by
  refine ⟨?_, construct_ok_still, ?_, ?_, ?_⟩
  · intro t p
    rw [construct_ok_iff, legal_file_true]
    constructor
    · rintro ⟨⟨h1, h2⟩, h3⟩
      have he := legal_file_tick_eq w t p ((legal_file_true w t p).mpr ⟨h1, h2⟩)
      rw [he] at h3
      exact ⟨h1, h2, h3⟩
    · rintro ⟨h1, h2, h3⟩
      have he := legal_file_tick_eq w t p ((legal_file_true w t p).mpr ⟨h1, h2⟩)
      rw [he]
      exact ⟨⟨h1, h2⟩, h3⟩
  · intro c st e hno
    apply visitEntry_cases L w c st e (fun st2 => st2.all_files = st.all_files)
    · intro t2; rfl
    · intro _ _; rfl
    · intro _ _ _ hok
      rw [hno] at hok
      exact Bool.noConfusion hok
  · intro f hf
    exact Recorded_valid ((walkLoop_WalkInv L w root fuel).2 f hf)
  · intro fs p n hn hd f hf hfp
    obtain ⟨n2, h1, _, _, _, _, _, h7⟩ :=
      Recorded_still ((walkLoop_WalkInv L (still fs) root fuel).2 f hf)
    rw [hfp, hn] at h1
    rw [← Option.some.inj h1] at h7
    exact h7 hd

/-- C9 at a tree with the 0-byte file `e.txt`: it is the path of no record. -/
theorem C9_construct_ok_witness :
    fsPair ["", "root", "e.txt"] = some (demoFile 13 []) ∧
    (MyFile.construct (still fsPair) 0 ["", "root", "e.txt"]).1.2 = false ∧
    ∀ f ∈ records (walkLoop demoLib (still fsPair) 5 (walkInit demoRoot)).all_files,
      f.real_path_ ≠ ["", "root", "e.txt"] :=
  ⟨by decide, by decide,
   (C9_construct_ok demoLib (still fsPair) demoRoot 5).2.2.2.2 fsPair ["", "root", "e.txt"]
     (demoFile 13 []) (by decide) rfl⟩

/-! ## The scanner's command line -/

theorem replace_extension_json (p : Path) (h : has_extension p = false) :
    replace_extension p ".json" = p.dropLast ++ [filename p ++ ".json"] := by
  have he : (extension p).data = [] := by
    simpa [has_extension] using h
  unfold replace_extension
  simp only [he, List.length_nil, Nat.sub_zero, List.take_length]
  have hd : (".json" : String).data.head? = some '.' := by decide
  simp only [hd, or_true, if_true, List.append_nil]
  rfl

/-- The conditions under which the scanner's `main` returns 1, when none of its
status queries throws. -/
theorem main_fail_iff (L : Lib) (w : World) (ofstream_open : Path → Bool) (argv : List String)
    (hq : throws L w 0 (toPath (argv.getD 1 "")) = false ∧
      throws L w 1 (toPath (argv.getD 1 "")) = false ∧
      throws L w 2 (toPath (argv.getD 2 "")) = false) :
    find_dup.main L w ofstream_open argv = MainResult.fail ↔
      (argv.length < 3 ∨ fs_exists (w 0) (toPath (argv.getD 1 "")) = false ∨
        is_directory (w 1) (toPath (argv.getD 1 "")) = false ∨
        fs_exists (w 2) (toPath (argv.getD 2 "")) = true ∨
        (has_extension (toPath (argv.getD 2 "")) = true ∧
          extension (toPath (argv.getD 2 "")) ≠ ".json") ∨
        ofstream_open (if has_extension (toPath (argv.getD 2 "")) then toPath (argv.getD 2 "")
          else replace_extension (toPath (argv.getD 2 "")) ".json") = false) := by
  revert hq
  simp only [find_dup.main]
  generalize toPath (argv.getD 1 "") = dir
  generalize toPath (argv.getD 2 "") = output
  rintro ⟨q0, q1, q2⟩
  simp only [q0, q1, q2, Bool.false_eq_true, if_false]
  by_cases h1 : argv.length < 3
  · simp [h1]
  by_cases h2 : fs_exists (w 0) dir = true
  swap
  · simp [h1, h2]
  by_cases h3 : is_directory (w 1) dir = true
  swap
  · simp [h1, h2, h3]
  by_cases h4 : fs_exists (w 2) output = true
  · simp [h1, h2, h3, h4]
  by_cases h5 : has_extension output = true
  · by_cases h6 : extension output = ".json"
    · by_cases h7 : ofstream_open output = true
      · simp [h1, h2, h3, h4, h5, h6, h7, MainResult.fail]
      · simp [h1, h2, h3, h4, h5, h6, h7]
    · simp [h1, h2, h3, h4, h5, h6]
  · by_cases h7 : ofstream_open (replace_extension output ".json") = true
    · simp [h1, h2, h3, h4, h5, h7, MainResult.fail]
    · simp [h1, h2, h3, h4, h5, h7]

/-- When none of its status queries throws and the scanner's `main` does not
return 1, it opens the output path and invokes the core, which it outlives
with the status 0. -/
theorem main_run (L : Lib) (w : World) (ofstream_open : Path → Bool) (argv : List String)
    (hq : throws L w 0 (toPath (argv.getD 1 "")) = false ∧
      throws L w 1 (toPath (argv.getD 1 "")) = false ∧
      throws L w 2 (toPath (argv.getD 2 "")) = false)
    (h : find_dup.main L w ofstream_open argv ≠ MainResult.fail) :
    find_dup.main L w ofstream_open argv =
      { ending := Ending.returned 0,
        opened := some (if has_extension (toPath (argv.getD 2 "")) then toPath (argv.getD 2 "")
          else replace_extension (toPath (argv.getD 2 "")) ".json"),
        core := some (toPath (argv.getD 1 ""),
          if has_extension (toPath (argv.getD 2 "")) then toPath (argv.getD 2 "")
          else replace_extension (toPath (argv.getD 2 "")) ".json") } := by
  revert h hq
  simp only [find_dup.main]
  generalize toPath (argv.getD 1 "") = dir
  generalize toPath (argv.getD 2 "") = output
  rintro ⟨q0, q1, q2⟩
  simp only [q0, q1, q2, Bool.false_eq_true, if_false]
  by_cases h1 : argv.length < 3
  · simp [h1]
  by_cases h2 : fs_exists (w 0) dir = true
  swap
  · simp [h1, h2]
  by_cases h3 : is_directory (w 1) dir = true
  swap
  · simp [h1, h2, h3]
  by_cases h4 : fs_exists (w 2) output = true
  · simp [h1, h2, h3, h4]
  by_cases h5 : has_extension output = true
  · by_cases h6 : extension output = ".json"
    · by_cases h7 : ofstream_open output = true
      · simp [h1, h2, h3, h4, h5, h6, h7]
      · simp [h1, h2, h3, h4, h5, h6, h7]
    · simp [h1, h2, h3, h4, h5, h6]
  · by_cases h7 : ofstream_open (replace_extension output ".json") = true
    · simp [h1, h2, h3, h4, h5, h7]
    · simp [h1, h2, h3, h4, h5, h7]

/-! ## The deletion utility -/

theorem removeLoop_strings (strs : List String) :
    ∀ (rest : List Json) (removed : List Path),
      removeLoop (strs.map Json.string ++ rest) removed =
        removeLoop rest (removed ++ strs.map toPath) := by
  induction strs with
  | nil => intro rest removed; simp
  | cons s tl ih =>
    intro rest removed
    show removeLoop (List.map Json.string tl ++ rest) (removed ++ [toPath s]) = _
    rw [ih]
    simp

theorem removeLoop_stop (x : Json) (rest : List Json) (removed : List Path)
    (hx : ∀ s, x ≠ Json.string s) :
    removeLoop (x :: rest) removed = { ending := Ending.returned 1, removed := removed } := by
  cases x with
  | string s => exact absurd rfl (hx s)
  | null => rfl
  | boolean b => rfl
  | number n => rfl
  | array xs => rfl
  | object kvs => rfl

/-! ## The claims on the two command lines -/

/-- C11 as stated fails.  The argument `/root/.json` ends in `.json`, yet the
core is invoked with a stream on `/root/.json.json`, because a file name that
starts with its only period has no extension.  And for an output argument
whose file name has 300 characters, which cannot be opened, the status query
`exists` fails with an error: `main` is left by the exception, where the claim
has it exit with status 1. -/
theorem C11_counterexample :
    (".json".data).isSuffixOf ("/root/.json".data) = true ∧
    toPath "/root/.json" = ["", "root", ".json"] ∧
    find_dup.main demoLib (still fsEmpty) (fun _ => true)
        ["find_dup", "/root", "/root/.json"] =
      { ending := Ending.returned 0, opened := some ["", "root", ".json.json"],
        core := some (["", "root"], ["", "root", ".json.json"]) } ∧
    find_dup.main longNameLib (still fsEmpty) (fun p => !nameTooLong p)
        ["find_dup", "/root", "/root/" ++ longName] =
      { ending := Ending.terminated, opened := none, core := none } := by
  decide!

/-- C11 amended: when none of the three status queries of `main` fails with an
error, `main` returns 1 without opening a stream and without invoking the core
exactly when fewer than two arguments are given, the root does not exist or is
not a directory, the output argument names an existing path, the output
argument has an extension other than `.json`, or the stream on the output path
is not open.  Otherwise it invokes the core with the root and a stream on the
output path, which is the output argument with `.json` appended to its file
name when the argument has no extension, and the output argument itself when
its extension is `.json`. -/
theorem C11_main_rejects_or_invokes (L : Lib) (w : World) (ofstream_open : Path → Bool)
    (argv : List String)
    (hq : throws L w 0 (toPath (argv.getD 1 "")) = false ∧
      throws L w 1 (toPath (argv.getD 1 "")) = false ∧
      throws L w 2 (toPath (argv.getD 2 "")) = false) :
    (find_dup.main L w ofstream_open argv =
        { ending := Ending.returned 1, opened := none, core := none } ↔
      (argv.length < 3 ∨ fs_exists (w 0) (toPath (argv.getD 1 "")) = false ∨
        is_directory (w 1) (toPath (argv.getD 1 "")) = false ∨
        fs_exists (w 2) (toPath (argv.getD 2 "")) = true ∨
        (has_extension (toPath (argv.getD 2 "")) = true ∧
          extension (toPath (argv.getD 2 "")) ≠ ".json") ∨
        ofstream_open (if has_extension (toPath (argv.getD 2 "")) then toPath (argv.getD 2 "")
          else replace_extension (toPath (argv.getD 2 "")) ".json") = false)) ∧
    (find_dup.main L w ofstream_open argv ≠
        { ending := Ending.returned 1, opened := none, core := none } →
      ∃ out, find_dup.main L w ofstream_open argv =
          { ending := Ending.returned 0, opened := some out,
            core := some (toPath (argv.getD 1 ""), out) } ∧
        (has_extension (toPath (argv.getD 2 "")) = false ∨
          extension (toPath (argv.getD 2 "")) = ".json") ∧
        (has_extension (toPath (argv.getD 2 "")) = false →
          out = (toPath (argv.getD 2 "")).dropLast ++
            [filename (toPath (argv.getD 2 "")) ++ ".json"]) ∧
        (has_extension (toPath (argv.getD 2 "")) = true → out = toPath (argv.getD 2 ""))) := by
  refine ⟨main_fail_iff L w ofstream_open argv hq, ?_⟩
  intro h
  have hrun := main_run L w ofstream_open argv hq h
  have hnot := (not_congr (main_fail_iff L w ofstream_open argv hq)).mp h
  simp only [not_or, not_and, not_not] at hnot
  refine ⟨_, hrun, ?_, ?_, ?_⟩
  · by_cases he : has_extension (toPath (argv.getD 2 "")) = true
    · exact Or.inr (hnot.2.2.2.2.1 he)
    · exact Or.inl (by simpa using he)
  · intro he
    simp only [he, Bool.false_eq_true, if_false]
    exact replace_extension_json _ he
  · intro he
    simp only [he, if_true]

/-- C11 amended at the arguments `/root` (an empty directory) and `/root/out`:
the core is invoked with a stream on `/root/out.json`. -/
theorem C11_main_rejects_or_invokes_witness :
    (throws demoLib (still fsEmpty) 0 (toPath (["find_dup", "/root", "/root/out"].getD 1 ""))
        = false ∧
      throws demoLib (still fsEmpty) 1 (toPath (["find_dup", "/root", "/root/out"].getD 1 ""))
        = false ∧
      throws demoLib (still fsEmpty) 2 (toPath (["find_dup", "/root", "/root/out"].getD 2 ""))
        = false) ∧
    find_dup.main demoLib (still fsEmpty) (fun _ => true) ["find_dup", "/root", "/root/out"] ≠
        { ending := Ending.returned 1, opened := none, core := none } ∧
    ∃ out, find_dup.main demoLib (still fsEmpty) (fun _ => true)
          ["find_dup", "/root", "/root/out"] =
        { ending := Ending.returned 0, opened := some out,
          core := some (toPath (["find_dup", "/root", "/root/out"].getD 1 ""), out) } ∧
      (has_extension (toPath (["find_dup", "/root", "/root/out"].getD 2 "")) = false ∨
        extension (toPath (["find_dup", "/root", "/root/out"].getD 2 "")) = ".json") ∧
      (has_extension (toPath (["find_dup", "/root", "/root/out"].getD 2 "")) = false →
        out = (toPath (["find_dup", "/root", "/root/out"].getD 2 "")).dropLast ++
          [filename (toPath (["find_dup", "/root", "/root/out"].getD 2 "")) ++ ".json"]) ∧
      (has_extension (toPath (["find_dup", "/root", "/root/out"].getD 2 "")) = true →
        out = toPath (["find_dup", "/root", "/root/out"].getD 2 "")) :=
  ⟨by decide!, by decide!,
    (C11_main_rejects_or_invokes demoLib (still fsEmpty) (fun _ => true)
      ["find_dup", "/root", "/root/out"] (by decide!)).2 (by decide!)⟩

/-- C19 (code evaluated at the failing input): `/root/out.json` exists and
`/root/out` does not.  With the output argument `/root/out` the test for an
existing output passes, `.json` is appended, and `main` opens a stream on the
existing `/root/out.json` and invokes the core with it. -/
theorem C19_existing_report_opened :
    fs_exists fsOut (toPath "/root/out") = false ∧
    fs_exists fsOut ["", "root", "out.json"] = true ∧
    find_dup.main demoLib (still fsOut) (fun _ => true) ["find_dup", "/root", "/root/out"] =
      { ending := Ending.returned 0, opened := some ["", "root", "out.json"],
        core := some (["", "root"], ["", "root", "out.json"]) } := by
  decide!

/-- C12 (code evaluated at the failing input): with the items `"/root/a.txt"`,
`7`, `"/root/b.txt"` the utility hands `/root/a.txt` to `remove` before it
returns 1 at the number, where an `items` that is not an array makes it return
1 with nothing removed; and for an input that is an array, which has no
`items`, the lookup throws before the test for an array is reached, so the run
does not end with the status 1. -/
theorem C12_removal_before_exit :
    del_file_list.main (fun _ => some listWithNumber) ["del_file_list", "list.json"] =
      { ending := Ending.returned 1, removed := [["", "root", "a.txt"]] } ∧
    del_file_list.main (fun _ => some (Json.object [("items", Json.string "/root/a.txt")]))
        ["del_file_list", "list.json"] =
      { ending := Ending.returned 1, removed := [] } ∧
    del_file_list.main (fun _ => some (Json.array [Json.string "/root/a.txt"]))
        ["del_file_list", "list.json"] =
      { ending := Ending.terminated, removed := [] } := by
  decide!

/-- The runs of the deletion utility on a parsed input: when `items` is missing
or not an array it returns 1 and calls `remove` on nothing; when `items` is an
array of strings it calls `remove` on every item in list order and returns 0;
when `items` is an array with a first element that is not a string, it calls
`remove` on the strings before that element, in order, and then returns 1. -/
theorem del_main_cases (parse : String → Option Json) (argv : List String)
    (input : Json) (hargc : argv.length = 2) (hparse : parse (argv.getD 1 "") = some input) :
    ((input = Json.null ∨ ∃ kvs, input = Json.object kvs ∧
        ∀ xs, kvs.lookup "items" ≠ some (Json.array xs)) →
      del_file_list.main parse argv = { ending := Ending.returned 1, removed := [] }) ∧
    (∀ (kvs : List (String × Json)) (strs : List String), input = Json.object kvs →
      kvs.lookup "items" = some (Json.array (strs.map Json.string)) →
      del_file_list.main parse argv =
        { ending := Ending.returned 0, removed := strs.map toPath }) ∧
    (∀ (kvs : List (String × Json)) (strs : List String) (x : Json) (rest : List Json),
      input = Json.object kvs →
      kvs.lookup "items" = some (Json.array (strs.map Json.string ++ x :: rest)) →
      (∀ s, x ≠ Json.string s) →
      del_file_list.main parse argv =
        { ending := Ending.returned 1, removed := strs.map toPath }) ∧
    ((input ≠ Json.null ∧ ∀ kvs, input ≠ Json.object kvs) →
      del_file_list.main parse argv = { ending := Ending.terminated, removed := [] }) := by
  have hne : ¬ argv.length ≠ 2 := by simp [hargc]
  refine ⟨?_, ?_, ?_, ?_⟩
  · rintro (h | ⟨kvs, h, hk⟩)
    · subst h
      simp only [del_file_list.main, hne, if_false, hparse, Json.index]
    · subst h
      simp only [del_file_list.main, hne, if_false, hparse, Json.index]
      cases hl : kvs.lookup "items" with
      | none => rfl
      | some v =>
        cases v with
        | array xs => exact absurd hl (hk xs)
        | null => rfl
        | boolean b => rfl
        | number n => rfl
        | string s => rfl
        | object o => rfl
  · intro kvs strs h hk
    subst h
    simp only [del_file_list.main, hne, if_false, hparse, Json.index, hk, Option.getD_some]
    have := removeLoop_strings strs [] []
    simpa [removeLoop] using this
  · intro kvs strs x rest h hk hx
    subst h
    simp only [del_file_list.main, hne, if_false, hparse, Json.index, hk, Option.getD_some]
    rw [removeLoop_strings, removeLoop_stop x rest _ hx]
    simp
  · rintro ⟨h1, h2⟩
    simp only [del_file_list.main, hne, if_false, hparse]
    cases input with
    | null => exact absurd rfl h1
    | object kvs => exact absurd rfl (h2 kvs)
    | boolean b => rfl
    | number n => rfl
    | string s => rfl
    | array xs => rfl

/-! ## The verification ladder -/

/-- For two records of the same size with byte-equal first blocks the result of
`compare` is the result of `checkFileEqualDeep`: after the two calls of `hash`
both flags `hashed_` are true, so the test between them never returns. -/
theorem compare_reaches_deep (L : Lib) (w : World) (t : Nat) (a b : MyFile)
    (hsize : a.size_ = b.size_)
    (hfirst : memcmp (a.set_first_4k w t).1.1.first_4k_data_
      (b.set_first_4k w (a.set_first_4k w t).2).1.1.first_4k_data_ 4096 = 0) :
    ∃ t2, (a.compare L w t b).1.1 = (checkFileEqualDeep w t2 a.real_path_ b.real_path_).1.1 := by
  unfold MyFile.compare
  simp only [hsize, ne_eq, not_true_eq_false, if_false, hfirst, hash_hashed, hash_path,
    set_first_4k_path]
  exact ⟨_, rfl⟩

/-- C13 (code evaluated at the failing input): `a.txt` and `b.txt` are
identical, and `a.txt` cannot be opened at the one tick at which its full hash
is computed, so its cached hash is the failure sentinel 0 while the hash of
`b.txt` is 1258206.  The two records agree on size and first block, their full
hashes differ, and `compare` returns 0: it went on to the byte comparison.  The
same happens for two records that enter `compare` with different cached
hashes. -/
theorem C13_hash_values_not_compared :
    recA.size_ = recB.size_ ∧
    (recA.compare demoLib worldHashFail 0 recB).1.2.1.first_4k_data_ =
      (recA.compare demoLib worldHashFail 0 recB).1.2.2.first_4k_data_ ∧
    (recA.compare demoLib worldHashFail 0 recB).1.2.1.hash_ = 0 ∧
    (recA.compare demoLib worldHashFail 0 recB).1.2.2.hash_ = 1258206 ∧
    (recA.compare demoLib worldHashFail 0 recB).1.1 = 0 ∧
    (({ recA with hashed_ := true, hash_ := 0 }).compare demoLib (still fsPair) 0
      { recB with hashed_ := true, hash_ := 1258206 }).1.1 = 0 := by
  decide!

theorem leaderLoop_append (L : Lib) (w : World) (c : Nat) :
    ∀ (xs ys : List Nat) (st : GroupState),
      leaderLoop L w c (xs ++ ys) st = leaderLoop L w c ys (leaderLoop L w c xs st) := by
  intro xs
  induction xs with
  | nil => intro ys st; rfl
  | cons x tl ih =>
    intro ys st
    simp only [List.cons_append, leaderLoop]
    split
    · exact ih ys st
    · split
      · exact ih ys _
      · exact ih ys _

/-- The inner scan of the leader `i`, by indices: the candidates `js` it adds
were not checked before and are checked afterwards; either the scan runs to
its end and the group of the leader has grown by them, or it leaves through
`pop_back`, which removes the group grown by them. -/
theorem innerScan_idx (L : Lib) (w : World) (files0 : List MyFile) (i : Nat) :
    ∀ (todo : List Nat) (st : GroupState) (gs : List (List Path)) (cur : List Path),
      SnapRel st.files files0 → st.same_file_groups = gs ++ [cur] →
      SnapRel (innerScan L w i todo st).files files0 ∧
      (innerScan L w i todo st).items = st.items ∧
      (∀ x ∈ st.checked, x ∈ (innerScan L w i todo st).checked) ∧
      ∃ js : List Nat, (∀ j ∈ js, j ∈ todo ∧ j ≠ i ∧ j ∉ st.checked ∧
            j ∈ (innerScan L w i todo st).checked) ∧
        (((∀ g, Event.pop_back g ∉ innerLog L w i todo st) ∧
            (innerScan L w i todo st).same_file_groups =
              gs ++ [cur ++ js.map (pathAt files0)]) ∨
          (Event.pop_back (cur ++ js.map (pathAt files0)) ∈ innerLog L w i todo st ∧
            (∀ g, Event.pop_back g ∈ innerLog L w i todo st →
              g = cur ++ js.map (pathAt files0)) ∧
            (innerScan L w i todo st).same_file_groups = gs)) := by
  intro todo
  induction todo with
  | nil =>
    intro st gs cur hsnap hg
    refine ⟨hsnap, rfl, fun x hx => hx, [], by simp, Or.inl ⟨by simp [innerLog], ?_⟩⟩
    simp [innerScan, hg]
  | cons k ks ih =>
    intro st gs cur hsnap hg
    simp only [innerScan, innerLog]
    generalize hcjd : (fileAt st.files k).changed w st.t = cj
    generalize hcid : (fileAt st.files i).changed w cj.2 = ci
    generalize hrd : (fileAt st.files i).compare L w ci.2 (fileAt st.files k) = res
    have hrs := compare_snap L w ci.2 (fileAt st.files i) (fileAt st.files k)
    rw [hrd] at hrs
    have hsnap2 : SnapRel ((st.files.set i res.1.2.1).set k res.1.2.2) files0 :=
      SnapRel_set2 hsnap i k _ _ hrs.1 hrs.2
    -- a step that keeps the group and the checked set
    have hkeep : ∀ st2 : GroupState, SnapRel st2.files files0 →
        st2.same_file_groups = st.same_file_groups → st2.items = st.items →
        st2.checked = st.checked →
        ∀ pfx : List Event, (∀ g, Event.pop_back g ∉ pfx) →
        SnapRel (innerScan L w i ks st2).files files0 ∧
        (innerScan L w i ks st2).items = st.items ∧
        (∀ x ∈ st.checked, x ∈ (innerScan L w i ks st2).checked) ∧
        ∃ js : List Nat, (∀ j ∈ js, j ∈ k :: ks ∧ j ≠ i ∧ j ∉ st.checked ∧
              j ∈ (innerScan L w i ks st2).checked) ∧
          (((∀ g, Event.pop_back g ∉ pfx ++ innerLog L w i ks st2) ∧
              (innerScan L w i ks st2).same_file_groups =
                gs ++ [cur ++ js.map (pathAt files0)]) ∨
            (Event.pop_back (cur ++ js.map (pathAt files0)) ∈ pfx ++ innerLog L w i ks st2 ∧
              (∀ g, Event.pop_back g ∈ pfx ++ innerLog L w i ks st2 →
                g = cur ++ js.map (pathAt files0)) ∧
              (innerScan L w i ks st2).same_file_groups = gs)) := by
      intro st2 hs2 hg2 hi2 hc2 pfx hpfx
      obtain ⟨a1, a2, a3, js, a4, a5⟩ := ih st2 gs cur hs2 (by rw [hg2, hg])
      refine ⟨a1, by rw [a2, hi2], fun x hx => a3 x (by rw [hc2]; exact hx), js, ?_, ?_⟩
      · intro j hj
        obtain ⟨b1, b2, b3, b4⟩ := a4 j hj
        exact ⟨List.mem_cons_of_mem _ b1, b2, by rw [← hc2]; exact b3, b4⟩
      · rcases a5 with ⟨c1, c2⟩ | ⟨c1, c2, c3⟩
        · refine Or.inl ⟨?_, c2⟩
          intro g hgm
          rcases List.mem_append.mp hgm with h | h
          · exact hpfx g h
          · exact c1 g h
        · refine Or.inr ⟨List.mem_append_right _ c1, ?_, c3⟩
          intro g hgm
          rcases List.mem_append.mp hgm with h | h
          · exact absurd h (hpfx g)
          · exact c2 g h
    split
    · simpa using hkeep st hsnap rfl rfl rfl [] (by simp)
    · rename_i hki
      split
      · simpa using hkeep st hsnap rfl rfl rfl [] (by simp)
      · rename_i hck
        have hknot : k ∉ st.checked := by
          intro hmem
          exact hck ((contains_iff_mem_nat _ _).mpr hmem)
        split
        · -- the candidate has changed: it is marked checked
          obtain ⟨a1, a2, a3, js, a4, a5⟩ := ih
            { st with checked := k :: st.checked, t := cj.2 } gs cur hsnap hg
          refine ⟨a1, a2, fun x hx => a3 x (List.mem_cons_of_mem _ hx), js, ?_, ?_⟩
          · intro j hj
            obtain ⟨b1, b2, b3, b4⟩ := a4 j hj
            exact ⟨List.mem_cons_of_mem _ b1, b2,
              fun hm => b3 (List.mem_cons_of_mem _ hm), b4⟩
          · rcases a5 with ⟨c1, c2⟩ | ⟨c1, c2, c3⟩
            · refine Or.inl ⟨?_, c2⟩
              intro g hgm
              rcases List.mem_cons.mp hgm with h | h
              · simp at h
              · exact c1 g h
            · refine Or.inr ⟨List.mem_cons_of_mem _ c1, ?_, c3⟩
              intro g hgm
              rcases List.mem_cons.mp hgm with h | h
              · simp at h
              · exact c2 g h
        · split
          · -- the leader has changed: its group is removed
            refine ⟨hsnap, rfl, fun x hx => hx, [], by simp, Or.inr ⟨?_, ?_, ?_⟩⟩
            · simp [hg]
            · intro g hgm
              simp [hg] at hgm
              simp [hgm]
            · simp [hg]
          · split
            · -- the candidate is added
              have hpath : (fileAt ((st.files.set i res.1.2.1).set k res.1.2.2) k).real_path_
                  = pathAt files0 k := (hsnap2.2 k).1
              rw [hpath]
              obtain ⟨a1, a2, a3, js, a4, a5⟩ := ih
                { st with files := (st.files.set i res.1.2.1).set k res.1.2.2,
                          same_file_groups := backPush st.same_file_groups (pathAt files0 k),
                          checked := k :: st.checked, t := res.2 }
                gs (cur ++ [pathAt files0 k]) hsnap2 (by simp [hg, backPush_concat])
              have hkfin := a3 k (List.mem_cons_self _ _)
              refine ⟨a1, a2, fun x hx => a3 x (List.mem_cons_of_mem _ hx), k :: js, ?_, ?_⟩
              · intro j hj
                rcases List.mem_cons.mp hj with h | h
                · rw [h]
                  exact ⟨List.mem_cons_self _ _, hki, hknot, hkfin⟩
                · obtain ⟨b1, b2, b3, b4⟩ := a4 j h
                  exact ⟨List.mem_cons_of_mem _ b1, b2,
                    fun hm => b3 (List.mem_cons_of_mem _ hm), b4⟩
              · have e : cur ++ [pathAt files0 k] ++ js.map (pathAt files0) =
                    cur ++ (k :: js).map (pathAt files0) := by simp
                rw [e] at a5
                rcases a5 with ⟨c1, c2⟩ | ⟨c1, c2, c3⟩
                · refine Or.inl ⟨?_, c2⟩
                  intro g hgm
                  simp only [List.mem_cons] at hgm
                  rcases hgm with h | h | h | h
                  · simp at h
                  · simp at h
                  · simp at h
                  · exact c1 g h
                · refine Or.inr ⟨List.mem_cons_of_mem _ (List.mem_cons_of_mem _
                    (List.mem_cons_of_mem _ c1)), ?_, c3⟩
                  intro g hgm
                  simp only [List.mem_cons] at hgm
                  rcases hgm with h | h | h | h
                  · simp at h
                  · simp at h
                  · simp at h
                  · exact c2 g h
            · -- the candidate differs
              have := hkeep { st with files := (st.files.set i res.1.2.1).set k res.1.2.2,
                                      t := res.2 } hsnap2 rfl rfl rfl
                [Event.changed k st.t cj.2 false, Event.changed i cj.2 ci.2 false,
                  Event.compare i k ci.2 res.1.1] (by simp)
              simpa using this

/-- The leader loop, by indices: the checked set only grows, every emitted
group is one of the groups kept, and every group kept at the end was there at
the start or was built by a leader still to come from indices that were not
checked at the start. -/
theorem leaderLoop_idx (L : Lib) (w : World) (files0 : List MyFile) :
    ∀ (todo : List Nat) (st : GroupState),
      SnapRel st.files files0 → (∀ g ∈ st.items, g ∈ st.same_file_groups) →
      SnapRel (leaderLoop L w files0.length todo st).files files0 ∧
      (∀ x ∈ st.checked, x ∈ (leaderLoop L w files0.length todo st).checked) ∧
      (∀ g ∈ (leaderLoop L w files0.length todo st).items,
        g ∈ (leaderLoop L w files0.length todo st).same_file_groups) ∧
      (∀ g ∈ (leaderLoop L w files0.length todo st).same_file_groups,
        g ∈ st.same_file_groups ∨
        ∃ i ∈ todo, ∃ js : List Nat, g = (i :: js).map (pathAt files0) ∧ i ∉ st.checked ∧
          ∀ j ∈ js, j < files0.length ∧ j ≠ i ∧ j ∉ st.checked) := by
  intro todo
  induction todo with
  | nil =>
    intro st hsnap hit
    exact ⟨hsnap, fun x hx => hx, hit, fun g hg => Or.inl hg⟩
  | cons i rest ih =>
    intro st hsnap hit
    simp only [leaderLoop]
    generalize hcid : (fileAt st.files i).changed w st.t = ci
    split
    · obtain ⟨a1, a2, a3, a4⟩ := ih st hsnap hit
      refine ⟨a1, a2, a3, ?_⟩
      intro g hg
      rcases a4 g hg with h | ⟨i2, hi2, js, h⟩
      · exact Or.inl h
      · exact Or.inr ⟨i2, List.mem_cons_of_mem _ hi2, js, h⟩
    · rename_i hck
      have hinot : i ∉ st.checked := by
        intro hmem
        exact hck ((contains_iff_mem_nat _ _).mpr hmem)
      split
      · obtain ⟨a1, a2, a3, a4⟩ := ih { st with checked := i :: st.checked, t := ci.2 } hsnap hit
        refine ⟨a1, fun x hx => a2 x (List.mem_cons_of_mem _ hx), a3, ?_⟩
        intro g hg
        rcases a4 g hg with h | ⟨i2, hi2, js, h1, h2, h3⟩
        · exact Or.inl h
        · refine Or.inr ⟨i2, List.mem_cons_of_mem _ hi2, js, h1,
            fun hm => h2 (List.mem_cons_of_mem _ hm), ?_⟩
          intro j hj
          obtain ⟨b1, b2, b3⟩ := h3 j hj
          exact ⟨b1, b2, fun hm => b3 (List.mem_cons_of_mem _ hm)⟩
      · have hpath : (fileAt st.files i).real_path_ = pathAt files0 i := (hsnap.2 i).1
        rw [hpath]
        obtain ⟨s1, s2, s3, js, s4, s5⟩ := innerScan_idx L w files0 i (List.range files0.length)
          { st with same_file_groups := st.same_file_groups ++ [[pathAt files0 i]], t := ci.2 }
          st.same_file_groups [pathAt files0 i] hsnap rfl
        have hsub : ∀ g ∈ (innerScan L w i (List.range files0.length)
            { st with same_file_groups := st.same_file_groups ++ [[pathAt files0 i]],
                      t := ci.2 }).same_file_groups,
            g ∈ st.same_file_groups ∨ g = (i :: js).map (pathAt files0) := by
          intro g hg
          rcases s5 with ⟨_, c2⟩ | ⟨_, _, c3⟩
          · rw [c2] at hg
            rcases List.mem_append.mp hg with h | h
            · exact Or.inl h
            · right; simpa using h
          · rw [c3] at hg; exact Or.inl hg
        have hkeepold : ∀ g ∈ st.same_file_groups, g ∈ (innerScan L w i (List.range files0.length)
            { st with same_file_groups := st.same_file_groups ++ [[pathAt files0 i]],
                      t := ci.2 }).same_file_groups := by
          intro g hg
          rcases s5 with ⟨_, c2⟩ | ⟨_, _, c3⟩
          · rw [c2]; exact List.mem_append_left _ hg
          · rw [c3]; exact hg
        obtain ⟨a1, a2, a3, a4⟩ := ih (emitGroups (innerScan L w i (List.range files0.length)
            { st with same_file_groups := st.same_file_groups ++ [[pathAt files0 i]],
                      t := ci.2 })) s1 (by
          intro g hg
          simp only [emitGroups, List.mem_append, List.mem_filter] at hg
          rcases hg with h | h
          · rw [s2] at h
            exact hkeepold g (hit g h)
          · exact h.1)
        refine ⟨a1, fun x hx => a2 x (s3 x hx), a3, ?_⟩
        intro g hg
        rcases a4 g hg with h | ⟨i2, hi2, js2, h1, h2, h3⟩
        · rcases hsub g h with h | h
          · exact Or.inl h
          · refine Or.inr ⟨i, List.mem_cons_self _ _, js, h, hinot, ?_⟩
            intro j hj
            obtain ⟨b1, b2, b3, _⟩ := s4 j hj
            exact ⟨List.mem_range.mp b1, b2, b3⟩
        · refine Or.inr ⟨i2, List.mem_cons_of_mem _ hi2, js2, h1,
            fun hm => h2 (s3 _ hm), ?_⟩
          intro j hj
          obtain ⟨b1, b2, b3⟩ := h3 j hj
          exact ⟨b1, b2, fun hm => b3 (s3 _ hm)⟩

/-! ## Leader discard -/

theorem builderAt_snoc (L : Lib) (w : World) (t : Nat) (files : List MyFile)
    (before rest : List Nat) :
    builderAt L w t files (before ++ rest) =
      leaderLoop L w files.length rest (builderAt L w t files before) := by
  unfold builderAt
  exact leaderLoop_append L w files.length before rest _

theorem groupBucket_eq_builderAt (L : Lib) (w : World) (t : Nat) (files : List MyFile) :
    ∀ g ∈ (groupBucket L w t files).1,
      g ∈ (builderAt L w t files (List.range files.length)).items := by
  intro g hg
  unfold groupBucket at hg
  split at hg
  · exact hg
  · simp at hg

theorem head_map_pathAt (files : List MyFile) (i : Nat) (js : List Nat) :
    ((i :: js).map (pathAt files)).head? = some (pathAt files i) := rfl

/-- C14: when the leader `i` is detected as changed during its inner scan
(`pop_back` is reached, removing the group `g`), then `g` is the group of `i`
with the candidates `js` added so far; `same_file_groups` is left as it was
before `i` started its group; no group kept or emitted for the bucket starts
with the path of `i`, so `g` is never emitted; and the candidates `js` are
marked checked, stay so to the end of the bucket, and are in no group that a
later leader builds.  The records of the bucket have pairwise different paths. -/
theorem C14_discarded_group_never_emitted (L : Lib) (w : World) (t : Nat)
    (files : List MyFile) (before rest : List Nat) (i : Nat) (g : List Path)
    (hnd : (files.map (fun f => f.real_path_)).Nodup)
    (hsplit : List.range files.length = before ++ i :: rest)
    (hfree : (builderAt L w t files before).checked.contains i = false)
    (hlead : ((fileAt (builderAt L w t files before).files i).changed w
      (builderAt L w t files before).t).1 = false)
    (hpop : Event.pop_back g ∈ innerLog L w i (List.range files.length)
      (leadState w i (builderAt L w t files before))) :
    ∃ js : List Nat, g = (i :: js).map (pathAt files) ∧
      (∀ j ∈ js, j < files.length ∧ j ≠ i) ∧
      (innerScan L w i (List.range files.length)
        (leadState w i (builderAt L w t files before))).same_file_groups =
          (builderAt L w t files before).same_file_groups ∧
      builderAt L w t files (before ++ [i]) =
        emitGroups (innerScan L w i (List.range files.length)
          (leadState w i (builderAt L w t files before))) ∧
      (∀ g2 ∈ (builderAt L w t files (List.range files.length)).same_file_groups,
        g2.head? ≠ some (pathAt files i)) ∧
      (∀ g2 ∈ (groupBucket L w t files).1,
        g2 ∈ (builderAt L w t files (List.range files.length)).same_file_groups) ∧
      g ∉ (groupBucket L w t files).1 ∧
      (∀ j ∈ js, j ∈ (builderAt L w t files (before ++ [i])).checked ∧
        j ∈ (builderAt L w t files (List.range files.length)).checked) ∧
      (∀ g2 ∈ (builderAt L w t files (List.range files.length)).same_file_groups,
        g2 ∈ (builderAt L w t files before).same_file_groups ∨
        ∃ i2 ∈ rest, g2.head? = some (pathAt files i2) ∧ ∀ j ∈ js, pathAt files j ∉ g2) := by
  -- the state when the leader loop reaches `i`
  obtain ⟨b1, _, b3, b4⟩ := leaderLoop_idx L w files before (groupInit files t)
    (SnapRel_refl files) (by intro g hg; simp [groupInit] at hg)
  change SnapRel (builderAt L w t files before).files files at b1
  change ∀ g ∈ (builderAt L w t files before).items,
    g ∈ (builderAt L w t files before).same_file_groups at b3
  change ∀ g ∈ (builderAt L w t files before).same_file_groups, _ at b4
  have hrange : (before ++ i :: rest).Nodup := by rw [← hsplit]; exact List.nodup_range _
  have hlt : ∀ x ∈ before ++ i :: rest, x < files.length := by
    intro x hx; rw [← hsplit] at hx; exact List.mem_range.mp hx
  have hilt : i < files.length := hlt i (by simp)
  have hinb : i ∉ before := by
    intro hm
    have := (List.nodup_append.mp hrange).2.2 hm (List.mem_cons_self _ _)
    exact this
  have hinr : i ∉ rest := by
    have := (List.nodup_append.mp hrange).2.1
    exact (List.nodup_cons.mp this).1
  have hinj : ∀ a b, a < files.length → b < files.length →
      pathAt files a = pathAt files b → a = b :=
    fun a b ha hb h => fileAt_inj (fun f => f.real_path_) files hnd a b ha hb h
  -- the inner scan of `i`
  have hpath : (fileAt (builderAt L w t files before).files i).real_path_ = pathAt files i :=
    (b1.2 i).1
  have hls : leadState w i (builderAt L w t files before) =
      { builderAt L w t files before with
        same_file_groups := (builderAt L w t files before).same_file_groups ++
          [[pathAt files i]],
        t := ((fileAt (builderAt L w t files before).files i).changed w
          (builderAt L w t files before).t).2 } := by
    unfold leadState; rw [hpath]
  obtain ⟨s1, s2, s3, js, s4, s5⟩ := innerScan_idx L w files i (List.range files.length)
    (leadState w i (builderAt L w t files before))
    (builderAt L w t files before).same_file_groups [pathAt files i]
    (by rw [hls]; exact b1) (by rw [hls])
  rcases s5 with ⟨c1, _⟩ | ⟨_, c2, c3⟩
  · exact absurd hpop (c1 g)
  have hg : g = (i :: js).map (pathAt files) := by
    rw [c2 g hpop]; rfl
  -- the state after the leader `i`
  have hafter : builderAt L w t files (before ++ [i]) =
      emitGroups (innerScan L w i (List.range files.length)
        (leadState w i (builderAt L w t files before))) := by
    rw [builderAt_snoc]
    simp only [leaderLoop, hfree, hlead, Bool.false_eq_true, if_false]
    rfl
  -- the rest of the leader loop
  have hfinal : builderAt L w t files (List.range files.length) =
      leaderLoop L w files.length rest (builderAt L w t files (before ++ [i])) := by
    rw [hsplit, ← builderAt_snoc]
    simp
  have hit2 : ∀ g2 ∈ (builderAt L w t files (before ++ [i])).items,
      g2 ∈ (builderAt L w t files (before ++ [i])).same_file_groups := by
    intro g2 hg2
    rw [hafter] at hg2 ⊢
    simp only [emitGroups, List.mem_append, List.mem_filter] at hg2 ⊢
    rcases hg2 with h | h
    · rw [s2] at h
      have h2 : g2 ∈ (builderAt L w t files before).items := by
        simpa [leadState] using h
      rw [c3]
      exact b3 g2 h2
    · exact h.1
  obtain ⟨_, a2, a3, a4⟩ := leaderLoop_idx L w files rest
    (builderAt L w t files (before ++ [i])) (by rw [hafter]; exact s1) hit2
  rw [← hfinal] at a2 a3 a4
  have hsfg2 : (builderAt L w t files (before ++ [i])).same_file_groups =
      (builderAt L w t files before).same_file_groups := by
    rw [hafter]; exact c3
  have hchk2 : ∀ j ∈ js, j ∈ (builderAt L w t files (before ++ [i])).checked := by
    intro j hj
    rw [hafter]
    exact (s4 j hj).2.2.2
  -- every group kept at the end, by its leader
  have hlate : ∀ g2 ∈ (builderAt L w t files (List.range files.length)).same_file_groups,
      g2 ∈ (builderAt L w t files before).same_file_groups ∨
      ∃ i2 ∈ rest, g2.head? = some (pathAt files i2) ∧ ∀ j ∈ js, pathAt files j ∉ g2 := by
    intro g2 hg2
    rcases a4 g2 hg2 with h | ⟨i2, hi2, js2, h1, h2, h3⟩
    · rw [hsfg2] at h; exact Or.inl h
    · refine Or.inr ⟨i2, hi2, by rw [h1]; rfl, ?_⟩
      intro j hj hmem
      rw [h1] at hmem
      obtain ⟨x, hx, hxp⟩ := List.mem_map.mp hmem
      have hjl : j < files.length := List.mem_range.mp (s4 j hj).1
      have hxl : x < files.length := by
        rcases List.mem_cons.mp hx with h | h
        · rw [h]; exact hlt i2 (by simp [hi2])
        · exact (h3 x h).1
      have hxj : x = j := hinj x j hxl hjl hxp
      rcases List.mem_cons.mp hx with h | h
      · have e : i2 = j := by rw [← h, hxj]
        exact h2 (by rw [e]; exact hchk2 j hj)
      · rw [hxj] at h; exact (h3 j h).2.2 (hchk2 j hj)
  have hhead : ∀ g2 ∈ (builderAt L w t files (List.range files.length)).same_file_groups,
      g2.head? ≠ some (pathAt files i) := by
    intro g2 hg2 hh
    rcases hlate g2 hg2 with h | ⟨i2, hi2, h1, _⟩
    · rcases b4 g2 h with h0 | ⟨i0, hi0, js0, e0, _, _⟩
      · simp [groupInit] at h0
      · rw [e0, head_map_pathAt] at hh
        have := hinj i0 i (hlt i0 (by simp [hi0])) hilt (Option.some.inj hh)
        rw [this] at hi0
        exact hinb hi0
    · rw [h1] at hh
      have := hinj i2 i (hlt i2 (by simp [hi2])) hilt (Option.some.inj hh)
      rw [this] at hi2
      exact hinr hi2
  have hemit : ∀ g2 ∈ (groupBucket L w t files).1,
      g2 ∈ (builderAt L w t files (List.range files.length)).same_file_groups :=
    fun g2 hg2 => a3 g2 (groupBucket_eq_builderAt L w t files g2 hg2)
  refine ⟨js, hg, ?_, ?_, hafter, hhead, hemit, ?_, ?_, hlate⟩
  · intro j hj
    exact ⟨List.mem_range.mp (s4 j hj).1, (s4 j hj).2.1⟩
  · rw [c3]
  · intro hmem
    exact hhead g (hemit g hmem) (by rw [hg]; rfl)
  · intro j hj
    exact ⟨hchk2 j hj, a2 j (hchk2 j hj)⟩

/-- C14 at the bucket of three identical files when the leader `a.txt` is
touched after `b.txt` was added to its group: the group of `a.txt` and `b.txt`
is removed and nothing is emitted for the bucket. -/
theorem C14_discarded_group_never_emitted_witness :
    Event.pop_back [["", "root", "a.txt"], ["", "root", "b.txt"]] ∈
      innerLog demoLib worldLeaderTouched 0 (List.range bucketTrio.length)
        (leadState worldLeaderTouched 0 (builderAt demoLib worldLeaderTouched 0 bucketTrio [])) ∧
    [["", "root", "a.txt"], ["", "root", "b.txt"]] ∉
      (groupBucket demoLib worldLeaderTouched 0 bucketTrio).1 ∧
    (groupBucket demoLib worldLeaderTouched 0 bucketTrio).1 = [] := by
  have hpop : Event.pop_back [["", "root", "a.txt"], ["", "root", "b.txt"]] ∈
      innerLog demoLib worldLeaderTouched 0 (List.range bucketTrio.length)
        (leadState worldLeaderTouched 0
          (builderAt demoLib worldLeaderTouched 0 bucketTrio [])) := by decide!
  obtain ⟨_, _, _, _, _, _, _, h, _⟩ :=
    C14_discarded_group_never_emitted demoLib worldLeaderTouched 0 bucketTrio [] [1, 2] 0
      [["", "root", "a.txt"], ["", "root", "b.txt"]] (by decide!) (by decide!) (by decide!)
      (by decide!) hpop
  exact ⟨hpop, h, by decide!⟩

/-! ## The walker in any world: termination, inodes, paths -/

theorem visitLoop_stack_len (L : Lib) (w : World) (c : Path) :
    ∀ (es : List String) (st : WalkState),
      ∃ ks, (visitLoop L w c es st).s = ks ++ st.s ∧ ∀ x ∈ ks, x.length = c.length + 1 := by
  intro es
  induction es with
  | nil => intro st; exact ⟨[], rfl, by simp⟩
  | cons e rest ih =>
    intro st
    simp only [visitLoop]
    split
    · exact ⟨[], rfl, by simp⟩
    · have hstep : ∃ ks, (visitEntry L w c st e).s = ks ++ st.s ∧
          ∀ x ∈ ks, x.length = c.length + 1 := by
        apply visitEntry_cases L w c st e
          (fun st2 => ∃ ks, st2.s = ks ++ st.s ∧ ∀ x ∈ ks, x.length = c.length + 1)
        · intro t2; exact ⟨[], rfl, by simp⟩
        · intro _ _
          exact ⟨[pathAppend c e], rfl, by simp [pathAppend]⟩
        · intro _ _ _ _ _ _ f h t2 _
          exact ⟨[], rfl, by simp⟩
      obtain ⟨k1, h1, h2⟩ := hstep
      obtain ⟨k2, h3, h4⟩ := ih (visitEntry L w c st e)
      refine ⟨k2 ++ k1, ?_, ?_⟩
      · rw [h3, h1, List.append_assoc]
      · intro x hx
        rcases List.mem_append.mp hx with hx | hx
        · exact h4 x hx
        · exact h2 x hx

theorem walkStep_stack_len (L : Lib) (w : World) (st : WalkState) (c : Path) (rest : List Path)
    (hs : st.s = c :: rest) :
    ∃ ks, (walkStep L w st).s = ks ++ rest ∧ (∀ x ∈ ks, x.length = c.length + 1) ∧
      (directory_iterator (w st.t) c = [] → ks = []) := by
  unfold walkStep
  rw [hs]
  simp only
  by_cases hf : fuseTmpDir c = true
  · simp only [hf, if_true]
    exact ⟨[], rfl, by simp, fun _ => rfl⟩
  · simp only [hf, Bool.false_eq_true, if_false]
    obtain ⟨ks, h1, h2⟩ := visitLoop_stack_len L w c (directory_iterator (w st.t) c)
      { st with s := rest, t := st.t + 1 }
    refine ⟨ks, h1, h2, ?_⟩
    intro hnil
    rw [hnil] at h1
    simp only [visitLoop] at h1
    have := congrArg List.length h1
    simp only [List.length_append] at this
    exact List.length_eq_zero.mp (by omega)

theorem directory_iterator_nil_of_deep (fs : FileSys) (D : Nat)
    (hD : ∀ p : Path, D < p.length → is_directory fs p = false) (c : Path)
    (hc : D < c.length) : directory_iterator fs c = [] := by
  have h := hD c hc
  unfold directory_iterator
  unfold is_directory at h
  cases hfs : fs c with
  | none => rfl
  | some n =>
    rw [hfs] at h
    simp only [decide_eq_false_iff_not] at h
    simp [h]

/-! ### Inodes obtained at insertion -/

theorem records_mapPush_split (key : Key) (f : MyFile) :
    ∀ (m : List (Key × List MyFile)), ∃ pre post,
      records m = pre ++ post ∧ records (mapPush key f m) = pre ++ f :: post := by
  intro m
  induction m with
  | nil => exact ⟨[], [], by simp [records], by simp [mapPush, records]⟩
  | cons kv rest ih =>
    obtain ⟨k, v⟩ := kv
    simp only [mapPush]
    split
    · exact ⟨v, records rest, by simp [records], by simp [records]⟩
    · split
      · exact ⟨[], v ++ records rest, by simp [records], by simp [records]⟩
      · obtain ⟨pre, post, h1, h2⟩ := ih
        exact ⟨v ++ pre, post, by simp [records, h1], by simp [records, h2]⟩

theorem forall₂_insert {α β : Type} (R : α → β → Prop) (pre post : List α) (ys : List β)
    (a : α) (b : β) (h : List.Forall₂ R (pre ++ post) ys) (hab : R a b) :
    ∃ y1 y2, ys = y1 ++ y2 ∧ List.Forall₂ R (pre ++ a :: post) (y1 ++ b :: y2) := by
  have h1 := List.forall₂_take pre.length h
  have h2 := List.forall₂_drop pre.length h
  rw [List.take_left] at h1
  rw [List.drop_left] at h2
  exact ⟨ys.take pre.length, ys.drop pre.length, (List.take_append_drop _ _).symm,
    List.rel_append h1 (List.Forall₂.cons hab h2)⟩

theorem forall₂_sublist {α β : Type} (R : α → β → Prop) :
    ∀ {l2 l : List α}, l2.Sublist l → ∀ ys : List β, List.Forall₂ R l ys →
      ∃ ys2, ys2.Sublist ys ∧ List.Forall₂ R l2 ys2 := by
  intro l2 l hsub
  induction hsub with
  | slnil => intro ys h; exact ⟨[], List.nil_sublist _, List.Forall₂.nil⟩
  | cons a _ ih =>
    intro ys h
    cases h with
    | cons hab htl =>
      obtain ⟨ys2, h1, h2⟩ := ih _ htl
      exact ⟨ys2, List.Sublist.cons _ h1, h2⟩
  | cons₂ a _ ih =>
    intro ys h
    cases h with
    | cons hab htl =>
      obtain ⟨ys2, h1, h2⟩ := ih _ htl
      exact ⟨_ :: ys2, List.Sublist.cons₂ _ h1, List.Forall₂.cons hab h2⟩

theorem walkStep_SeenInv (L : Lib) (w : World) :
    ∀ st, SeenInv w st → SeenInv w (walkStep L w st) := by
  apply walkStep_inv
  · intro st t2 h; exact h
  · intro st c rest t2 _ h; exact h
  · intro st0 c rest _ _ _ st e h
    apply visitEntry_cases
    · intro t2; exact h
    · intro _ _; exact h
    · intro _ _ _ _ hino hcount f hh t2 hf
      obtain ⟨inos, h1, h2, h3⟩ := h
      have hpath : f.real_path_ = pathAppend c e := little_hash_fst_path L _ _ _ _ f hh hf
      have hat : InodeAt w f.real_path_
          (get_inode (w (MyFile.construct w (st.t + 2) (pathAppend c e)).2) (pathAppend c e)) :=
        ⟨hino, (MyFile.construct w (st.t + 2) (pathAppend c e)).2, by rw [hpath]⟩
      generalize get_inode (w (MyFile.construct w (st.t + 2) (pathAppend c e)).2)
        (pathAppend c e) = ino at hino hcount hat ⊢
      have hnew : ino ∉ st.checked_inodes := List.count_eq_zero.mp hcount
      obtain ⟨pre, post, e1, e2⟩ := records_mapPush_split (hh, f.size_) f st.all_files
      rw [e1] at h1
      obtain ⟨y1, y2, e3, h4⟩ := forall₂_insert _ pre post inos f ino h1 hat
      have hperm : (y1 ++ ino :: y2).Perm (ino :: (y1 ++ y2)) := List.perm_middle
      refine ⟨y1 ++ ino :: y2, ?_, ?_, ?_⟩
      · show List.Forall₂ _ (records (mapPush (hh, f.size_) f st.all_files)) _
        rw [e2]; exact h4
      · refine (List.Perm.nodup_iff hperm).mpr ?_
        rw [← e3]
        exact List.nodup_cons.mpr ⟨fun hm => hnew (h3.mem_iff.mp hm), h2⟩
      · refine hperm.trans ?_
        rw [← e3]
        exact List.Perm.cons _ h3

theorem walkLoop_SeenInv (L : Lib) (w : World) (root : Path) (fuel : Nat) :
    SeenInv w (walkLoop L w fuel (walkInit root)) := by
  apply walkLoop_inv L w _ (walkStep_SeenInv L w)
  exact ⟨[], by simp [walkInit, records], List.nodup_nil, by simp [walkInit]⟩

/-! ### Paths of the records in any world -/

theorem pathAppend_inj {c : Path} {e e2 : String} (h : pathAppend c e = pathAppend c e2) :
    e = e2 := by
  unfold pathAppend at h
  have := List.append_cancel_left h
  simpa using this

theorem prefix_pathAppend (c : Path) (e : String) : c <+: pathAppend c e :=
  List.prefix_append c [e]

theorem ListInv_mono {c : Path} {seen seen2 : List String} {st : WalkState}
    (h : ListInv c seen st) (hsub : ∀ e ∈ seen, e ∈ seen2) : ListInv c seen2 st := by
  obtain ⟨h1, h2, h3, h4⟩ := h
  refine ⟨h1, h2, ?_, ?_⟩
  · intro d hd hc
    obtain ⟨e, he, hde⟩ := h3 d hd hc
    exact ⟨e, hsub e he, hde⟩
  · intro f hf hc
    obtain ⟨e, he, hfe⟩ := h4 f hf hc
    exact ⟨e, hsub e he, hfe⟩

/-- An entry the listing loop has not seen is no pending directory and the
path of no record, and is not comparable with either. -/
theorem ListInv_fresh {c : Path} {seen : List String} {st : WalkState} {e : String}
    (h : ListInv c seen st) (he : e ∉ seen) :
    (∀ d ∈ st.s, ¬ pathAppend c e <+: d ∧ ¬ d <+: pathAppend c e) ∧
    (∀ f ∈ records st.all_files, ¬ pathAppend c e <+: f.real_path_) := by
  obtain ⟨_, h2, h3, h4⟩ := h
  have key : ∀ q : Path, (∃ e2 ∈ seen, q = pathAppend c e2) → ¬ pathAppend c e <+: q := by
    rintro q ⟨e2, he2, hq⟩ hp
    have hlen : (pathAppend c e).length = q.length := by
      rw [hq]; simp [pathAppend]
    have := hp.eq_of_length hlen
    rw [hq] at this
    exact he (pathAppend_inj this ▸ he2)
  refine ⟨?_, ?_⟩
  · intro d hd
    refine ⟨?_, ?_⟩
    · intro hp
      exact key d (h3 d hd ((prefix_pathAppend c e).trans hp)) hp
    · intro hp
      rcases List.prefix_concat_iff.mp hp with hp | hp
      · have hd2 : pathAppend c e <+: d := by
          rw [hp]; exact List.prefix_refl _
        exact key d (h3 d hd ((prefix_pathAppend c e).trans hd2)) hd2
      · exact h2 d hd hp
  · intro f hf hp
    exact key f.real_path_ (h4 f hf ((prefix_pathAppend c e).trans hp)) hp

theorem visitEntry_ListInv (L : Lib) (w : World) (c : Path) (seen : List String)
    (st : WalkState) (e : String) (h : ListInv c seen st) (he : e ∉ seen) :
    ListInv c (e :: seen) (visitEntry L w c st e) := by
  have hmono : ListInv c (e :: seen) st :=
    ListInv_mono h (fun x hx => List.mem_cons_of_mem _ hx)
  obtain ⟨fr1, fr2⟩ := ListInv_fresh h he
  obtain ⟨⟨p1, p2, p3⟩, h2, h3, h4⟩ := hmono
  apply visitEntry_cases
  · intro t2; exact ⟨⟨p1, p2, p3⟩, h2, h3, h4⟩
  · intro _ _
    refine ⟨⟨p1, ?_, ?_⟩, ?_, ?_, h4⟩
    · exact List.pairwise_cons.mpr ⟨fun d hd => fr1 d hd, p2⟩
    · intro d hd f hf
      rcases List.mem_cons.mp hd with hd | hd
      · rw [hd]; exact fr2 f hf
      · exact p3 d hd f hf
    · intro d hd
      rcases List.mem_cons.mp hd with hd | hd
      · rw [hd]
        intro hp
        have := hp.length_le
        simp [pathAppend] at this
      · exact h2 d hd
    · intro d hd hc
      rcases List.mem_cons.mp hd with hd | hd
      · exact ⟨e, List.mem_cons_self _ _, hd⟩
      · exact h3 d hd hc
  · intro _ _ _ _ _ _ f hh t2 hf
    have hpath : f.real_path_ = pathAppend c e := little_hash_fst_path L _ _ _ _ f hh hf
    have hperm := records_mapPush_perm (hh, f.size_) f st.all_files
    refine ⟨⟨?_, p2, ?_⟩, h2, h3, ?_⟩
    · have hp2 := List.Perm.map (fun f => f.real_path_) hperm
      refine (List.Perm.nodup_iff hp2).mpr ?_
      simp only [List.map_cons, List.nodup_cons]
      refine ⟨?_, p1⟩
      intro hmem
      obtain ⟨g, hg, hge⟩ := List.mem_map.mp hmem
      apply fr2 g hg
      rw [hge, hpath]
    · intro d hd g hg
      rcases (mem_records_mapPush _ _ _ _).mp hg with hg | hg
      · rw [hg, hpath]; exact (fr1 d hd).2
      · exact p3 d hd g hg
    · intro g hg hc
      rcases (mem_records_mapPush _ _ _ _).mp hg with hg | hg
      · exact ⟨e, List.mem_cons_self _ _, by rw [hg, hpath]⟩
      · exact h4 g hg hc

theorem visitLoop_ListInv (L : Lib) (w : World) (c : Path) :
    ∀ (es seen : List String) (st : WalkState), es.Nodup → (∀ e ∈ es, e ∉ seen) →
      ListInv c seen st → ∃ seen2, ListInv c seen2 (visitLoop L w c es st) := by
  intro es
  induction es with
  | nil => intro seen st _ _ h; exact ⟨seen, h⟩
  | cons e rest ih =>
    intro seen st hnd hfresh h
    simp only [visitLoop]
    split
    · exact ⟨seen, h⟩
    · have hnd2 := List.nodup_cons.mp hnd
      apply ih (e :: seen) _ hnd2.2
      · intro x hx hm
        rcases List.mem_cons.mp hm with hm | hm
        · rw [hm] at hx; exact hnd2.1 hx
        · exact hfresh x (List.mem_cons_of_mem _ hx) hm
      · exact visitEntry_ListInv L w c seen st e h (hfresh e (List.mem_cons_self _ _))

theorem walkStep_PathInv (L : Lib) (w : World)
    (hnames : ∀ t p, (directory_iterator (w t) p).Nodup) :
    ∀ st, PathInv st → PathInv (walkStep L w st) := by
  intro st h
  unfold walkStep
  split
  · exact h
  · rename_i c rest hs
    obtain ⟨p1, p2, p3⟩ := h
    rw [hs] at p2 p3
    have q2 := List.pairwise_cons.mp p2
    have hpop : PathInv { st with s := rest, t := st.t + 1 } :=
      ⟨p1, q2.2, fun d hd => p3 d (List.mem_cons_of_mem _ hd)⟩
    split
    · exact hpop
    · have hl : ListInv c [] { st with s := rest, t := st.t + 1 } := by
        refine ⟨hpop, ?_, ?_, ?_⟩
        · intro d hd; exact (q2.1 d hd).2
        · intro d hd hc; exact absurd hc (q2.1 d hd).1
        · intro f hf hc; exact absurd hc (p3 c (List.mem_cons_self _ _) f hf)
      obtain ⟨seen2, h2⟩ := visitLoop_ListInv L w c (directory_iterator (w st.t) c) []
        { st with s := rest, t := st.t + 1 } (hnames st.t c) (by simp) hl
      exact h2.1

/-- In a world in which no listing yields a name twice, the records of the
index have pairwise different paths, after any number of iterations. -/
theorem walkLoop_PathInv (L : Lib) (w : World)
    (hnames : ∀ t p, (directory_iterator (w t) p).Nodup) (root : Path) (fuel : Nat) :
    PathInv (walkLoop L w fuel (walkInit root)) := by
  apply walkLoop_inv L w _ (walkStep_PathInv L w hnames)
  refine ⟨by simp [walkInit, records], by simp [walkInit], ?_⟩
  intro d _ f hf
  simp [walkInit, records] at hf

/-! ## The queries of the group builder -/

theorem Queried_mono {files0 : List MyFile} {log log2 : List Event} {g : List Path}
    (h : Queried files0 log g) (hsub : ∀ e ∈ log, e ∈ log2) : Queried files0 log2 g := by
  obtain ⟨idxs, h1, h2⟩ := h
  refine ⟨idxs, h1, ?_⟩
  intro k hk
  obtain ⟨a, tq, t2, b⟩ := h2 k hk
  exact ⟨a, tq, t2, hsub _ b⟩

/-- The inner scan of the leader `i`: either the group of the leader is
removed, or it has grown by candidates that answered "not changed" to a query
of the scan. -/
theorem innerScan_queried (L : Lib) (w : World) (files0 : List MyFile) (i : Nat) :
    ∀ (todo : List Nat) (st : GroupState) (gs : List (List Path)) (cur : List Path),
      SnapRel st.files files0 → st.same_file_groups = gs ++ [cur] →
      (innerScan L w i todo st).same_file_groups = gs ∨
      ∃ js : List Nat,
        (innerScan L w i todo st).same_file_groups = gs ++ [cur ++ js.map (pathAt files0)] ∧
        ∀ j ∈ js, j ∈ todo ∧ ∃ tq t2, Event.changed j tq t2 false ∈ innerLog L w i todo st := by
  intro todo
  induction todo with
  | nil =>
    intro st gs cur _ hg
    exact Or.inr ⟨[], by simp [innerScan, hg], by simp⟩
  | cons k ks ih =>
    intro st gs cur hsnap hg
    simp only [innerScan, innerLog]
    generalize hcjd : (fileAt st.files k).changed w st.t = cj
    generalize hcid : (fileAt st.files i).changed w cj.2 = ci
    generalize hrd : (fileAt st.files i).compare L w ci.2 (fileAt st.files k) = res
    have hrs := compare_snap L w ci.2 (fileAt st.files i) (fileAt st.files k)
    rw [hrd] at hrs
    have hsnap2 : SnapRel ((st.files.set i res.1.2.1).set k res.1.2.2) files0 :=
      SnapRel_set2 hsnap i k _ _ hrs.1 hrs.2
    have hkeep : ∀ st2 : GroupState, SnapRel st2.files files0 →
        st2.same_file_groups = st.same_file_groups → ∀ pfx : List Event,
        (innerScan L w i ks st2).same_file_groups = gs ∨
        ∃ js : List Nat,
          (innerScan L w i ks st2).same_file_groups =
            gs ++ [cur ++ js.map (pathAt files0)] ∧
          ∀ j ∈ js, j ∈ k :: ks ∧
            ∃ tq t2, Event.changed j tq t2 false ∈ pfx ++ innerLog L w i ks st2 := by
      intro st2 hs2 hg2 pfx
      rcases ih st2 gs cur hs2 (by rw [hg2, hg]) with h | ⟨js, h1, h2⟩
      · exact Or.inl h
      · refine Or.inr ⟨js, h1, ?_⟩
        intro j hj
        obtain ⟨a, tq, t2, b⟩ := h2 j hj
        exact ⟨List.mem_cons_of_mem _ a, tq, t2, List.mem_append_right _ b⟩
    split
    · simpa using hkeep st hsnap rfl []
    · split
      · simpa using hkeep st hsnap rfl []
      · split
        · have := hkeep { st with checked := k :: st.checked, t := cj.2 } hsnap rfl
            [Event.changed k st.t cj.2 true]
          simpa using this
        · split
          · left; simp [hg]
          · split
            · have hpath : (fileAt ((st.files.set i res.1.2.1).set k res.1.2.2) k).real_path_
                  = pathAt files0 k := (hsnap2.2 k).1
              rw [hpath]
              rcases ih
                { st with files := (st.files.set i res.1.2.1).set k res.1.2.2,
                          same_file_groups := backPush st.same_file_groups (pathAt files0 k),
                          checked := k :: st.checked, t := res.2 }
                gs (cur ++ [pathAt files0 k]) hsnap2 (by simp [hg, backPush_concat])
                with h | ⟨js, h1, h2⟩
              · exact Or.inl h
              · refine Or.inr ⟨k :: js, by rw [h1]; simp, ?_⟩
                intro j hj
                rcases List.mem_cons.mp hj with h | h
                · rw [h]
                  exact ⟨List.mem_cons_self _ _, st.t, cj.2, List.mem_cons_self _ _⟩
                · obtain ⟨a, tq, t2, b⟩ := h2 j h
                  exact ⟨List.mem_cons_of_mem _ a, tq, t2,
                    List.mem_cons_of_mem _ (List.mem_cons_of_mem _ (List.mem_cons_of_mem _ b))⟩
            · have := hkeep { st with files := (st.files.set i res.1.2.1).set k res.1.2.2,
                                      t := res.2 } hsnap2 rfl
                [Event.changed k st.t cj.2 false, Event.changed i cj.2 ci.2 false,
                  Event.compare i k ci.2 res.1.1]
              simpa using this

/-- The leader loop: every group it builds or emits was there at the start or
has only members that answered "not changed" to a query of the loop. -/
theorem leaderLoop_queried (L : Lib) (w : World) (files0 : List MyFile) :
    ∀ (todo : List Nat) (st : GroupState),
      SnapRel st.files files0 → (∀ k ∈ todo, k < files0.length) →
      (∀ g ∈ (leaderLoop L w files0.length todo st).same_file_groups,
        g ∈ st.same_file_groups ∨
          Queried files0 (leaderLog L w files0.length todo st) g) ∧
      (∀ g ∈ (leaderLoop L w files0.length todo st).items,
        g ∈ st.items ∨ g ∈ st.same_file_groups ∨
          Queried files0 (leaderLog L w files0.length todo st) g) := by
  intro todo
  induction todo with
  | nil =>
    intro st _ _
    exact ⟨fun g hg => Or.inl hg, fun g hg => Or.inl hg⟩
  | cons i rest ih =>
    intro st hsnap hlt
    have hlt2 : ∀ k ∈ rest, k < files0.length := fun k hk => hlt k (List.mem_cons_of_mem _ hk)
    simp only [leaderLoop, leaderLog]
    generalize hcid : (fileAt st.files i).changed w st.t = ci
    split
    · exact ih st hsnap hlt2
    · split
      · obtain ⟨a1, a2⟩ := ih { st with checked := i :: st.checked, t := ci.2 } hsnap hlt2
        refine ⟨?_, ?_⟩
        · intro g hg
          rcases a1 g hg with h | h
          · exact Or.inl h
          · exact Or.inr (Queried_mono h (fun e he => List.mem_cons_of_mem _ he))
        · intro g hg
          rcases a2 g hg with h | h | h
          · exact Or.inl h
          · exact Or.inr (Or.inl h)
          · exact Or.inr (Or.inr (Queried_mono h (fun e he => List.mem_cons_of_mem _ he)))
      · have hpath : (fileAt st.files i).real_path_ = pathAt files0 i := (hsnap.2 i).1
        rw [hpath]
        obtain ⟨s1, s2, _, _⟩ := innerScan_idx L w files0 i (List.range files0.length)
          { st with same_file_groups := st.same_file_groups ++ [[pathAt files0 i]], t := ci.2 }
          st.same_file_groups [pathAt files0 i] hsnap rfl
        have hq := innerScan_queried L w files0 i (List.range files0.length)
          { st with same_file_groups := st.same_file_groups ++ [[pathAt files0 i]], t := ci.2 }
          st.same_file_groups [pathAt files0 i] hsnap rfl
        generalize hlog : innerLog L w i (List.range files0.length)
          { st with same_file_groups := st.same_file_groups ++ [[pathAt files0 i]],
                    t := ci.2 } = ilog at hq
        generalize hfin : innerScan L w i (List.range files0.length)
          { st with same_file_groups := st.same_file_groups ++ [[pathAt files0 i]],
                    t := ci.2 } = fin at hq s1 s2
        have hsub : ∀ g ∈ fin.same_file_groups, g ∈ st.same_file_groups ∨
            Queried files0 (Event.changed i st.t ci.2 false ::
              (ilog ++ leaderLog L w files0.length rest (emitGroups fin))) g := by
          intro g hg
          rcases hq with h | ⟨js, h1, h2⟩
          · rw [h] at hg; exact Or.inl hg
          · rw [h1] at hg
            rcases List.mem_append.mp hg with h | h
            · exact Or.inl h
            · right
              simp only [List.mem_singleton] at h
              refine ⟨i :: js, by rw [h]; simp, ?_⟩
              intro k hk
              rcases List.mem_cons.mp hk with hk | hk
              · rw [hk]
                exact ⟨hlt i (List.mem_cons_self _ _), st.t, ci.2, List.mem_cons_self _ _⟩
              · obtain ⟨a, tq, t2, b⟩ := h2 k hk
                exact ⟨List.mem_range.mp a, tq, t2,
                  List.mem_cons_of_mem _ (List.mem_append_left _ b)⟩
        obtain ⟨a1, a2⟩ := ih (emitGroups fin) s1 hlt2
        have hlift : ∀ g, Queried files0 (leaderLog L w files0.length rest (emitGroups fin)) g →
            Queried files0 (Event.changed i st.t ci.2 false ::
              (ilog ++ leaderLog L w files0.length rest (emitGroups fin))) g :=
          fun g h => Queried_mono h
            (fun e he => List.mem_cons_of_mem _ (List.mem_append_right _ he))
        refine ⟨?_, ?_⟩
        · intro g hg
          rcases a1 g hg with h | h
          · exact hsub g h
          · exact Or.inr (hlift g h)
        · intro g hg
          rcases a2 g hg with h | h | h
          · simp only [emitGroups, List.mem_append, List.mem_filter] at h
            rcases h with h | h
            · rw [s2] at h; exact Or.inl h
            · exact Or.inr (hsub g h.1)
          · exact Or.inr (hsub g h)
          · exact Or.inr (Or.inr (hlift g h))

/-- Every call of `changed()` in the log of an inner scan is the call on the
record of that index at that tick, with that answer. -/
theorem innerLog_sound (L : Lib) (w : World) (files0 : List MyFile) (i : Nat) :
    ∀ (todo : List Nat) (st : GroupState), SnapRel st.files files0 →
      ∀ k tq t2 r, Event.changed k tq t2 r ∈ innerLog L w i todo st →
        (fileAt files0 k).changed w tq = (r, t2) := by
  intro todo
  induction todo with
  | nil => intro st _ k tq t2 r h; simp [innerLog] at h
  | cons k0 ks ih =>
    intro st hsnap k tq t2 r
    simp only [innerLog]
    generalize hcjd : (fileAt st.files k0).changed w st.t = cj
    generalize hcid : (fileAt st.files i).changed w cj.2 = ci
    generalize hrd : (fileAt st.files i).compare L w ci.2 (fileAt st.files k0) = res
    have hrs := compare_snap L w ci.2 (fileAt st.files i) (fileAt st.files k0)
    rw [hrd] at hrs
    have hsnap2 : SnapRel ((st.files.set i res.1.2.1).set k0 res.1.2.2) files0 :=
      SnapRel_set2 hsnap i k0 _ _ hrs.1 hrs.2
    have hj : ∀ b, cj.1 = b → (fileAt files0 k0).changed w st.t = (b, cj.2) := by
      intro b hb
      rw [← changed_congr w st.t (hsnap.2 k0), hcjd, ← hb]
    have hi : ∀ b, ci.1 = b → (fileAt files0 i).changed w cj.2 = (b, ci.2) := by
      intro b hb
      rw [← changed_congr w cj.2 (hsnap.2 i), hcid, ← hb]
    split
    · exact ih st hsnap k tq t2 r
    · split
      · exact ih st hsnap k tq t2 r
      · split
        · rename_i hc
          intro h
          rcases List.mem_cons.mp h with h | h
          · injection h with e1 e2 e3 e4
            rw [e1, e2, e3, e4]; exact hj true hc
          · exact ih { st with checked := k0 :: st.checked, t := cj.2 } hsnap k tq t2 r h
        · rename_i hc
          have hc2 : cj.1 = false := by simpa using hc
          split
          · rename_i hci
            intro h
            simp only [List.mem_cons, List.mem_singleton, List.not_mem_nil, or_false] at h
            rcases h with h | h | h
            · injection h with e1 e2 e3 e4
              rw [e1, e2, e3, e4]; exact hj false hc2
            · injection h with e1 e2 e3 e4
              rw [e1, e2, e3, e4]; exact hi true hci
            · exact Event.noConfusion h
          · rename_i hci
            have hci2 : ci.1 = false := by simpa using hci
            have hpre : ∀ tail : List Event,
                (Event.changed k tq t2 r ∈ tail → (fileAt files0 k).changed w tq = (r, t2)) →
                Event.changed k tq t2 r ∈ Event.changed k0 st.t cj.2 false ::
                  Event.changed i cj.2 ci.2 false :: Event.compare i k0 ci.2 res.1.1 :: tail →
                (fileAt files0 k).changed w tq = (r, t2) := by
              intro tail htail h
              simp only [List.mem_cons] at h
              rcases h with h | h | h | h
              · injection h with e1 e2 e3 e4
                rw [e1, e2, e3, e4]; exact hj false hc2
              · injection h with e1 e2 e3 e4
                rw [e1, e2, e3, e4]; exact hi false hci2
              · exact Event.noConfusion h
              · exact htail h
            split
            · exact hpre _ (ih _ hsnap2 k tq t2 r)
            · exact hpre _ (ih _ hsnap2 k tq t2 r)

/-- Every call of `changed()` in the log of the leader loop is the call on the
record of that index at that tick, with that answer. -/
theorem leaderLog_sound (L : Lib) (w : World) (files0 : List MyFile) :
    ∀ (todo : List Nat) (st : GroupState), SnapRel st.files files0 →
      ∀ k tq t2 r, Event.changed k tq t2 r ∈ leaderLog L w files0.length todo st →
        (fileAt files0 k).changed w tq = (r, t2) := by
  intro todo
  induction todo with
  | nil => intro st _ k tq t2 r h; simp [leaderLog] at h
  | cons i rest ih =>
    intro st hsnap k tq t2 r
    simp only [leaderLog]
    generalize hcid : (fileAt st.files i).changed w st.t = ci
    have hi : ∀ b, ci.1 = b → (fileAt files0 i).changed w st.t = (b, ci.2) := by
      intro b hb
      rw [← changed_congr w st.t (hsnap.2 i), hcid, ← hb]
    split
    · exact ih st hsnap k tq t2 r
    · split
      · rename_i hc
        intro h
        rcases List.mem_cons.mp h with h | h
        · injection h with e1 e2 e3 e4
          rw [e1, e2, e3, e4]; exact hi true hc
        · exact ih { st with checked := i :: st.checked, t := ci.2 } hsnap k tq t2 r h
      · rename_i hc
        have hc2 : ci.1 = false := by simpa using hc
        have hpath : (fileAt st.files i).real_path_ = pathAt files0 i := (hsnap.2 i).1
        rw [hpath]
        obtain ⟨s1, _, _, _⟩ := innerScan_idx L w files0 i (List.range files0.length)
          { st with same_file_groups := st.same_file_groups ++ [[pathAt files0 i]], t := ci.2 }
          st.same_file_groups [pathAt files0 i] hsnap rfl
        intro h
        rcases List.mem_cons.mp h with h | h
        · injection h with e1 e2 e3 e4
          rw [e1, e2, e3, e4]; exact hi false hc2
        · rcases List.mem_append.mp h with h | h
          · exact innerLog_sound L w files0 i (List.range files0.length)
              { st with same_file_groups := st.same_file_groups ++ [[pathAt files0 i]],
                        t := ci.2 } hsnap k tq t2 r h
          · exact ih (emitGroups (innerScan L w i (List.range files0.length)
              { st with same_file_groups := st.same_file_groups ++ [[pathAt files0 i]],
                        t := ci.2 })) s1 k tq t2 r h

/-- Every call of `changed()` in the log of a bucket is the call on the record
of that index of the bucket at that tick, with that answer. -/
theorem bucketLog_sound (L : Lib) (w : World) (t : Nat) (files : List MyFile) :
    ∀ k tq t2 r, Event.changed k tq t2 r ∈ bucketLog L w t files →
      (fileAt files k).changed w tq = (r, t2) := by
  intro k tq t2 r h
  unfold bucketLog at h
  split at h
  · exact leaderLog_sound L w files (List.range files.length) _ (SnapRel_refl files) k tq t2 r h
  · simp at h

/-- Every member of a group emitted for a bucket answered "not changed" to a
query the group builder made on it. -/
theorem groupBucket_queried (L : Lib) (w : World) (t : Nat) (files : List MyFile) :
    ∀ g ∈ (groupBucket L w t files).1, Queried files (bucketLog L w t files) g := by
  intro g hg
  unfold groupBucket at hg
  unfold bucketLog
  split at hg
  · rename_i hlen
    simp only [hlen, if_true]
    have h := (leaderLoop_queried L w files (List.range files.length)
      { files := files, checked := [], same_file_groups := [], items := [], t := t }
      (SnapRel_refl files) (fun k hk => List.mem_range.mp hk)).2 g hg
    rcases h with h | h | h
    · simp at h
    · simp at h
    · exact h
  · simp at hg

/-- Every group of a report comes from one bucket of the index, and its
members answered "not changed" to a query of the log of that bucket. -/
theorem groupAll_queried (L : Lib) (w : World) :
    ∀ (m : List (Key × List MyFile)) (t : Nat) (g : List Path), g ∈ groupAll L w t m →
      ∃ (n : Nat) (kv : Key × List MyFile) (lg : List Event),
        m[n]? = some kv ∧ (groupAllLog L w t m)[n]? = some lg ∧ Queried kv.2 lg g := by
  intro m
  induction m with
  | nil => intro t g hg; simp [groupAll] at hg
  | cons x rest ih =>
    intro t g hg
    obtain ⟨key, files⟩ := x
    simp only [groupAll, List.mem_append] at hg
    rcases hg with hg | hg
    · exact ⟨0, (key, files), bucketLog L w t files, by simp, by simp [groupAllLog],
        groupBucket_queried L w t files g hg⟩
    · obtain ⟨n, kv, lg, h1, h2, h3⟩ := ih _ g hg
      exact ⟨n + 1, kv, lg, by simpa using h1, by simpa [groupAllLog] using h2, h3⟩

/-- When the records of an index have pairwise different paths, a path names
one bucket and one index in it. -/
theorem index_position (m : List (Key × List MyFile)) :
    ((records m).map (fun f => f.real_path_)).Nodup →
    ∀ (n n2 : Nat) (kv kv2 : Key × List MyFile) (k k2 : Nat),
      m[n]? = some kv → m[n2]? = some kv2 → k < kv.2.length → k2 < kv2.2.length →
      pathAt kv.2 k = pathAt kv2.2 k2 → n = n2 ∧ k = k2 := by
  induction m with
  | nil => intro _ n n2 kv kv2 k k2 h; simp at h
  | cons x rest ih =>
    intro hnd n n2 kv kv2 k k2 h1 h2 hk hk2 hp
    obtain ⟨key, v⟩ := x
    simp only [records, List.map_append] at hnd
    obtain ⟨nd1, nd2, hdis⟩ := List.nodup_append.mp hnd
    have hrest : ∀ (j : Nat) (kv3 : Key × List MyFile) (k3 : Nat), rest[j]? = some kv3 →
        k3 < kv3.2.length →
        pathAt kv3.2 k3 ∈ (records rest).map (fun f => f.real_path_) := by
      intro j kv3 k3 hj hk3
      have hmem : kv3 ∈ rest := List.getElem?_mem hj
      exact List.mem_map.mpr ⟨fileAt kv3.2 k3,
        mem_records_of_mem rest kv3 _ hmem (fileAt_mem kv3.2 k3 hk3), rfl⟩
    have hhead : ∀ k3, k3 < v.length → pathAt v k3 ∈ v.map (fun f => f.real_path_) :=
      fun k3 hk3 => List.mem_map.mpr ⟨fileAt v k3, fileAt_mem v k3 hk3, rfl⟩
    cases n with
    | zero =>
      simp only [List.getElem?_cons_zero, Option.some.injEq] at h1
      subst h1
      cases n2 with
      | zero =>
        simp only [List.getElem?_cons_zero, Option.some.injEq] at h2
        subst h2
        exact ⟨rfl, fileAt_inj (fun f => f.real_path_) v nd1 k k2 hk hk2 hp⟩
      | succ j2 =>
        simp only [List.getElem?_cons_succ] at h2
        exact absurd (hrest j2 kv2 k2 h2 hk2) (by rw [← hp]; exact hdis (hhead k hk))
    | succ j =>
      simp only [List.getElem?_cons_succ] at h1
      cases n2 with
      | zero =>
        simp only [List.getElem?_cons_zero, Option.some.injEq] at h2
        subst h2
        exact absurd (hrest j kv k h1 hk) (by rw [hp]; exact hdis (hhead k2 hk2))
      | succ j2 =>
        simp only [List.getElem?_cons_succ] at h2
        obtain ⟨e1, e2⟩ := ih nd2 j j2 kv kv2 k k2 h1 h2 hk hk2 hp
        exact ⟨by rw [e1], e2⟩

/-! ## The shape of the emitted groups -/

theorem foldl_push_back (L : Lib) (root : Path) :
    ∀ (g : List Path) (acc : List Json),
      g.foldl (fun item path => item.push_back (renderMember L root path)) (Json.array acc) =
        Json.array (acc ++ g.map (renderMember L root)) := by
  intro g
  induction g with
  | nil => intro acc; simp
  | cons p tl ih =>
    intro acc
    have e : (Json.array acc).push_back (renderMember L root p) =
        Json.array (acc ++ [renderMember L root p]) := rfl
    rw [List.foldl_cons, e, ih]
    simp

/-- The value `item` built for a group with at least one member is the array
of its rendered members, in order. -/
theorem renderGroup_array (L : Lib) (root : Path) (g : List Path) (h : g ≠ []) :
    renderGroup L root g = Json.array (g.map (renderMember L root)) := by
  cases g with
  | nil => exact absurd rfl h
  | cons p tl =>
    unfold renderGroup
    have e : Json.null.push_back (renderMember L root p) = Json.array [renderMember L root p] :=
      rfl
    rw [List.foldl_cons, e, foldl_push_back]
    simp

/-- The records of a finished or unfinished walk of an unchanging tree have
pairwise different paths. -/
theorem records_paths_nodup (L : Lib) (fs : FileSys) (root : Path) (fuel : Nat) :
    ((records (walkLoop L (still fs) fuel (walkInit root)).all_files).map
      (fun f => f.real_path_)).Nodup := by
  have h := (walkLoop_InodeInv L fs root fuel).1
  have he : (records (walkLoop L (still fs) fuel (walkInit root)).all_files).map (inodeOf fs) =
      ((records (walkLoop L (still fs) fuel (walkInit root)).all_files).map
        (fun f => f.real_path_)).map (get_inode fs) := by
    rw [List.map_map]; rfl
  rw [he] at h
  exact List.Nodup.of_map _ h

theorem foldl_pushAt (L : Lib) (root : Path) :
    ∀ (gs : List (List Path)) (acc : List Json),
      gs.foldl (fun output g => output.pushAt "items" (renderGroup L root g))
          (Json.object [("items", Json.array acc)]) =
        Json.object [("items", Json.array (acc ++ gs.map (renderGroup L root)))] := by
  intro gs
  induction gs with
  | nil => intro acc; simp
  | cons g tl ih =>
    intro acc
    have e : (Json.object [("items", Json.array acc)]).pushAt "items" (renderGroup L root g) =
        Json.object [("items", Json.array (acc ++ [renderGroup L root g]))] := by
      simp [Json.pushAt, Json.push_back, List.lookup]
    rw [List.foldl_cons, e, ih]
    simp

/-- The report of a run that emits at least one group is the object whose
`items` is the array of the rendered groups, in the order of emission. -/
theorem process_items (L : Lib) (w : World) (root : Path) (fuel : Nat)
    (out : List (List Path)) (h : reportGroups L w root fuel = some out) (hne : out ≠ []) :
    process L w root fuel =
      some (Json.object [("items", Json.array (out.map (renderGroup L root)))]) := by
  unfold process
  rw [h]
  cases out with
  | nil => exact absurd rfl hne
  | cons g tl =>
    have e : Json.null.pushAt "items" (renderGroup L root g) =
        Json.object [("items", Json.array [renderGroup L root g])] := rfl
    simp only [Option.map_some', List.foldl_cons, e, foldl_pushAt]
    simp

/-- C15 as stated fails.  For the scan root `data`, a relative path that the
command line hands to the core as it is, the members are rendered with the
`real_path` strings `data/a.txt` and `data/b.txt`, which are not absolute.  And
when a listing, read while the directory is modified, yields the name `a.txt`
twice and the file of that name is replaced in between by a copy with another
inode, both records have the path `/root/a.txt` and the group holds it twice. -/
theorem C15_counterexample :
    (find_dup.main demoLib (still fsRelative) (fun _ => true)
        ["find_dup", "data", "out.json"]).core = some (["data"], ["out.json"]) ∧
    process demoLib (still fsRelative) ["data"] 5 =
      some (Json.object [("items", Json.array [Json.array [
        Json.object [("display_path", Json.string "a.txt"),
                     ("real_path", Json.string "data/a.txt")],
        Json.object [("display_path", Json.string "b.txt"),
                     ("real_path", Json.string "data/b.txt")]]])]) ∧
    pathString ["data", "a.txt"] = "data/a.txt" ∧
    is_absolute ["data", "a.txt"] = false ∧ is_absolute ["data", "b.txt"] = false ∧
    directory_iterator (worldReplaced 0) demoRoot = ["a.txt", "a.txt"] ∧
    get_inode (worldReplaced 10) ["", "root", "a.txt"] = 11 ∧
    get_inode (worldReplaced 11) ["", "root", "a.txt"] = 12 ∧
    reportGroups demoLib worldReplaced demoRoot 5 =
      some [[["", "root", "a.txt"], ["", "root", "a.txt"]]] := by
  have hrun : reportGroups demoLib (still fsRelative) ["data"] 5 =
      some [[["data", "a.txt"], ["data", "b.txt"]]] := by decide!
  refine ⟨by decide!, ?_, by decide!, by decide!, by decide!, by decide!, by decide!,
    by decide!, by decide!⟩
  unfold process
  rw [hrun]
  rfl

/-- C15 amended.  Every group emitted for a bucket has at least 2 members; its
first member is the path of the leader and the others are the paths of the
matched candidates, other indices of the bucket in increasing order
(`GroupOf`), so its members are different records; it is rendered as the array of its members in order, each an object whose
`real_path` is the string of the record's path and whose `display_path` is
that path made relative to the scan root.  In a report every group has at
least 2 members, every member is the scan root as it was given followed by
names below it, and the members of a group are pairwise different when no
listing of the run yields a name twice; the report of a run that emits a group
is the object whose `items` is the array of the rendered groups. -/
theorem C15_emitted_group_shape (L : Lib) (w : World) (root : Path) (fuel : Nat) :
    (∀ (t : Nat) (files : List MyFile), ∀ g ∈ (groupBucket L w t files).1,
      2 ≤ g.length ∧
      (∃ i js, GroupOf L w t files i js g ∧ (i :: js).Nodup) ∧
      renderGroup L root g = Json.array (g.map (fun p =>
        Json.object [("display_path", Json.string (L.relative p root)),
                     ("real_path", Json.string (pathString p))]))) ∧
    (∀ out, reportGroups L w root fuel = some out →
      (∀ g ∈ out, 2 ≤ g.length ∧
        (∃ kv ∈ (walkLoop L w fuel (walkInit root)).all_files, ∃ t,
          g ∈ (groupBucket L w t kv.2).1) ∧
        (∀ p ∈ g, ∃ names e, p = root ++ names ++ [e]) ∧
        ((∀ t p, (directory_iterator (w t) p).Nodup) → g.Nodup)) ∧
      (out ≠ [] → process L w root fuel =
        some (Json.object [("items", Json.array (out.map (renderGroup L root)))]))) := by
  refine ⟨?_, ?_⟩
  · intro t files g hg
    obtain ⟨⟨i, js, hgo⟩, hlen⟩ := (groupBucket_groups L w t files).2 g hg
    refine ⟨hlen, ⟨i, js, hgo, GroupOf_indices_nodup hgo⟩, ?_⟩
    have hne : g ≠ [] := by
      intro h; rw [h] at hlen; simp at hlen
    rw [renderGroup_array L root g hne]
    rfl
  · intro out h
    refine ⟨?_, process_items L w root fuel out h⟩
    intro g hg
    obtain ⟨kv, hkv, ⟨i, js, hgo⟩, hlen⟩ := reportGroups_groups L w root fuel out h g hg
    refine ⟨hlen, ?_, ?_, ?_⟩
    · rw [reportGroups_some L w root fuel out h] at hg
      obtain ⟨kv2, hkv2, t2, hg2⟩ := groupAll_mem_exists L w _ _ g hg
      exact ⟨kv2, hkv2, t2, hg2⟩
    · intro p hp
      obtain ⟨f, hf, hfp, _⟩ := reportGroups_member L w root fuel out h g hg p hp
      obtain ⟨names, e, hsh, _⟩ := Recorded_shape ((walkLoop_WalkInv L w root fuel).2 f hf)
      exact ⟨names, e, by rw [← hfp]; exact hsh⟩
    · intro hnames
      have hnd := (walkLoop_PathInv L w hnames root fuel).1
      have hsub := bucket_sublist_records _ kv hkv
      have hb : (kv.2.map (fun f => f.real_path_)).Nodup :=
        List.Nodup.sublist (List.Sublist.map _ hsub) hnd
      have := GroupOf_nodup_map (fun p => p) hgo hb
      simpa using this

/-- C15 amended at the directory `/r`, given as the scan root `/r/` with a
separator at its end: the group of its two identical files is rendered with
the `real_path` strings `/r/a.txt` and `/r/b.txt`. -/
theorem C15_emitted_group_shape_witness :
    reportGroups demoLib (still fsTrailing) (toPath "/r/") 5 =
      some [[["", "r", "", "a.txt"], ["", "r", "", "b.txt"]]] ∧
    (∀ g ∈ [[["", "r", "", "a.txt"], ["", "r", "", "b.txt"]]], 2 ≤ g.length ∧
      (∃ kv ∈ (walkLoop demoLib (still fsTrailing) 5 (walkInit (toPath "/r/"))).all_files, ∃ t,
        g ∈ (groupBucket demoLib (still fsTrailing) t kv.2).1) ∧
      (∀ p ∈ g, ∃ names e, p = toPath "/r/" ++ names ++ [e]) ∧
      ((∀ t p, (directory_iterator (still fsTrailing t) p).Nodup) → g.Nodup)) ∧
    process demoLib (still fsTrailing) (toPath "/r/") 5 =
      some (Json.object [("items", Json.array [Json.array [
        Json.object [("display_path", Json.string "a.txt"),
                     ("real_path", Json.string "/r/a.txt")],
        Json.object [("display_path", Json.string "b.txt"),
                     ("real_path", Json.string "/r/b.txt")]]])]) := by
  have hrun : reportGroups demoLib (still fsTrailing) (toPath "/r/") 5 =
      some [[["", "r", "", "a.txt"], ["", "r", "", "b.txt"]]] := by decide!
  have h := (C15_emitted_group_shape demoLib (still fsTrailing) (toPath "/r/") 5).2 _ hrun
  refine ⟨hrun, h.1, ?_⟩
  rw [h.2 (by simp)]
  rfl

/-! ## Groups and equivalence classes -/

/-- C18: when no candidate of the bucket is ever reported changed and
`compare` returning 0 is an equivalence relation `E` on the indices of the
bucket (the hypotheses `ClassHyp`), and the records have pairwise different
paths, then the groups emitted for the bucket, as a set, are exactly the
classes with more than one member, each as the group of its first index: the
leader and then the other indices related to it, in increasing order.  Two
emitted groups that share a path are the same group; a leader is never marked
checked; and an earlier leader is not in the group of a later leader. -/
theorem C18_groups_are_classes (L : Lib) (w : World) (t : Nat) (files : List MyFile)
    (Rel : MyFile → MyFile → Prop) (E : Nat → Nat → Bool)
    (H : ClassHyp L w files Rel E) (hnd : (files.map (fun f => f.real_path_)).Nodup) :
    (∀ g, g ∈ (groupBucket L w t files).1 ↔
      ∃ m, m < files.length ∧ isLeader E m ∧ 1 < (classGroup files E m).length ∧
        g = classGroup files E m) ∧
    (∀ m, m < files.length → ∀ p, p ∈ classGroup files E m ↔
      ∃ k, k < files.length ∧ E m k = true ∧ pathAt files k = p) ∧
    (∀ g1 ∈ (groupBucket L w t files).1, ∀ g2 ∈ (groupBucket L w t files).1,
      ∀ p, p ∈ g1 → p ∈ g2 → g1 = g2) ∧
    (∀ m, m < files.length → isLeader E m →
      m ∉ (builderAt L w t files (List.range files.length)).checked) ∧
    (∀ m1 m2, m1 < m2 → m2 < files.length → isLeader E m1 → isLeader E m2 →
      pathAt files m1 ∉ classGroup files E m2) := by
  have hcls := groupBucket_class L w files Rel E H t
  have hmem : ∀ m, m < files.length → ∀ p, p ∈ classGroup files E m ↔
      ∃ k, k < files.length ∧ E m k = true ∧ pathAt files k = p :=
    fun m hm p => mem_classGroup files E m hm (H.refl m) p
  have hinj : ∀ a b, a < files.length → b < files.length →
      pathAt files a = pathAt files b → a = b :=
    fun a b ha hb h => fileAt_inj (fun f => f.real_path_) files hnd a b ha hb h
  have hlead : ∀ m1 m2, isLeader E m1 → isLeader E m2 → E m1 m2 = true → m1 = m2 := by
    intro m1 m2 h1 h2 hE
    rcases Nat.lt_trichotomy m1 m2 with h | h | h
    · rw [h2 m1 h] at hE; exact absurd hE (by decide)
    · exact h
    · have := H.symm m1 m2 hE
      rw [h1 m2 h] at this; exact absurd this (by decide)
  refine ⟨?_, hmem, ?_, ?_, ?_⟩
  · intro g
    constructor
    · intro hg
      obtain ⟨hlen, m, hm, hl, he⟩ := hcls.1 g hg
      exact ⟨m, hm, hl, by rw [← he]; exact hlen, he⟩
    · rintro ⟨m, hm, hl, hlen, he⟩
      rw [he]; exact hcls.2 m hm hl hlen
  · intro g1 hg1 g2 hg2 p hp1 hp2
    obtain ⟨_, m1, hm1, hl1, he1⟩ := hcls.1 g1 hg1
    obtain ⟨_, m2, hm2, hl2, he2⟩ := hcls.1 g2 hg2
    rw [he1] at hp1
    rw [he2] at hp2
    obtain ⟨k1, hk1, hE1, hp1⟩ := (hmem m1 hm1 p).mp hp1
    obtain ⟨k2, hk2, hE2, hp2⟩ := (hmem m2 hm2 p).mp hp2
    have hk : k1 = k2 := hinj k1 k2 hk1 hk2 (by rw [hp1, hp2])
    rw [hk] at hE1
    have hE : E m1 m2 = true := H.trans m1 k2 m2 hE1 (H.symm m2 k2 hE2)
    rw [he1, he2, hlead m1 m2 hl1 hl2 hE]
  · intro m hm hl hmc
    have hinv := leaderLoop_class L w files Rel E H files.length 0 (groupInit files t)
      (by omega)
      ⟨⟨rfl, fun k hk => H.rel_self k hk⟩, by simp [groupInit], by simp [groupInit], by
        intro m hm; omega, by simp [groupInit], by intro m hm; omega⟩
    rw [← List.range_eq_range'] at hinv
    obtain ⟨_, i, _, him, hE⟩ := (hinv.2.1 m).mp hmc
    rw [hl i him] at hE
    exact absurd hE (by decide)
  · intro m1 m2 hlt hm2 hl1 hl2 hmem1
    obtain ⟨k, hk, hE, hp⟩ := (hmem m2 hm2 _).mp hmem1
    have hk1 : k = m1 := hinj k m1 hk (by omega) hp
    rw [hk1] at hE
    have := H.symm m2 m1 hE
    rw [hl2 m1 hlt] at this
    exact absurd this (by decide)

/-- C18 at a bucket with the records of `a.txt`, `c.txt`, `b.txt`, where `a.txt`
and `b.txt` have the same bytes: the one group emitted, twice, is the class of
the two. -/
theorem C18_groups_are_classes_witness :
    (bucketMixed.map (fun f => f.real_path_)).Nodup ∧
    (groupBucket demoLib (still fsMixed) 0 bucketMixed).1 =
      [[["", "root", "a.txt"], ["", "root", "b.txt"]],
        [["", "root", "a.txt"], ["", "root", "b.txt"]]] ∧
    (∀ g, g ∈ (groupBucket demoLib (still fsMixed) 0 bucketMixed).1 ↔
      ∃ m, m < bucketMixed.length ∧ isLeader (dataRel fsMixed bucketMixed) m ∧
        1 < (classGroup bucketMixed (dataRel fsMixed bucketMixed) m).length ∧
        g = classGroup bucketMixed (dataRel fsMixed bucketMixed) m) := by
  have hnd : (bucketMixed.map (fun f => f.real_path_)).Nodup := by decide!
  have hrec : ∀ f ∈ bucketMixed,
      Eligible fsMixed f.real_path_ ∧ f = recordOf demoLib fsMixed f.real_path_ := by
    intro f hf
    simp only [bucketMixed, List.mem_cons, List.mem_singleton, List.not_mem_nil, or_false] at hf
    rcases hf with h | h | h
    · rw [h, recordOf_path]
      exact ⟨⟨demoFile 11 [7, 8, 9], by decide!, by decide!, by decide!, by decide!, by decide!,
        by decide!, by decide!, by decide!⟩, rfl⟩
    · rw [h, recordOf_path]
      exact ⟨⟨demoFile 13 [7, 8, 1], by decide!, by decide!, by decide!, by decide!, by decide!,
        by decide!, by decide!, by decide!⟩, rfl⟩
    · rw [h, recordOf_path]
      exact ⟨⟨demoFile 12 [7, 8, 9], by decide!, by decide!, by decide!, by decide!, by decide!,
        by decide!, by decide!, by decide!⟩, rfl⟩
  exact ⟨hnd, by decide!,
    (C18_groups_are_classes demoLib (still fsMixed) 0 bucketMixed CacheRel
      (dataRel fsMixed bucketMixed) (bucket_ClassHyp demoLib fsMixed bucketMixed hrec hnd)
      hnd).1⟩

/-! ## Inodes of the records and of the groups -/

theorem forall₂_getD {α β : Type} (R : α → β → Prop) (dx : α) (dy : β) :
    ∀ {xs : List α} {ys : List β}, List.Forall₂ R xs ys → ∀ k, k < xs.length →
      R (xs.getD k dx) (ys.getD k dy) := by
  intro xs ys h
  induction h with
  | nil => intro k hk; simp at hk
  | cons hab _ ih =>
    intro k hk
    cases k with
    | zero => simpa using hab
    | succ j =>
      simp only [List.length_cons, Nat.add_lt_add_iff_right] at hk
      simpa using ih j hk

theorem getD_mem {β : Type} (d : β) : ∀ (ys : List β) (k : Nat), k < ys.length →
    ys.getD k d ∈ ys := by
  intro ys
  induction ys with
  | nil => intro k hk; simp at hk
  | cons y tl ih =>
    intro k hk
    cases k with
    | zero => simp
    | succ j =>
      simp only [List.length_cons, Nat.add_lt_add_iff_right] at hk
      simpa using Or.inr (ih j hk)

theorem getD_inj_of_nodup {β : Type} (d : β) : ∀ (ys : List β), ys.Nodup →
    ∀ a b, a < ys.length → b < ys.length → ys.getD a d = ys.getD b d → a = b := by
  intro ys
  induction ys with
  | nil => intro _ a b ha; simp at ha
  | cons y tl ih =>
    intro hnd a b ha hb h
    obtain ⟨hy, htl⟩ := List.nodup_cons.mp hnd
    simp only [List.length_cons] at ha hb
    cases a with
    | zero =>
      cases b with
      | zero => rfl
      | succ j =>
        simp only [List.getD_cons_zero, List.getD_cons_succ] at h
        exact absurd (h ▸ getD_mem d tl j (by omega)) hy
    | succ i =>
      cases b with
      | zero =>
        simp only [List.getD_cons_zero, List.getD_cons_succ] at h
        exact absurd (h ▸ getD_mem d tl i (by omega)) hy
      | succ j =>
        simp only [List.getD_cons_succ] at h
        rw [ih htl i j (by omega) (by omega) h]

/-- The members of a group built from a bucket of the index have pairwise
different inodes among those obtained when their records were inserted. -/
theorem group_inodes (L : Lib) (w : World) (st : WalkState) (hinv : SeenInv w st)
    (kv : Key × List MyFile) (hkv : kv ∈ st.all_files) (t0 : Nat) (i : Nat) (js : List Nat)
    (g : List Path) (hgo : GroupOf L w t0 kv.2 i js g) :
    ∃ ginos : List Nat, List.Forall₂ (fun p ino => InodeAt w p ino) g ginos ∧ ginos.Nodup ∧
      ∀ ino ∈ ginos, ino ∈ st.checked_inodes := by
  obtain ⟨inos, h1, h2, h3⟩ := hinv
  obtain ⟨binos, hb1, hb2⟩ := forall₂_sublist _ (bucket_sublist_records _ kv hkv) inos h1
  have hlen : kv.2.length = binos.length := hb2.length_eq
  have hidx := GroupOf_indices_nodup hgo
  obtain ⟨hg, hi, hjs, _, _, _⟩ := hgo
  have hlt : ∀ k ∈ i :: js, k < kv.2.length := by
    intro k hk
    rcases List.mem_cons.mp hk with h | h
    · rw [h]; exact hi
    · exact (hjs k h).1
  refine ⟨(i :: js).map (fun k => binos.getD k 0), ?_, ?_, ?_⟩
  · rw [hg, List.forall₂_map_left_iff, List.forall₂_map_right_iff, List.forall₂_same]
    intro k hk
    exact forall₂_getD _ (MyFile.init []) 0 hb2 k (hlt k hk)
  · apply List.Nodup.map_on _ hidx
    intro a ha b hb hab
    exact getD_inj_of_nodup 0 binos (List.Nodup.sublist hb1 h2) a b
      (by rw [← hlen]; exact hlt a ha) (by rw [← hlen]; exact hlt b hb) hab
  · intro ino hino
    obtain ⟨k, hk, hke⟩ := List.mem_map.mp hino
    rw [← hke]
    exact h3.mem_iff.mp (hb1.subset (getD_mem 0 binos k (by rw [← hlen]; exact hlt k hk)))

theorem map_inode_of_forall₂ {α : Type} (w : World) (fs : FileSys) (φ : α → Path)
    (hw : ∀ t p, get_inode (w t) p = get_inode fs p) :
    ∀ {xs : List α} {inos : List Nat},
      List.Forall₂ (fun x ino => InodeAt w (φ x) ino) xs inos →
      xs.map (fun x => get_inode fs (φ x)) = inos := by
  intro xs inos h
  induction h with
  | nil => rfl
  | cons hab _ ih =>
    obtain ⟨_, t, ht⟩ := hab
    rw [List.map_cons, ih, ← hw t, ht]

/-- C5: in every world and after any number of iterations of the walker, the
records of the whole bucket index can be listed with the inode obtained for
each when it was inserted, and these inodes are pairwise different and are the
members of `checked_inodes`; the members of every reported group have pairwise
different such inodes; `checked_inodes` holds no inode twice and as many
inodes as the index holds records.  In a world in which every path keeps its
inode (the contents and the times of the files may change), and so in a tree
that does not change, these are the inodes of the paths: no two records and no
two members of a group have the same inode.  One pass of the loop body either
leaves the index as it was or inserts a record for the entry, whose inode was
not in `checked_inodes`, and adds that inode to `checked_inodes`. -/
theorem C5_distinct_inodes (L : Lib) (root : Path) (fuel : Nat) :
    (∀ w : World, ∃ inos : List Nat,
      List.Forall₂ (fun f ino => InodeAt w f.real_path_ ino)
        (records (walkLoop L w fuel (walkInit root)).all_files) inos ∧
      inos.Nodup ∧ inos.Perm (walkLoop L w fuel (walkInit root)).checked_inodes) ∧
    (∀ w : World, (walkLoop L w fuel (walkInit root)).checked_inodes.Nodup ∧
      (walkLoop L w fuel (walkInit root)).checked_inodes.length =
        (records (walkLoop L w fuel (walkInit root)).all_files).length) ∧
    (∀ (w : World) (out : List (List Path)), reportGroups L w root fuel = some out →
      ∀ g ∈ out, ∃ ginos : List Nat,
        List.Forall₂ (fun p ino => InodeAt w p ino) g ginos ∧ ginos.Nodup ∧
        ∀ ino ∈ ginos, ino ∈ (walkLoop L w fuel (walkInit root)).checked_inodes) ∧
    (∀ (w : World) (fs : FileSys), (∀ t p, get_inode (w t) p = get_inode fs p) →
      ((records (walkLoop L w fuel (walkInit root)).all_files).map
        (fun f => get_inode fs f.real_path_)).Nodup ∧
      ∀ out, reportGroups L w root fuel = some out →
        ∀ g ∈ out, (g.map (get_inode fs)).Nodup) ∧
    (∀ fs : FileSys,
      ((records (walkLoop L (still fs) fuel (walkInit root)).all_files).map
        (fun f => get_inode fs f.real_path_)).Nodup) ∧
    (∀ (fs : FileSys) (out : List (List Path)), reportGroups L (still fs) root fuel = some out →
      ∀ g ∈ out, (g.map (get_inode fs)).Nodup) ∧
    (∀ (w : World) (c : Path) (st : WalkState) (e : String),
      (visitEntry L w c st e).all_files = st.all_files ∨
      ∃ t f h, st.checked_inodes.count (get_inode (w t) (pathAppend c e)) = 0 ∧
        (visitEntry L w c st e).checked_inodes =
          get_inode (w t) (pathAppend c e) :: st.checked_inodes ∧
        (visitEntry L w c st e).all_files = mapPush (h, f.size_) f st.all_files ∧
        f.real_path_ = pathAppend c e) := by
  have hgroups : ∀ (w : World) (out : List (List Path)), reportGroups L w root fuel = some out →
      ∀ g ∈ out, ∃ ginos : List Nat,
        List.Forall₂ (fun p ino => InodeAt w p ino) g ginos ∧ ginos.Nodup ∧
        ∀ ino ∈ ginos, ino ∈ (walkLoop L w fuel (walkInit root)).checked_inodes := by
    intro w out h g hg
    obtain ⟨kv, hkv, ⟨i, js, hgo⟩, _⟩ := reportGroups_groups L w root fuel out h g hg
    exact group_inodes L w _ (walkLoop_SeenInv L w root fuel) kv hkv _ i js g hgo
  refine ⟨fun w => walkLoop_SeenInv L w root fuel, ?_, hgroups, ?_,
    fun fs => (walkLoop_InodeInv L fs root fuel).1, ?_, ?_⟩
  · intro w
    obtain ⟨inos, h1, h2, h3⟩ := walkLoop_SeenInv L w root fuel
    exact ⟨(List.Perm.nodup_iff h3).mp h2, by rw [← h3.length_eq, h1.length_eq]⟩
  · intro w fs hw
    refine ⟨?_, ?_⟩
    · obtain ⟨inos, h1, h2, _⟩ := walkLoop_SeenInv L w root fuel
      rw [map_inode_of_forall₂ w fs (fun f : MyFile => f.real_path_) hw h1]
      exact h2
    · intro out h g hg
      obtain ⟨ginos, h1, h2, _⟩ := hgroups w out h g hg
      have hmap := map_inode_of_forall₂ w fs (fun p : Path => p) hw h1
      rw [hmap]
      exact h2
  · intro fs out h g hg
    have hinv := walkLoop_InodeInv L fs root fuel
    obtain ⟨kv, hkv, ⟨i, js, hgo⟩, _⟩ := reportGroups_groups L (still fs) root fuel out h g hg
    apply GroupOf_nodup_map (get_inode fs) hgo
    have hsub := bucket_sublist_records _ kv hkv
    exact List.Nodup.sublist (List.Sublist.map (inodeOf fs) hsub) hinv.1
  · intro w c st e
    apply visitEntry_cases L w c st e
      (fun st2 => st2.all_files = st.all_files ∨
        ∃ t f h, st.checked_inodes.count (get_inode (w t) (pathAppend c e)) = 0 ∧
          st2.checked_inodes = get_inode (w t) (pathAppend c e) :: st.checked_inodes ∧
          st2.all_files = mapPush (h, f.size_) f st.all_files ∧
          f.real_path_ = pathAppend c e)
    · intro t2; exact Or.inl rfl
    · intro _ _; exact Or.inl rfl
    · intro _ _ _ _ _ hcount f hh t2 hf
      exact Or.inr ⟨_, f, hh, hcount, rfl, rfl, little_hash_fst_path L _ _ _ _ f hh hf⟩

/-- C5 at a tree where `p1` and `p2` are hard links of one inode and `q` is a
copy: one of the two links is recorded, the seen inodes are 11 and 12, and the
group has two inodes. -/
theorem C5_distinct_inodes_witness :
    reportGroups demoLib (still (fsLinks ["p1", "p2", "q"])) demoRoot 5 =
        some [[["", "root", "p1"], ["", "root", "q"]]] ∧
    (walkLoop demoLib (still (fsLinks ["p1", "p2", "q"])) 5 (walkInit demoRoot)).checked_inodes =
      [12, 11] ∧
    ∀ g ∈ [[["", "root", "p1"], ["", "root", "q"]]],
      (g.map (get_inode (fsLinks ["p1", "p2", "q"]))).Nodup := by
  have hrun : reportGroups demoLib (still (fsLinks ["p1", "p2", "q"])) demoRoot 5 =
      some [[["", "root", "p1"], ["", "root", "q"]]] := by decide!
  exact ⟨hrun, by decide!,
    (C5_distinct_inodes demoLib demoRoot 5).2.2.2.2.2.1 (fsLinks ["p1", "p2", "q"]) _ hrun⟩

/-! ## Changed candidates -/

/-- C6: a candidate of a bucket whose `changed()` answers true at every query
the group builder makes on it is in no group emitted for the run.  For one
bucket (whose records have pairwise different paths, so that a path names one
candidate): if every call of `changed()` on the index `k` in the log of the
group builder on the bucket answered true, the path of `k` is in no group
emitted for the bucket; a call in the log is the call of `changed()` on the
record of that index at that tick, with that answer.  For a whole run (in which no listing yields a name
twice): if every call of `changed()` on the index `k` of the `n`-th bucket in
the log of that bucket answered true, the path of that candidate is in no
group of the report.  And without any condition: every member of an emitted
group is the path of a candidate that answered "not changed" to a call of
`changed()` in the log of its bucket. -/
theorem C6_changed_candidate_in_no_group (L : Lib) (w : World) :
    (∀ (t : Nat) (files : List MyFile) (k : Nat), k < files.length →
      (files.map (fun f => f.real_path_)).Nodup →
      (∀ tq t2 r, Event.changed k tq t2 r ∈ bucketLog L w t files → r = true) →
      ∀ g ∈ (groupBucket L w t files).1, pathAt files k ∉ g) ∧
    (∀ (root : Path) (fuel : Nat) (out : List (List Path)),
      reportGroups L w root fuel = some out →
      (∀ t p, (directory_iterator (w t) p).Nodup) →
      ∀ (n : Nat) (kv : Key × List MyFile) (lg : List Event) (k : Nat),
        (walkLoop L w fuel (walkInit root)).all_files[n]? = some kv →
        (groupAllLog L w (walkLoop L w fuel (walkInit root)).t
          (walkLoop L w fuel (walkInit root)).all_files)[n]? = some lg →
        k < kv.2.length →
        (∀ tq t2 r, Event.changed k tq t2 r ∈ lg → r = true) →
        ∀ g ∈ out, pathAt kv.2 k ∉ g) ∧
    (∀ (t : Nat) (files : List MyFile), ∀ g ∈ (groupBucket L w t files).1,
      ∃ idxs : List Nat, g = idxs.map (pathAt files) ∧
        ∀ k ∈ idxs, k < files.length ∧
          ∃ tq t2, Event.changed k tq t2 false ∈ bucketLog L w t files) ∧
    (∀ (root : Path) (fuel : Nat) (out : List (List Path)),
      reportGroups L w root fuel = some out → ∀ g ∈ out,
      ∃ (n : Nat) (kv : Key × List MyFile) (lg : List Event),
        (walkLoop L w fuel (walkInit root)).all_files[n]? = some kv ∧
        (groupAllLog L w (walkLoop L w fuel (walkInit root)).t
          (walkLoop L w fuel (walkInit root)).all_files)[n]? = some lg ∧
        ∃ idxs : List Nat, g = idxs.map (pathAt kv.2) ∧
          ∀ k ∈ idxs, k < kv.2.length ∧ ∃ tq t2, Event.changed k tq t2 false ∈ lg) ∧
    (∀ (t : Nat) (files : List MyFile) (k tq t2 : Nat) (r : Bool),
      Event.changed k tq t2 r ∈ bucketLog L w t files →
      (fileAt files k).changed w tq = (r, t2)) := by
  refine ⟨?_, ?_, fun t files g hg => groupBucket_queried L w t files g hg, ?_,
    fun t files => bucketLog_sound L w t files⟩
  · intro t files k hk hnd hq g hg hp
    obtain ⟨idxs, h1, h2⟩ := groupBucket_queried L w t files g hg
    rw [h1] at hp
    obtain ⟨k2, hk2, hke⟩ := List.mem_map.mp hp
    obtain ⟨hlt, tq, t2, hev⟩ := h2 k2 hk2
    have : k2 = k := fileAt_inj (fun f => f.real_path_) files hnd k2 k hlt hk hke
    rw [this] at hev
    exact Bool.noConfusion (hq tq t2 false hev)
  · intro root fuel out h hnames n kv lg k hn hl hk hq g hg hp
    rw [reportGroups_some L w root fuel out h] at hg
    obtain ⟨n2, kv2, lg2, a1, a2, idxs, h1, h2⟩ := groupAll_queried L w _ _ g hg
    rw [h1] at hp
    obtain ⟨k2, hk2, hke⟩ := List.mem_map.mp hp
    obtain ⟨hlt, tq, t2, hev⟩ := h2 k2 hk2
    obtain ⟨e1, e2⟩ := index_position _ (walkLoop_PathInv L w hnames root fuel).1
      n2 n kv2 kv k2 k a1 hn hlt hk hke
    rw [e1, hl] at a2
    rw [e2, ← Option.some.inj a2] at hev
    exact Bool.noConfusion (hq tq t2 false hev)
  · intro root fuel out h g hg
    rw [reportGroups_some L w root fuel out h] at hg
    exact groupAll_queried L w _ _ g hg

/-- C6 at three identical files of which `b.txt` is touched at tick 37, after
group building has started at tick 31: the one call of `changed()` on `b.txt`,
made at tick 37, answers true, and the report is the group of `a.txt` and
`c.txt`, without `b.txt`. -/
theorem C6_changed_candidate_in_no_group_witness :
    reportGroups demoLib worldLate demoRoot 5 =
        some [[["", "root", "a.txt"], ["", "root", "c.txt"]]] ∧
    (walkLoop demoLib worldLate 5 (walkInit demoRoot)).t = 31 ∧
    (walkLoop demoLib worldLate 5 (walkInit demoRoot)).all_files.map Prod.snd = [bucketTrio] ∧
    bucketLog demoLib worldLate 31 bucketTrio =
      [Event.changed 0 31 37 false, Event.changed 1 37 41 true, Event.changed 2 41 47 false,
        Event.changed 0 47 53 false, Event.compare 0 2 53 0] ∧
    pathAt bucketTrio 1 = ["", "root", "b.txt"] ∧
    1 < bucketTrio.length ∧ (bucketTrio.map (fun f => f.real_path_)).Nodup ∧
    (∀ tq t2 r, Event.changed 1 tq t2 r ∈ bucketLog demoLib worldLate 31 bucketTrio →
      r = true) ∧
    ∀ g ∈ (groupBucket demoLib worldLate 31 bucketTrio).1, pathAt bucketTrio 1 ∉ g := by
  have hlog : bucketLog demoLib worldLate 31 bucketTrio =
      [Event.changed 0 31 37 false, Event.changed 1 37 41 true, Event.changed 2 41 47 false,
        Event.changed 0 47 53 false, Event.compare 0 2 53 0] := by decide!
  have hnd : (bucketTrio.map (fun f => f.real_path_)).Nodup := by decide!
  have hq : ∀ tq t2 r, Event.changed 1 tq t2 r ∈ bucketLog demoLib worldLate 31 bucketTrio →
      r = true := by
    intro tq t2 r h
    rw [hlog] at h
    simp at h
    exact h.2.2
  exact ⟨by decide!, by decide!, by decide!, hlog, by decide!, by decide, hnd, hq,
    (C6_changed_candidate_in_no_group demoLib worldLate).1 31 bucketTrio 1 (by decide) hnd hq⟩

/-! ## Directories listed by the walker -/

theorem visitEntry_stack_any (L : Lib) (w : World) (c : Path) (st : WalkState) (e : String) :
    (visitEntry L w c st e).s =
      if (!dotName e && is_directory (w st.t) (pathAppend c e)) = true then
        pathAppend c e :: st.s
      else st.s := by
  unfold visitEntry
  simp only [filename_pathAppend]
  by_cases hd : dotName e = true
  · simp [hd]
  · by_cases hdir : is_directory (w st.t) (pathAppend c e) = true
    · simp [hd, hdir]
    · simp only [hd, hdir, Bool.false_eq_true, if_false]
      simp only [Bool.not_eq_true] at hd hdir
      simp only [hd, hdir, Bool.not_false, Bool.and_false, Bool.false_eq_true, if_false]
      split
      · split
        · rfl
        · split
          · rfl
          · split <;> rfl
      · rfl

theorem foldl_visitEntry_stack_any (L : Lib) (w : World) (fs : FileSys) (c : Path)
    (hdir : ∀ t p, is_directory (w t) p = is_directory fs p) :
    ∀ (es : List String) (st : WalkState),
      (es.foldl (visitEntry L w c) st).s =
        ((es.filter (fun e => !dotName e && is_directory fs (pathAppend c e))).map
          (pathAppend c)).reverse ++ st.s := by
  intro es
  induction es with
  | nil => intro st; simp
  | cons e rest ih =>
    intro st
    simp only [List.foldl_cons]
    rw [ih, visitEntry_stack_any, hdir]
    by_cases h : (!dotName e && is_directory fs (pathAppend c e)) = true
    · simp [List.filter_cons, h]
    · simp [List.filter_cons, h]

theorem walkStep_stack_any (L : Lib) (hno : ∀ t p, L.status_error t p = false) (w : World)
    (fs : FileSys) (hdir : ∀ t p, is_directory (w t) p = is_directory fs p)
    (hlist : ∀ t p, directory_iterator (w t) p = directory_iterator fs p)
    (st : WalkState) (c : Path) (rest : List Path) (hs : st.s = c :: rest) :
    (walkStep L w st).s = (children fs c).reverse ++ rest := by
  unfold walkStep children
  rw [hs]
  simp only
  by_cases hf : fuseTmpDir c = true
  · simp [hf]
  · simp only [hf, Bool.false_eq_true, if_false]
    rw [visitLoop_eq_foldl L _ c hno, foldl_visitEntry_stack_any L w fs c hdir, hlist]

/-- In a world whose directories are those of `fs` at every tick, with depth
bounded by `D` and without a failing status query, the walker consumes a
prefix `pre` of its stack in finitely many iterations, listing exactly `listed`
of its members. -/
theorem walk_consume_any (L : Lib) (hno : ∀ t p, L.status_error t p = false) (w : World)
    (fs : FileSys) (hdir : ∀ t p, is_directory (w t) p = is_directory fs p)
    (hlist : ∀ t p, directory_iterator (w t) p = directory_iterator fs p) (D : Nat)
    (hD : ∀ p : Path, D < p.length → is_directory fs p = false) :
    ∀ (d : Nat) (pre : List Path) (st : WalkState) (rest : List Path),
      st.s = pre ++ rest → (∀ c ∈ pre, D + 1 ≤ c.length + d) →
      ∃ n, (walkLoop L w n st).s = rest ∧
        walkTrace L w n st = pre.flatMap (listed fs d) := by
  intro d
  induction d with
  | zero =>
    intro pre
    induction pre with
    | nil => intro st rest hs _; exact ⟨0, by simpa [walkLoop] using hs, by simp [walkTrace]⟩
    | cons c pre2 ih =>
      intro st rest hs hdepth
      have hc : D < c.length := by
        have := hdepth c (List.mem_cons_self _ _); omega
      have hs1 : (walkStep L w st).s = pre2 ++ rest := by
        rw [walkStep_stack_any L hno w fs hdir hlist st c (pre2 ++ rest) (by simpa using hs),
          children_nil_of_deep fs D hD c hc]
        rfl
      obtain ⟨n, h1, h2⟩ := ih (walkStep L w st) rest hs1
        (fun x hx => hdepth x (List.mem_cons_of_mem _ hx))
      refine ⟨n + 1, ?_, ?_⟩
      · rw [walkLoop_succ L _ n st c (pre2 ++ rest) (by simpa using hs)]; exact h1
      · rw [walkTrace_succ L _ n st c (pre2 ++ rest) (by simpa using hs), h2]
        simp [listed]
  | succ d ihd =>
    intro pre
    induction pre with
    | nil => intro st rest hs _; exact ⟨0, by simpa [walkLoop] using hs, by simp [walkTrace]⟩
    | cons c pre2 ih =>
      intro st rest hs hdepth
      have hs0 : st.s = c :: (pre2 ++ rest) := by simpa using hs
      have hs1 : (walkStep L w st).s = (children fs c).reverse ++ (pre2 ++ rest) :=
        walkStep_stack_any L hno w fs hdir hlist st c (pre2 ++ rest) hs0
      obtain ⟨n1, h1, h2⟩ := ihd (children fs c).reverse (walkStep L w st)
        (pre2 ++ rest) hs1
        (by
          intro x hx
          have hx2 := children_length fs c x (List.mem_reverse.mp hx)
          have := hdepth c (List.mem_cons_self _ _)
          omega)
      obtain ⟨n2, h3, h4⟩ := ih (walkLoop L w n1 (walkStep L w st)) rest h1
        (fun x hx => hdepth x (List.mem_cons_of_mem _ hx))
      refine ⟨(n1 + n2) + 1, ?_, ?_⟩
      · rw [walkLoop_succ L _ _ st c (pre2 ++ rest) hs0, walkLoop_add]; exact h3
      · rw [walkTrace_succ L _ _ st c (pre2 ++ rest) hs0, walkTrace_add, h2, h4]
        simp [listed]

/-- With the depth bounded by `D` at every tick, the walker consumes a prefix
`pre` of its stack in finitely many iterations, in any world and whatever
status queries fail. -/
theorem walk_terminates_any (L : Lib) (w : World) (D : Nat)
    (hD : ∀ t (p : Path), D < p.length → is_directory (w t) p = false) :
    ∀ (d : Nat) (pre : List Path) (st : WalkState) (rest : List Path),
      st.s = pre ++ rest → (∀ c ∈ pre, D + 1 ≤ c.length + d) →
      ∃ n, (walkLoop L w n st).s = rest := by
  intro d
  induction d with
  | zero =>
    intro pre
    induction pre with
    | nil => intro st rest hs _; exact ⟨0, by simpa [walkLoop] using hs⟩
    | cons c pre2 ih =>
      intro st rest hs hdepth
      have hc : D < c.length := by
        have := hdepth c (List.mem_cons_self _ _); omega
      have hs0 : st.s = c :: (pre2 ++ rest) := by simpa using hs
      obtain ⟨ks, h1, _, h3⟩ := walkStep_stack_len L w st c (pre2 ++ rest) hs0
      have hk : ks = [] :=
        h3 (directory_iterator_nil_of_deep (w st.t) D (hD st.t) c hc)
      rw [hk] at h1
      obtain ⟨n, hn⟩ := ih (walkStep L w st) rest (by simpa using h1)
        (fun x hx => hdepth x (List.mem_cons_of_mem _ hx))
      exact ⟨n + 1, by rw [walkLoop_succ L _ n st c (pre2 ++ rest) hs0]; exact hn⟩
  | succ d ihd =>
    intro pre
    induction pre with
    | nil => intro st rest hs _; exact ⟨0, by simpa [walkLoop] using hs⟩
    | cons c pre2 ih =>
      intro st rest hs hdepth
      have hs0 : st.s = c :: (pre2 ++ rest) := by simpa using hs
      obtain ⟨ks, h1, h2, _⟩ := walkStep_stack_len L w st c (pre2 ++ rest) hs0
      obtain ⟨n1, hn1⟩ := ihd ks (walkStep L w st) (pre2 ++ rest) h1
        (by
          intro x hx
          have hx2 := h2 x hx
          have := hdepth c (List.mem_cons_self _ _)
          omega)
      obtain ⟨n2, hn2⟩ := ih (walkLoop L w n1 (walkStep L w st)) rest hn1
        (fun x hx => hdepth x (List.mem_cons_of_mem _ hx))
      exact ⟨(n1 + n2) + 1, by
        rw [walkLoop_succ L _ _ st c (pre2 ++ rest) hs0, walkLoop_add]; exact hn2⟩

theorem walkStep_reached (L : Lib) (w : World) (fs : FileSys) (root : Path)
    (hdir : ∀ t p, is_directory (w t) p = is_directory fs p)
    (hlist : ∀ t p, directory_iterator (w t) p = directory_iterator fs p) :
    ∀ st, (∀ c ∈ st.s, Reach fs root c) → ∀ c ∈ (walkStep L w st).s, Reach fs root c := by
  apply walkStep_inv_mem L w (fun st => ∀ c ∈ st.s, Reach fs root c)
  · intro st t2 h; exact h
  · intro st c rest t2 hs h d hd
    exact h d (by rw [hs]; exact List.mem_cons_of_mem _ hd)
  · intro st0 c rest hs h0 hfuse e he st h
    have hc : Reach fs root c := h0 c (by rw [hs]; exact List.mem_cons_self _ _)
    rw [hlist] at he
    apply visitEntry_cases L w c st e (fun st2 => ∀ d ∈ st2.s, Reach fs root d)
    · intro t2; exact h
    · intro hdot hd d hdm
      rcases List.mem_cons.mp hdm with hdm | hdm
      · rw [hdm]
        exact Reach.step c e hc hfuse he hdot (by rw [← hdir st.t]; exact hd)
      · exact h d hdm
    · intro _ _ _ _ _ _ f hh t2 _
      exact h

/-- In a world whose directories are those of `fs` at every tick, every
directory the walker lists is a reached directory without `xzfs_fuse_tmp` in
its path string, whatever status queries fail. -/
theorem walkTrace_Reach (L : Lib) (w : World) (fs : FileSys) (root : Path)
    (hdir : ∀ t p, is_directory (w t) p = is_directory fs p)
    (hlist : ∀ t p, directory_iterator (w t) p = directory_iterator fs p) :
    ∀ (fuel : Nat) (st : WalkState), (∀ c ∈ st.s, Reach fs root c) →
      ∀ c ∈ walkTrace L w fuel st, Reach fs root c ∧ fuseTmpDir c = false := by
  intro fuel
  induction fuel with
  | zero => intro st _ c hc; simp [walkTrace] at hc
  | succ n ih =>
    intro st hinv c hc
    unfold walkTrace at hc
    split at hc
    · simp at hc
    · rename_i d rest hs
      rcases List.mem_append.mp hc with h | h
      · split at h
        · simp at h
        · rename_i hf
          simp only [List.mem_singleton] at h
          rw [h]
          exact ⟨hinv d (by rw [hs]; exact List.mem_cons_self _ _), by simpa using hf⟩
      · exact ih _ (walkStep_reached L w fs root hdir hlist st hinv) c h

/-- C10 as stated fails.  With the directory symlink `l` to `d`, the physical
directory with inode 5 is handed to `directory_iterator` twice, once as
`/root/l` and once as `/root/d`.  With the symbolic link `loop` back to its
own directory `/root`, the walk ends only because the system refuses to follow
more than 40 links, after that one physical directory has been listed 41
times.  And an entry whose status query fails ends the listing of its
directory: `sub`, which comes after `bad` in the listing of `/root`, is a
reached directory that is never listed. -/
theorem C10_counterexample :
    ((walkLoop demoLib (still fsSymlink) 5 (walkInit demoRoot)).s = [] ∧
      walkTrace demoLib (still fsSymlink) 5 (walkInit demoRoot) =
        [["", "root"], ["", "root", "l"], ["", "root", "d"]] ∧
      get_inode fsSymlink ["", "root", "l"] = get_inode fsSymlink ["", "root", "d"]) ∧
    ((walkLoop cycleLib (still fsCycle) 50 (walkInit demoRoot)).s = [] ∧
      walkTrace cycleLib (still fsCycle) 50 (walkInit demoRoot) =
        (List.range 41).map (fun n => demoRoot ++ List.replicate n "loop") ∧
      (walkTrace cycleLib (still fsCycle) 50 (walkInit demoRoot)).map (get_inode fsCycle) =
        List.replicate 41 2) ∧
    ((walkLoop brokenLib (still (fsBroken ["bad", "sub"])) 5 (walkInit demoRoot)).s = [] ∧
      walkTrace brokenLib (still (fsBroken ["bad", "sub"])) 5 (walkInit demoRoot) =
        [["", "root"]] ∧
      Reach (fsBroken ["bad", "sub"]) demoRoot ["", "root", "sub"] ∧
      fuseTmpDir ["", "root", "sub"] = false) := by
  refine ⟨by decide!, ⟨by decide!, by decide!, by decide!⟩, by decide!, by decide!, ?_,
    by decide!⟩
  exact Reach.step demoRoot "sub" Reach.root (by decide!) (by decide!) (by decide!) (by decide!)

/-- C10 amended.  In a world in which, at every tick, paths longer than some
bound do not resolve to a directory (on a real system path resolution is
bounded: a chain of symbolic links back to an ancestor ends in an error), the
traversal terminates, whatever changes and whatever status queries fail.  In a
world whose directories and listings are those of the tree `fs` at every tick
(files may change, and so may the times of everything), the walker lists only
reached directories; when moreover no status query fails with an error and no
listing yields a name twice, the directories handed to `directory_iterator`
are exactly the reached directories without `xzfs_fuse_tmp` in their path
string, each path once; and if no two reached paths share an inode (no
directory is reachable by more than one path), no physical directory is
listed twice. -/
theorem C10_directories_listed_once_per_path (L : Lib) (w : World) (root : Path) (D : Nat)
    (hD : ∀ t (p : Path), D < p.length → is_directory (w t) p = false) :
    (∃ fuel, (walkLoop L w fuel (walkInit root)).s = []) ∧
    (∀ fs : FileSys, (∀ t p, is_directory (w t) p = is_directory fs p) →
      (∀ t p, directory_iterator (w t) p = directory_iterator fs p) →
      (∀ fuel, ∀ c ∈ walkTrace L w fuel (walkInit root),
        Reach fs root c ∧ fuseTmpDir c = false) ∧
      ((∀ t p, L.status_error t p = false) → (∀ p, (directory_iterator fs p).Nodup) →
        ∃ fuel, (walkLoop L w fuel (walkInit root)).s = [] ∧
          (∀ c, c ∈ walkTrace L w fuel (walkInit root) ↔
            (Reach fs root c ∧ fuseTmpDir c = false)) ∧
          (walkTrace L w fuel (walkInit root)).Nodup ∧
          ((∀ p q, Reach fs root p → Reach fs root q →
              get_inode fs p = get_inode fs q → p = q) →
            ((walkTrace L w fuel (walkInit root)).map (get_inode fs)).Nodup))) := by
  refine ⟨?_, ?_⟩
  · exact walk_terminates_any L w D hD (D + 1) [root] (walkInit root) [] rfl
      (by intro c hc; simp only [List.mem_singleton] at hc; rw [hc]; omega)
  · intro fs hdir hlist
    have hDfs : ∀ p : Path, D < p.length → is_directory fs p = false := by
      intro p hp; rw [← hdir 0 p]; exact hD 0 p hp
    refine ⟨?_, ?_⟩
    · intro fuel c hc
      apply walkTrace_Reach L w fs root hdir hlist fuel (walkInit root) _ c hc
      intro c hc
      simp only [walkInit, List.mem_singleton] at hc
      rw [hc]; exact Reach.root
    · intro hno hnames
      obtain ⟨n, h1, h2⟩ := walk_consume_any L hno w fs hdir hlist D hDfs (D + 1) [root]
        (walkInit root) [] rfl
        (by intro c hc; simp only [List.mem_singleton] at hc; rw [hc]; omega)
      have htr : walkTrace L w n (walkInit root) = listed fs (D + 1) root := by
        rw [h2]; simp
      have hmem : ∀ c, c ∈ walkTrace L w n (walkInit root) ↔
          (Reach fs root c ∧ fuseTmpDir c = false) := by
        intro c
        rw [htr]
        constructor
        · exact listed_sound fs root (D + 1) root c Reach.root
        · rintro ⟨hr, hf⟩
          exact listed_complete fs root D hDfs (D + 1) (by omega) c hr hf
      have hnd : (walkTrace L w n (walkInit root)).Nodup := by
        rw [htr]; exact listed_nodup fs hnames (D + 1) root
      refine ⟨n, h1, hmem, hnd, ?_⟩
      intro hino
      apply List.Nodup.map_on _ hnd
      intro a ha b hb hab
      exact hino a b ((hmem a).mp ha).1 ((hmem b).mp hb).1 hab

/-- C10 amended at the link `loop` back to `/root`, where the system follows at
most 40 links: the walk terminates; and at a tree with the nested directories
`sub` and `sub/deep`, where no status query fails: the reached directories are
listed, each once. -/
theorem C10_directories_listed_once_per_path_witness :
    (∀ t (p : Path), 42 < p.length → is_directory (still fsCycle t) p = false) ∧
    (∃ fuel, (walkLoop cycleLib (still fsCycle) fuel (walkInit demoRoot)).s = []) ∧
    (∀ t (p : Path), 4 < p.length → is_directory (still fsNested t) p = false) ∧
    (∀ p, (directory_iterator fsNested p).Nodup) ∧
    ∃ fuel, (walkLoop demoLib (still fsNested) fuel (walkInit demoRoot)).s = [] ∧
      (∀ c, c ∈ walkTrace demoLib (still fsNested) fuel (walkInit demoRoot) ↔
        (Reach fsNested demoRoot c ∧ fuseTmpDir c = false)) ∧
      (walkTrace demoLib (still fsNested) fuel (walkInit demoRoot)).Nodup ∧
      ((walkTrace demoLib (still fsNested) fuel (walkInit demoRoot)).map
        (get_inode fsNested)).Nodup := by
  have hC : ∀ t (p : Path), 42 < p.length → is_directory (still fsCycle t) p = false := by
    intro t p hp
    have : loopPath 40 p = false := by
      simp only [loopPath, Bool.and_eq_false_iff, decide_eq_false_iff_not]
      left; right; omega
    simp [is_directory, still, fsCycle, this]
  have hD : ∀ t (p : Path), 4 < p.length → is_directory (still fsNested t) p = false := by
    intro t p hp
    simp only [is_directory, still, fsNested]
    split_ifs with h1 h2 h3 h4 h5
    · rw [h1] at hp; simp [demoRoot] at hp
    · rfl
    · rw [h3] at hp; simp at hp
    · rfl
    · rw [h5] at hp; simp at hp
    · rfl
  have hnames : ∀ p, (directory_iterator fsNested p).Nodup := by
    intro p
    simp only [directory_iterator, fsNested]
    split_ifs <;> decide
  have hdir : ∀ p, Reach fsNested demoRoot p →
      p = demoRoot ∨ p = ["", "root", "sub"] ∨ p = ["", "root", "sub", "deep"] := by
    intro p hp
    cases hp with
    | root => exact Or.inl rfl
    | step c e _ _ _ _ hd =>
      generalize pathAppend c e = q at hd
      simp only [is_directory, fsNested] at hd
      split_ifs at hd with h1 h2 h3 h4 h5
      · exact Or.inl h1
      · simp [demoFile] at hd
      · exact Or.inr (Or.inl h3)
      · simp [demoFile] at hd
      · exact Or.inr (Or.inr h5)
  have hino : ∀ p q, Reach fsNested demoRoot p → Reach fsNested demoRoot q →
      get_inode fsNested p = get_inode fsNested q → p = q := by
    intro p q hp hq
    rcases hdir p hp with h | h | h <;> rcases hdir q hq with h2 | h2 | h2 <;>
      rw [h, h2] <;> decide
  obtain ⟨fuel, h1, h2, h3, h4⟩ :=
    ((C10_directories_listed_once_per_path demoLib (still fsNested) demoRoot 4 hD).2 fsNested
      (fun _ _ => rfl) (fun _ _ => rfl)).2 (fun _ _ => rfl) hnames
  exact ⟨hC, (C10_directories_listed_once_per_path cycleLib (still fsCycle) demoRoot 42 hC).1,
    hD, hnames, fuel, h1, h2, h3, h4 hino⟩

/-! ## Two runs over one tree -/

theorem sameTree_fsBroken (o1 o2 : List String) (h : o1.Perm o2) :
    sameTree (fsBroken o1) (fsBroken o2) := by
  intro p
  simp only [fsBroken]
  split_ifs
  · right
    exact ⟨_, _, rfl, rfl, rfl, rfl, rfl, rfl, rfl, rfl, rfl, h⟩
  · right
    exact ⟨_, _, rfl, rfl, rfl, rfl, rfl, rfl, rfl, rfl, rfl, List.Perm.refl _⟩
  · right
    exact ⟨_, _, rfl, rfl, rfl, rfl, rfl, rfl, rfl, rfl, rfl, List.Perm.refl _⟩
  · right
    exact ⟨_, _, rfl, rfl, rfl, rfl, rfl, rfl, rfl, rfl, rfl, List.Perm.refl _⟩
  · left
    exact ⟨rfl, rfl⟩

/-- C8 as stated fails, in three ways.  `p1` and `p2` are hard links of one
inode and `q` is a copy: the run that lists `p1` first reports the group of
`p1` and `q`, the run that lists `p2` first reports the group of `p2` and `q`.
On a file system that moves the access time of a file when it is first read,
the first run over the untouched tree `fsPair` changes the access times by its
own reads, after it took the snapshots, and reports no group (the report is
the value null); the second run,
over the tree as the first run left it, reports the group of `a.txt` and
`b.txt`.  And when the status query on the entry `bad` fails, the run that
lists `bad` first leaves the listing before it has seen `a.txt` and `b.txt` and
reports no group, the run that lists `bad` last reports their group. -/
theorem C8_counterexample :
    (sameTree (fsLinks ["p1", "p2", "q"]) (fsLinks ["p2", "p1", "q"]) ∧
      reportGroups demoLib (still (fsLinks ["p1", "p2", "q"])) demoRoot 5 =
        some [[["", "root", "p1"], ["", "root", "q"]]] ∧
      reportGroups demoLib (still (fsLinks ["p2", "p1", "q"])) demoRoot 5 =
        some [[["", "root", "p2"], ["", "root", "q"]]] ∧
      ¬ sameGroupSets [[["", "root", "p1"], ["", "root", "q"]]]
          [[["", "root", "p2"], ["", "root", "q"]]]) ∧
    (reportGroups demoLib worldSelfRead demoRoot 5 = some [] ∧
      process demoLib worldSelfRead demoRoot 5 = some Json.null ∧
      reportGroups demoLib (still (fsPairRead ["a.txt", "b.txt"])) demoRoot 5 =
        some [[["", "root", "a.txt"], ["", "root", "b.txt"]]] ∧
      ¬ sameGroupSets [] [[["", "root", "a.txt"], ["", "root", "b.txt"]]]) ∧
    (sameTree (fsBroken ["bad", "a.txt", "b.txt"]) (fsBroken ["a.txt", "b.txt", "bad"]) ∧
      reportGroups brokenLib (still (fsBroken ["bad", "a.txt", "b.txt"])) demoRoot 5 =
        some [] ∧
      reportGroups brokenLib (still (fsBroken ["a.txt", "b.txt", "bad"])) demoRoot 5 =
        some [[["", "root", "a.txt"], ["", "root", "b.txt"]]]) := by
  have hself : reportGroups demoLib worldSelfRead demoRoot 5 = some [] := by decide!
  refine ⟨⟨?_, by decide!, by decide!, ?_⟩, ⟨hself, by unfold process; rw [hself]; rfl,
    by decide!, ?_⟩, sameTree_fsBroken _ _ (by decide), by decide!, by decide!⟩
  · intro p
    simp only [fsLinks]
    split_ifs
    · right
      exact ⟨_, _, rfl, rfl, rfl, rfl, rfl, rfl, rfl, rfl, rfl, by decide⟩
    · right
      exact ⟨_, _, rfl, rfl, rfl, rfl, rfl, rfl, rfl, rfl, rfl, List.Perm.refl _⟩
    · right
      exact ⟨_, _, rfl, rfl, rfl, rfl, rfl, rfl, rfl, rfl, rfl, List.Perm.refl _⟩
    · right
      exact ⟨_, _, rfl, rfl, rfl, rfl, rfl, rfl, rfl, rfl, rfl, List.Perm.refl _⟩
    · left
      exact ⟨rfl, rfl⟩
  · intro h
    obtain ⟨g, hg, hm⟩ := h.1 _ (List.mem_singleton.mpr rfl)
    simp only [List.mem_singleton] at hg
    rw [hg] at hm
    have := (hm ["", "root", "p1"]).mp (by decide)
    revert this
    decide
  · intro h
    obtain ⟨g, hg, _⟩ := h.2 _ (List.mem_singleton.mpr rfl)
    simp at hg

/-- C8 amended: two runs over one tree, each of which observes the same state
of the tree throughout (contents, sizes and the three times of every file,
access times included), whatever the order in which the two runs list the
entries of each directory, report the same set of group membership sets,
provided no status query fails with an error and no two candidate paths
(eligible file entries the walker reaches) share an inode. -/
theorem C8_same_groups_in_any_order (L : Lib) (fs1 fs2 : FileSys) (root : Path)
    (fuel1 fuel2 : Nat) (out1 out2 : List (List Path))
    (hno : ∀ t p, L.status_error t p = false) (htree : sameTree fs1 fs2)
    (hino : ∀ p q, Candidate fs1 root p → Candidate fs1 root q →
      get_inode fs1 p = get_inode fs1 q → p = q)
    (h1 : reportGroups L (still fs1) root fuel1 = some out1)
    (h2 : reportGroups L (still fs2) root fuel2 = some out2) :
    sameGroupSets out1 out2 := by
  have hino2 : ∀ p q, Candidate fs2 root p → Candidate fs2 root q →
      get_inode fs2 p = get_inode fs2 q → p = q := by
    intro p q hp hq he
    have hs := sameTree_symm htree
    apply hino p q (sameTree_Candidate hs root p hp) (sameTree_Candidate hs root q hq)
    rw [sameTree_get_inode htree, sameTree_get_inode htree]
    exact he
  refine ⟨report_subset L hno fs1 fs2 root fuel1 fuel2 out1 out2 htree hino hino2 h1 h2, ?_⟩
  intro h hh
  obtain ⟨g, hg, hm⟩ := report_subset L hno fs2 fs1 root fuel2 fuel1 out2 out1
    (sameTree_symm htree) hino2 hino h2 h1 h hh
  exact ⟨g, hg, fun p => (hm p).symm⟩

/-- C8 amended at a tree without hard links, listed as `a.txt, b.txt, c.txt` by
one run and as `c.txt, b.txt, a.txt` by the other: the groups list their
members in different orders and have the same members. -/
theorem C8_same_groups_in_any_order_witness :
    sameTree (fsOrder ["a.txt", "b.txt", "c.txt"]) (fsOrder ["c.txt", "b.txt", "a.txt"]) ∧
    reportGroups demoLib (still (fsOrder ["a.txt", "b.txt", "c.txt"])) demoRoot 5 =
      some [[["", "root", "a.txt"], ["", "root", "b.txt"]]] ∧
    reportGroups demoLib (still (fsOrder ["c.txt", "b.txt", "a.txt"])) demoRoot 5 =
      some [[["", "root", "b.txt"], ["", "root", "a.txt"]]] ∧
    sameGroupSets [[["", "root", "a.txt"], ["", "root", "b.txt"]]]
      [[["", "root", "b.txt"], ["", "root", "a.txt"]]] := by
  have htree : sameTree (fsOrder ["a.txt", "b.txt", "c.txt"])
      (fsOrder ["c.txt", "b.txt", "a.txt"]) := by
    intro p
    simp only [fsOrder]
    split_ifs
    · right
      exact ⟨_, _, rfl, rfl, rfl, rfl, rfl, rfl, rfl, rfl, rfl, by decide⟩
    · right
      exact ⟨_, _, rfl, rfl, rfl, rfl, rfl, rfl, rfl, rfl, rfl, List.Perm.refl _⟩
    · right
      exact ⟨_, _, rfl, rfl, rfl, rfl, rfl, rfl, rfl, rfl, rfl, List.Perm.refl _⟩
    · right
      exact ⟨_, _, rfl, rfl, rfl, rfl, rfl, rfl, rfl, rfl, rfl, List.Perm.refl _⟩
    · left
      exact ⟨rfl, rfl⟩
  have hfile : ∀ p, Candidate (fsOrder ["a.txt", "b.txt", "c.txt"]) demoRoot p →
      p = ["", "root", "a.txt"] ∨ p = ["", "root", "b.txt"] ∨ p = ["", "root", "c.txt"] := by
    rintro p ⟨_, _, _, _, _, _, _, n, hn, hr, _⟩
    simp only [fsOrder] at hn
    split_ifs at hn with h1 h2 h3 h4
    · rw [← Option.some.inj hn] at hr; simp [demoDir] at hr
    · exact Or.inl h2
    · exact Or.inr (Or.inl h3)
    · exact Or.inr (Or.inr h4)
  have hino : ∀ p q, Candidate (fsOrder ["a.txt", "b.txt", "c.txt"]) demoRoot p →
      Candidate (fsOrder ["a.txt", "b.txt", "c.txt"]) demoRoot q →
      get_inode (fsOrder ["a.txt", "b.txt", "c.txt"]) p =
        get_inode (fsOrder ["a.txt", "b.txt", "c.txt"]) q → p = q := by
    intro p q hp hq
    rcases hfile p hp with h | h | h <;> rcases hfile q hq with h2 | h2 | h2 <;>
      rw [h, h2] <;> decide
  have h1 : reportGroups demoLib (still (fsOrder ["a.txt", "b.txt", "c.txt"])) demoRoot 5 =
      some [[["", "root", "a.txt"], ["", "root", "b.txt"]]] := by decide!
  have h2 : reportGroups demoLib (still (fsOrder ["c.txt", "b.txt", "a.txt"])) demoRoot 5 =
      some [[["", "root", "b.txt"], ["", "root", "a.txt"]]] := by decide!
  exact ⟨htree, h1, h2,
    C8_same_groups_in_any_order demoLib _ _ demoRoot 5 5 _ _ (fun _ _ => rfl) htree hino h1 h2⟩

end DupFinder
